import Mathlib

/-!
# Rescue Bot (Gluttonous-Snake): navigation and survival core

A shallow embedding of `src/game.c`.  C `int` values are modelled by `Int`
(every quantity of the game stays far inside the 32-bit range), C arrays by
total functions or lists, pointer out-parameters by returned values, and the
calls to `rand()` by an explicit list of the values drawn, consumed in program
order.  Rendering (ncurses) has no effect on the game state and is left out.
-/

namespace RescueBot

/-! ## Constants -/

/-- Height of the board (`BOARD_ROWS`). -/
def BOARD_ROWS : Int := 20

/-- Width of the board (`BOARD_COLS`). -/
def BOARD_COLS : Int := 50

/-- Number of protected steps granted after a respawn (`INVINCIBLE_TICKS`). -/
def INVINCIBLE_TICKS : Int := 10

/-- Lives at game start (`INITIAL_LIVES`). -/
def INITIAL_LIVES : Int := 3

/-- Rescues needed for a level-up (`PEOPLE_PER_LEVEL`). -/
def PEOPLE_PER_LEVEL : Int := 5

/-- Capacity of the mine array (`MAX_MINES`). -/
def MAX_MINES : Int := 50

/-- Mines placed at game start (`BASE_MINES`). -/
def BASE_MINES : Int := 5

/-- Mines added per level-up (`MINES_PER_LEVEL`). -/
def MINES_PER_LEVEL : Int := 2

/-- Delay of a step at level 1 (`BASE_DELAY_MS`). -/
def BASE_DELAY_MS : Int := 400

/-- Smallest delay of a step (`MIN_DELAY_MS`). -/
def MIN_DELAY_MS : Int := 50

/-- Capacity of the body array (`MAX_BODY_SEGMENTS`). -/
def MAX_BODY_SEGMENTS : Int := 20

/-! ## Data model -/

/-- A cell of the board (`Position`). -/
structure Position where
  x : Int
  y : Int
deriving DecidableEq, Repr

/-- The robot (`Robot`); `body` is the array `body[MAX_BODY_SEGMENTS]`, read by index. -/
structure Robot where
  pos : Position
  direction : Char
  ai_mode : Bool
  invincible : Bool
  invincible_ticks : Int
  body_length : Int
  body : Nat → Position

/-- The progress record (`Player`), without the name. -/
structure Player where
  score : Int
  lives : Int
  level : Int
  rescued : Int
deriving DecidableEq, Repr

/-- The cross-shaped obstacle (`CrossObstacle`). -/
structure CrossObstacle where
  width : Int
  height : Int
  center_x : Int
  center_y : Int
deriving DecidableEq, Repr

/-- The integers `lo, lo+1, ..., hi-1`, the values of `for (i = lo; i < hi; i++)`. -/
def loopRange (lo hi : Int) : List Int :=
  (List.range (hi - lo).toNat).map (fun (k : Nat) => lo + (k : Int))

/-! ## Directions and the body -/

/-- The function `set_direction`. -/
def set_direction (robot : Robot) (dir : Char) : Robot :=
  { robot with direction := dir }

/-- The function `direction_to_delta`: the pair `(dx, dy)` it stores. -/
def direction_to_delta (dir : Char) : Int × Int :=
  if dir = 'N' then (0, -1)
  else if dir = 'S' then (0, 1)
  else if dir = 'W' then (-1, 0)
  else if dir = 'E' then (1, 0)
  else (0, 0)

/-- The clamped length computed at the start of `reset_robot_body_from_lives`. -/
def clamp_body_length (lives : Int) : Int :=
  let len := lives
  let len := if len < 0 then 0 else len
  if len > MAX_BODY_SEGMENTS then MAX_BODY_SEGMENTS else len

/-- One pass of the segment loop of `reset_robot_body_from_lives`, for index `i`. -/
def reset_segment (pos : Position) (dx dy : Int) (i : Nat) : Position :=
  let bx := pos.x - dx * ((i : Int) + 1)
  let byy := pos.y - dy * ((i : Int) + 1)
  if bx ≤ 1 ∨ bx ≥ BOARD_COLS - 2 ∨ byy ≤ 1 ∨ byy ≥ BOARD_ROWS - 2 then pos
  else ⟨bx, byy⟩

/-- The function `reset_robot_body_from_lives`. -/
def reset_robot_body_from_lives (robot : Robot) (player : Player) : Robot :=
  let len := clamp_body_length player.lives
  let d := direction_to_delta robot.direction
  let d := if d.1 = 0 ∧ d.2 = 0 then ((-1 : Int), (0 : Int)) else d
  { robot with
    body_length := len
    body := (List.range len.toNat).foldl
      (fun b i => Function.update b i (reset_segment robot.pos d.1 d.2 i)) robot.body }

/-- The shifting loop of `move_robot`: `body[i] = body[i-1]` for `i` from `n` down to 1. -/
def shift_body (body : Nat → Position) : Nat → Nat → Position
  | 0 => body
  | i + 1 => shift_body (Function.update body (i + 1) (body i)) i

/-- The function `move_robot`. -/
def move_robot (robot : Robot) : Robot :=
  let d := direction_to_delta robot.direction
  let body := shift_body robot.body (robot.body_length - 1).toNat
  let body := if robot.body_length > 0 then Function.update body 0 robot.pos else body
  { robot with
    body := body
    pos := ⟨robot.pos.x + d.1, robot.pos.y + d.2⟩ }

/-! ## Obstacle and mines -/

/-- The function `init_obstacle`. -/
def init_obstacle : CrossObstacle :=
  { width := 11, height := 11,
    center_x := Int.tdiv BOARD_COLS 2, center_y := Int.tdiv BOARD_ROWS 2 }

/-- The function `is_obstacle_position`. -/
def is_obstacle_position (obstacle : CrossObstacle) (x y : Int) : Bool :=
  let cx := obstacle.center_x
  let cy := obstacle.center_y
  let half_w := Int.tdiv obstacle.width 2
  let half_h := Int.tdiv obstacle.height 2
  if y = cy ∧ x ≥ cx - half_w ∧ x ≤ cx + half_w then true
  else if x = cx ∧ y ≥ cy - half_h ∧ y ≤ cy + half_h then true
  else false

/-- The function `is_mine_at`; the list holds `mines[0 .. mine_count)`. -/
def is_mine_at : List Position → Int → Int → Bool
  | [], _, _ => false
  | m :: ms, x, y => if m.x = x ∧ m.y = y then true else is_mine_at ms x y

/-- The body of the inner loop of `find_safe_spawn_position` at cell `(x, y)`;
the accumulator is `(best, best_dist)`. -/
def spawn_scan_cell (mines : List Position) (obstacle : CrossObstacle)
    (acc : Position × Int) (x y : Int) : Position × Int :=
  if is_obstacle_position obstacle x y then acc
  else if is_mine_at mines x y then acc
  else
    let dist : Int := ((x - 10).natAbs : Int) + ((y - 10).natAbs : Int)
    if dist < acc.2 then (⟨x, y⟩, dist) else acc

/-- The two nested loops of `find_safe_spawn_position` with their result `(best, best_dist)`. -/
def spawn_scan (mines : List Position) (obstacle : CrossObstacle) : Position × Int :=
  (loopRange 2 (BOARD_ROWS - 2)).foldl
    (fun acc y => (loopRange 2 (BOARD_COLS - 2)).foldl
      (fun acc x => spawn_scan_cell mines obstacle acc x y) acc)
    (⟨Int.tdiv BOARD_COLS 2, Int.tdiv BOARD_ROWS 2⟩, 1000000)

/-- The function `find_safe_spawn_position`. -/
def find_safe_spawn_position (mines : List Position) (obstacle : CrossObstacle) : Position :=
  (spawn_scan mines obstacle).1

/-- The test of `is_blocked_cell`. -/
def is_blocked_cell (x y : Int) (mines : List Position) (obstacle : CrossObstacle) : Bool :=
  if x ≤ 0 ∨ x ≥ BOARD_COLS - 1 ∨ y ≤ 0 ∨ y ≥ BOARD_ROWS - 1 then true
  else if is_obstacle_position obstacle x y then true
  else if is_mine_at mines x y then true
  else false

/-! ## Random placement -/

/-- The loop of `spawn_mines` after the clamp of `target_count`.  Every pass draws two
values (`x` first, then `y`); the result is `none` when the draws run out before the
loop ends, and otherwise the mine list with the draws left over. -/
def spawn_mines_loop (robot : Robot) (person : Option Position) (obstacle : CrossObstacle)
    (target_count : Int) : List Nat → List Position → Option (List Position × List Nat)
  | rx :: ry :: rest, mines =>
    if (mines.length : Int) < target_count then
      let x : Int := 1 + ((rx % (BOARD_COLS - 2).toNat : Nat) : Int)
      let y : Int := 1 + ((ry % (BOARD_ROWS - 2).toNat : Nat) : Int)
      if x = robot.pos.x ∧ y = robot.pos.y then
        spawn_mines_loop robot person obstacle target_count rest mines
      else if person.any (fun p => decide (x = p.x ∧ y = p.y)) then
        spawn_mines_loop robot person obstacle target_count rest mines
      else if is_obstacle_position obstacle x y then
        spawn_mines_loop robot person obstacle target_count rest mines
      else if is_mine_at mines x y then
        spawn_mines_loop robot person obstacle target_count rest mines
      else
        spawn_mines_loop robot person obstacle target_count rest (mines ++ [⟨x, y⟩])
    else some (mines, rx :: ry :: rest)
  | draws, mines =>
    if (mines.length : Int) < target_count then none else some (mines, draws)

/-- The function `spawn_mines`; `person` is `none` for a null pointer. -/
def spawn_mines (draws : List Nat) (robot : Robot) (person : Option Position)
    (mines : List Position) (target_count : Int) (obstacle : CrossObstacle) :
    Option (List Position × List Nat) :=
  let target_count := if target_count > MAX_MINES then MAX_MINES else target_count
  spawn_mines_loop robot person obstacle target_count draws mines

/-- The function `spawn_person`: the cell chosen and the draws left over, or `none` when
the draws run out first. -/
def spawn_person (robot : Robot) (mines : List Position) (obstacle : CrossObstacle) :
    List Nat → Option (Position × List Nat)
  | rx :: ry :: rest =>
    let x : Int := 1 + ((rx % (BOARD_COLS - 2).toNat : Nat) : Int)
    let y : Int := 1 + ((ry % (BOARD_ROWS - 2).toNat : Nat) : Int)
    if x = robot.pos.x ∧ y = robot.pos.y then spawn_person robot mines obstacle rest
    else if is_mine_at mines x y then spawn_person robot mines obstacle rest
    else if is_obstacle_position obstacle x y then spawn_person robot mines obstacle rest
    else some (⟨x, y⟩, rest)
  | _ => none

/-! ## Collision -/

/-- What `check_collision` leaves behind: the records it updates and its two flags. -/
structure CollisionResult where
  player : Player
  robot : Robot
  running : Bool
  life_lost : Bool

/-- The last block of `check_collision`: the countdown of the invincibility period. -/
def invincible_countdown (robot : Robot) : Robot :=
  if robot.invincible then
    let robot := { robot with invincible_ticks := robot.invincible_ticks - 1 }
    if robot.invincible_ticks ≤ 0 then { robot with invincible := false } else robot
  else robot

/-- The test `deadly` of `check_collision` for a head at `(x, y)`. -/
def deadly_cell (x y : Int) (mines : List Position) (obstacle : CrossObstacle) : Bool :=
  let hit_wall : Bool := decide (x ≤ 0 ∨ x ≥ BOARD_COLS - 1 ∨ y ≤ 0 ∨ y ≥ BOARD_ROWS - 1)
  let hit_mine := is_mine_at mines x y
  let hit_obs := is_obstacle_position obstacle x y
  hit_wall || hit_mine || hit_obs

/-- The function `check_collision` (with a non-null `life_lost`). -/
def check_collision (player : Player) (robot : Robot) (mines : List Position)
    (obstacle : CrossObstacle) (running : Bool) : CollisionResult :=
  let deadly := deadly_cell robot.pos.x robot.pos.y mines obstacle
  if deadly && !robot.invincible then
    let player := { player with lives := player.lives - 1 }
    if player.lives ≤ 0 then
      -- early return: game over
      { player := player, robot := robot, running := false, life_lost := false }
    else
      let robot := { robot with invincible := true, invincible_ticks := INVINCIBLE_TICKS }
      let spawn := find_safe_spawn_position mines obstacle
      let robot := { robot with pos := spawn }
      let robot := reset_robot_body_from_lives robot player
      { player := player, robot := invincible_countdown robot, running := running,
        life_lost := true }
  else
    { player := player, robot := invincible_countdown robot, running := running,
      life_lost := false }

/-! ## Path planning -/

/-- A queue entry of the search (`Node`). -/
abbrev Node := Position

/-- The local variables of `bfs_next_direction` during the search: the arrays `visited`
and `parent` (indexed by cell), the entries `queue[0 .. back)` with `back` the length of
the list, the index `front`, and the flag `found`. -/
structure BfsState where
  visited : Position → Bool
  parent : Position → Position
  queue : List Node
  front : Nat
  found : Bool

/-- The array `dirs` of `bfs_next_direction`. -/
def bfs_dirs : List (Int × Int) := [(1, 0), (-1, 0), (0, 1), (0, -1)]

/-- One pass of the inner `for` loop of the search: the neighbour of `cur` in direction `d`. -/
def bfs_visit (mines : List Position) (obstacle : CrossObstacle) (cur : Node)
    (st : BfsState) (d : Int × Int) : BfsState :=
  let nx := cur.x + d.1
  let ny := cur.y + d.2
  if nx < 0 ∨ nx ≥ BOARD_COLS ∨ ny < 0 ∨ ny ≥ BOARD_ROWS then st
  else if st.visited ⟨nx, ny⟩ then st
  else if is_blocked_cell nx ny mines obstacle then st
  else
    { st with
      visited := Function.update st.visited ⟨nx, ny⟩ true
      parent := Function.update st.parent ⟨nx, ny⟩ cur
      queue := st.queue ++ [⟨nx, ny⟩] }

/-- The `while (front < back)` loop of the search, run for at most `fuel` passes. -/
def bfs_loop (mines : List Position) (obstacle : CrossObstacle) (target : Position) :
    Nat → BfsState → BfsState
  | 0, st => st
  | fuel + 1, st =>
    if st.front < st.queue.length then
      let cur := st.queue.getD st.front ⟨0, 0⟩
      let st := { st with front := st.front + 1 }
      if cur.x = target.x ∧ cur.y = target.y then { st with found := true }
      else bfs_loop mines obstacle target fuel (bfs_dirs.foldl (bfs_visit mines obstacle cur) st)
    else st

/-- The state of the search before its loop, for a head at `s`. -/
def bfs_init (s : Position) : BfsState :=
  { visited := Function.update (fun _ => false) s true
    parent := fun _ => ⟨-1, -1⟩
    queue := [s]
    front := 0
    found := false }

/-- The number of passes allowed to the loops of the search: the capacity of `queue`. -/
def bfs_fuel : Nat := (BOARD_ROWS * BOARD_COLS).toNat

/-- The search of `bfs_next_direction`: the state when its `while` loop is left. -/
def bfs_search (s target : Position) (mines : List Position) (obstacle : CrossObstacle) :
    BfsState :=
  bfs_loop mines obstacle target bfs_fuel (bfs_init s)

/-- The loop of `bfs_next_direction` that walks the parent pointers back from `(cx, cy)`
with parent `(px, py)`, for at most `fuel` passes; the result is the final `(cx, cy)`. -/
def bfs_walk_back (parent : Position → Position) (s : Position) :
    Nat → Position → Position → Position
  | 0, c, _ => c
  | fuel + 1, c, p =>
    if p.x = s.x ∧ p.y = s.y then c
    else
      let c := p
      let p := parent c
      if p.x = -1 ∧ p.y = -1 then c else bfs_walk_back parent s fuel c p

/-- The function `bfs_next_direction`: `some dir` when it returns true with `*out_dir = dir`,
`none` when it returns false. -/
def bfs_next_direction (robot : Robot) (person : Position) (mines : List Position)
    (obstacle : CrossObstacle) : Option Char :=
  let s := robot.pos
  let st := bfs_search s person mines obstacle
  if !st.found then none
  else
    let p := st.parent person
    if p.x = -1 ∧ p.y = -1 then none
    else
      let c := bfs_walk_back st.parent s bfs_fuel person p
      let dx := c.x - s.x
      let dy := c.y - s.y
      if dx = 1 ∧ dy = 0 then some 'E'
      else if dx = -1 ∧ dy = 0 then some 'W'
      else if dx = 0 ∧ dy = 1 then some 'S'
      else if dx = 0 ∧ dy = -1 then some 'N'
      else none

/-- The array `candidates` of `move_robot_ai`. -/
def ai_candidates : List Char := ['N', 'S', 'E', 'W']

/-- The random retry loop of `move_robot_ai`, with `k` passes left; every pass draws one
value.  The result is `none` when the draws run out. -/
def ai_fallback (robot : Robot) (mines : List Position) (obstacle : CrossObstacle) :
    Nat → List Nat → Option (Robot × List Nat)
  | 0, draws => some (robot, draws)
  | _ + 1, [] => none
  | k + 1, r :: rest =>
    let cand := ai_candidates.getD (r % 4) 'N'
    let d := direction_to_delta cand
    let nx := robot.pos.x + d.1
    let ny := robot.pos.y + d.2
    if !is_blocked_cell nx ny mines obstacle then some (set_direction robot cand, rest)
    else ai_fallback robot mines obstacle k rest

/-- The function `move_robot_ai`; `person` is `none` for a null pointer. -/
def move_robot_ai (draws : List Nat) (robot : Robot) (person : Option Position)
    (mines : List Position) (obstacle : CrossObstacle) : Option (Robot × List Nat) :=
  match person with
  | none => some (robot, draws)
  | some p =>
    match bfs_next_direction robot p mines obstacle with
    | some dir => some (set_direction robot dir, draws)
    | none => ai_fallback robot mines obstacle 4 draws

/-! ## Bomb and keyboard -/

/-- The test of the first loop of `bomb_mines`: the mine `m` lies within `radius = 5` of
`(cx, cy)` in both coordinates. -/
def bomb_in_range (cx cy : Int) (m : Position) : Bool :=
  decide (((m.x - cx).natAbs : Int) ≤ 5 ∧ ((m.y - cy).natAbs : Int) ≤ 5)

/-- The array `to_clear[0 .. mine_count)` after the first loop of `bomb_mines`. -/
def bomb_marks (cx cy : Int) (mines : List Position) : List Bool :=
  mines.map (bomb_in_range cx cy)

/-- One pass of the last loop of `bomb_mines` for index `i`; the accumulator holds the mine
array and the write index `w`. -/
def bomb_compact_step (to_clear : List Bool) (acc : List Position × Nat) (i : Nat) :
    List Position × Nat :=
  if to_clear.getD i false then acc
  else
    ((if acc.2 ≠ i then acc.1.set acc.2 (acc.1.getD i ⟨0, 0⟩) else acc.1), acc.2 + 1)

/-- The last loop of `bomb_mines` with `*mine_count = w`: the entries `mines[0 .. w)` it
leaves. -/
def bomb_compact (to_clear : List Bool) (mines : List Position) : List Position :=
  let r := (List.range mines.length).foldl (bomb_compact_step to_clear) (mines, 0)
  r.1.take r.2

/-- The function `bomb_mines`: the player record and the mine list it leaves (the
flashing of the cleared mines is rendering only). -/
def bomb_mines (player : Player) (robot : Robot) (mines : List Position) :
    Player × List Position :=
  if player.level ≤ 10 then (player, mines)
  else
    let cx := robot.pos.x
    let cy := robot.pos.y
    let to_clear := bomb_marks cx cy mines
    let player := { player with level := player.level - 5 }
    let player := if player.level < 1 then { player with level := 1 } else player
    (player, bomb_compact to_clear mines)

/-- The value `ERR` of ncurses: no key was pressed. -/
def KEY_ERR : Int := -1

/-- The key code `KEY_DOWN` of ncurses. -/
def KEY_DOWN : Int := 258

/-- The key code `KEY_UP` of ncurses. -/
def KEY_UP : Int := 259

/-- The key code `KEY_LEFT` of ncurses. -/
def KEY_LEFT : Int := 260

/-- The key code `KEY_RIGHT` of ncurses. -/
def KEY_RIGHT : Int := 261

/-- The code of a character as returned by `getch`. -/
def key_of (c : Char) : Int := (c.toNat : Int)

/-- The function `handle_input`: the robot and the flag `running` it leaves. -/
def handle_input (robot : Robot) (input : Int) (running : Bool) : Robot × Bool :=
  if input = KEY_ERR then (robot, running)
  else if input = key_of 'q' ∨ input = key_of 'Q' then (robot, false)
  else if input = key_of 'm' ∨ input = key_of 'M' then
    ({ robot with ai_mode := !robot.ai_mode }, running)
  else if input = KEY_UP ∨ input = key_of 'w' ∨ input = key_of 'W' then
    (if !robot.ai_mode then set_direction robot 'N' else robot, running)
  else if input = KEY_DOWN ∨ input = key_of 's' ∨ input = key_of 'S' then
    (if !robot.ai_mode then set_direction robot 'S' else robot, running)
  else if input = KEY_LEFT ∨ input = key_of 'a' ∨ input = key_of 'A' then
    (if !robot.ai_mode then set_direction robot 'W' else robot, running)
  else if input = KEY_RIGHT ∨ input = key_of 'd' ∨ input = key_of 'D' then
    (if !robot.ai_mode then set_direction robot 'E' else robot, running)
  else (robot, running)

/-! ## The game loop -/

/-- The variables of `main` that make up the game state. -/
structure Game where
  player : Player
  robot : Robot
  person : Position
  mines : List Position
  obstacle : CrossObstacle
  running : Bool

/-- The block "Saving people" of the loop of `main`. -/
def rescue_step (draws : List Nat) (g : Game) : Option (Game × List Nat) :=
  if g.robot.pos.x = g.person.x ∧ g.robot.pos.y = g.person.y then
    let player := { g.player with score := g.player.score + 10, rescued := g.player.rescued + 1 }
    let leveled : Option (Player × Robot × List Position × List Nat) :=
      if player.rescued ≥ PEOPLE_PER_LEVEL then
        let player := { player with level := player.level + 1, rescued := 0 }
        let target := (g.mines.length : Int) + MINES_PER_LEVEL
        match spawn_mines draws g.robot (some g.person) g.mines target g.obstacle with
        | none => none
        | some (mines, draws) =>
          if Int.tmod player.level 5 = 0 then
            let player := { player with lives := player.lives + 1 }
            let player :=
              if player.lives > MAX_BODY_SEGMENTS then { player with lives := MAX_BODY_SEGMENTS }
              else player
            some (player, reset_robot_body_from_lives g.robot player, mines, draws)
          else some (player, g.robot, mines, draws)
      else some (player, g.robot, g.mines, draws)
    match leveled with
    | none => none
    | some (player, robot, mines, draws) =>
      match spawn_person robot mines g.obstacle draws with
      | none => none
      | some (person, draws) =>
        some ({ g with player := player, robot := robot, mines := mines, person := person },
          draws)
  else some (g, draws)

/-- The first statement of the loop of `main`: the key `ch` read by `getch` either fires
the bomb (space, above level 10) or goes to `handle_input`. -/
def tick_input (ch : Int) (g : Game) : Game :=
  if ch = key_of ' ' then
    if g.player.level > 10 then
      let r := bomb_mines g.player g.robot g.mines
      { g with player := r.1, mines := r.2 }
    else g
  else
    let r := handle_input g.robot ch g.running
    { g with robot := r.1, running := r.2 }

/-- The statement `if (robot.ai_mode) move_robot_ai(...)` of the loop of `main`. -/
def tick_direction (draws : List Nat) (g : Game) : Option (Robot × List Nat) :=
  if g.robot.ai_mode then move_robot_ai draws g.robot (some g.person) g.mines g.obstacle
  else some (g.robot, draws)

/-- The loop of `main` from `check_collision` on, for a robot that has just moved. -/
def tick_settle (quit_on_pause : Bool) (draws : List Nat) (g : Game) (robot : Robot) :
    Option (Game × List Nat) :=
  let c := check_collision g.player robot g.mines g.obstacle g.running
  let g := { g with player := c.player, robot := c.robot, running := c.running }
  if !g.running ∨ g.player.lives ≤ 0 then some (g, draws)
  else if c.life_lost then
    if quit_on_pause then some ({ g with running := false }, draws)
    else some (g, draws)
  else rescue_step draws g

/-- One pass of the `while` loop of `main`, entered with `running` and `lives > 0`.
`ch` is the key read by `getch`, `quit_on_pause` tells whether the player answers the
"lost a life" prompt with `q` rather than `y`, and `draws` are the values of `rand()`.
The result is the state at the end of the pass (or at the `break`), or `none` when the
draws run out. -/
def game_tick (ch : Int) (quit_on_pause : Bool) (draws : List Nat) (g : Game) :
    Option (Game × List Nat) :=
  let g := tick_input ch g
  if !g.running then some (g, draws)
  else
    match tick_direction draws g with
    | none => none
    | some (robot, draws) => tick_settle quit_on_pause draws g (move_robot robot)

/-- The robot as `init_game` leaves it; `body` is the content of the body array, which
`init_game` does not write. -/
def init_robot (body : Nat → Position) : Robot :=
  { pos := find_safe_spawn_position [] init_obstacle
    direction := 'W'
    ai_mode := true
    invincible := false
    invincible_ticks := 0
    body_length := 0
    body := body }

/-- The player record as `draw_title_screen` leaves it. -/
def init_player : Player :=
  { score := 0, lives := INITIAL_LIVES, level := 1, rescued := 0 }

/-- The game state when `main` enters its loop, or `none` when the draws run out. -/
def initial_game (body : Nat → Position) (draws : List Nat) : Option (Game × List Nat) :=
  let player := init_player
  let obstacle := init_obstacle
  let robot := reset_robot_body_from_lives (init_robot body) player
  match spawn_person robot [] obstacle draws with
  | none => none
  | some (person, draws) =>
    match spawn_mines draws robot (some person) [] BASE_MINES obstacle with
    | none => none
    | some (mines, draws) =>
      some ({ player := player, robot := robot, person := person, mines := mines,
              obstacle := obstacle, running := true }, draws)

/-- The states of the game loop: the state on entry, and every state left by a pass of
the loop that was entered with `running` and `lives > 0`. -/
inductive Reachable : Game → Prop
  | init (body : Nat → Position) (draws rest : List Nat) (g : Game) :
      initial_game body draws = some (g, rest) → Reachable g
  | tick (ch : Int) (quit_on_pause : Bool) (draws rest : List Nat) (g g' : Game) :
      Reachable g → g.running = true → g.player.lives > 0 →
      game_tick ch quit_on_pause draws g = some (g', rest) → Reachable g'

/-! ## Vocabulary of the statements -/

/-- The cell lies in the board interior `[1, BOARD_COLS-2] x [1, BOARD_ROWS-2]`. -/
def in_interior (c : Position) : Prop :=
  1 ≤ c.x ∧ c.x ≤ BOARD_COLS - 2 ∧ 1 ≤ c.y ∧ c.y ≤ BOARD_ROWS - 2

instance (c : Position) : Decidable (in_interior c) := by
  unfold in_interior
  infer_instance

/-- The invariant of the invincibility counter: it is never negative, and when it is zero
the robot is not invincible. -/
def invincible_ok (robot : Robot) : Prop :=
  0 ≤ robot.invincible_ticks ∧ (robot.invincible_ticks = 0 → robot.invincible = false)

/-- Manhattan distance of a cell to the spawn anchor `(10, 10)`. -/
def anchor_dist (c : Position) : Int :=
  ((c.x - 10).natAbs : Int) + ((c.y - 10).natAbs : Int)

/-- Row-major order on cells: smaller `y` first, then smaller `x`. -/
def row_major_lt (a b : Position) : Prop :=
  a.y < b.y ∨ (a.y = b.y ∧ a.x < b.x)

instance (a b : Position) : Decidable (row_major_lt a b) := by
  unfold row_major_lt
  infer_instance

/-- The cells visited by the two loops of `find_safe_spawn_position`, in the order of the
visit. -/
def scan_cells : List Position :=
  (loopRange 2 (BOARD_ROWS - 2)).flatMap
    (fun y => (loopRange 2 (BOARD_COLS - 2)).map (fun x => (⟨x, y⟩ : Position)))

/-- The 61 cells at Manhattan distance at most 5 from the anchor `(10, 10)`. -/
def anchor_diamond : List Position :=
  ((loopRange 5 16).flatMap (fun y => (loopRange 5 16).map (fun x => (⟨x, y⟩ : Position)))).filter
    (fun c => decide (anchor_dist c ≤ 5))

/-- The cell `b` is one of the four neighbours of `a`. -/
def adjacent (a b : Position) : Prop :=
  (b.x = a.x + 1 ∧ b.y = a.y) ∨ (b.x = a.x - 1 ∧ b.y = a.y) ∨
  (b.x = a.x ∧ b.y = a.y + 1) ∨ (b.x = a.x ∧ b.y = a.y - 1)

instance (a b : Position) : Decidable (adjacent a b) := by
  unfold adjacent
  infer_instance

/-- A step of the free-cell graph: from `a` to a neighbour `b` that `is_blocked_cell` does
not block.  The cell `a` itself is not tested. -/
def free_step (mines : List Position) (obstacle : CrossObstacle) (a b : Position) : Prop :=
  adjacent a b ∧ is_blocked_cell b.x b.y mines obstacle = false

instance (mines : List Position) (obstacle : CrossObstacle) (a b : Position) :
    Decidable (free_step mines obstacle a b) := by
  unfold free_step
  infer_instance

/-- A chain of `n` steps of the free-cell graph from `a` to `b`. -/
inductive free_walk (mines : List Position) (obstacle : CrossObstacle) (a : Position) :
    Position → Nat → Prop
  | refl : free_walk mines obstacle a a 0
  | tail (b c : Position) (n : Nat) :
      free_walk mines obstacle a b n → free_step mines obstacle b c →
      free_walk mines obstacle a c (n + 1)

/-- The shortest-path distance from `a` to `b` in the free-cell graph is `n`. -/
def is_dist (mines : List Position) (obstacle : CrossObstacle) (a b : Position) (n : Nat) :
    Prop :=
  free_walk mines obstacle a b n ∧ ∀ m, free_walk mines obstacle a b m → n ≤ m

/-- The cell next to `a` in the direction `dir`. -/
def step_to (a : Position) (dir : Char) : Position :=
  ⟨a.x + (direction_to_delta dir).1, a.y + (direction_to_delta dir).2⟩

/-- The invariant of the search of `bfs_next_direction` from the head `s`, with `lvl` the
depth of every queued cell in the search tree, `k` the number of queue entries whose
neighbours have all been handled, and `L` the depth of the entry being expanded. -/
structure BfsMid (mines : List Position) (obstacle : CrossObstacle) (s target : Position)
    (st : BfsState) (lvl : Position → Nat) (k L : Nat) : Prop where
  nodup : st.queue.Nodup
  start : ∃ rest, st.queue = s :: rest ∧ ∀ c ∈ rest, in_interior c
  visited_iff : ∀ c, st.visited c = true ↔ c ∈ st.queue
  lvl_start : lvl s = 0
  parent_start : st.parent s = ⟨-1, -1⟩
  parent_ok : ∀ c ∈ st.queue, c ≠ s →
    st.parent c ∈ st.queue ∧ free_step mines obstacle (st.parent c) c ∧
      lvl c = lvl (st.parent c) + 1
  walk : ∀ c ∈ st.queue, free_walk mines obstacle s c (lvl c)
  sorted : st.queue.Pairwise (fun a b => lvl a ≤ lvl b)
  lvl_lt : ∀ c ∈ st.queue, lvl c < st.queue.length
  bound : ∀ c ∈ st.queue, lvl c ≤ L + 1
  k_le : k ≤ st.queue.length
  closed : ∀ i a, i < k → st.queue[i]? = some a →
    ∀ c, free_step mines obstacle a c → c ∈ st.queue ∧ lvl c ≤ lvl a + 1
  not_target : ∀ i, i < k → st.queue[i]? ≠ some target

/-- The cells of the board interior, row by row. -/
def interior_cells : List Position :=
  (loopRange 1 (BOARD_ROWS - 1)).flatMap
    (fun y => (loopRange 1 (BOARD_COLS - 1)).map (fun x => (⟨x, y⟩ : Position)))

/-- The invariant of the search at the head of its `while` loop. -/
def BfsHead (mines : List Position) (obstacle : CrossObstacle) (s target : Position)
    (st : BfsState) : Prop :=
  st.found = false ∧ ∃ (lvl : Position → Nat) (L : Nat),
    BfsMid mines obstacle s target st lvl st.front L ∧
    ∀ a, st.queue[st.front]? = some a → L ≤ lvl a

/-! ## Speed -/

/-- The `for` loop of `get_delay_for_level` with `n` values of `i` still to come: it halves
`delay` while `delay > MIN_DELAY_MS`. -/
def delay_loop : Nat → Int → Int
  | 0, delay => delay
  | n + 1, delay => if delay > MIN_DELAY_MS then delay_loop n (Int.tdiv delay 2) else delay

/-- The function `get_delay_for_level`; the loop variable `i` runs over `1 .. level - 1`. -/
def get_delay_for_level (level : Int) : Int :=
  let delay := delay_loop (level - 1).toNat BASE_DELAY_MS
  if delay < MIN_DELAY_MS then MIN_DELAY_MS else delay

/-! ## Vocabulary of the statements (continued) -/

/-- The mine lists that the game's mine operations produce from the empty list: the first
`spawn_mines` with `BASE_MINES`, `spawn_mines` with `mine_count + MINES_PER_LEVEL` on a
level-up, and `bomb_mines`. -/
inductive MineOps : List Position → Prop
  | init (draws rest : List Nat) (robot : Robot) (person : Option Position)
      (obstacle : CrossObstacle) (mines : List Position) :
      spawn_mines draws robot person [] BASE_MINES obstacle = some (mines, rest) →
      MineOps mines
  | level_up (draws rest : List Nat) (robot : Robot) (person : Option Position)
      (obstacle : CrossObstacle) (mines mines' : List Position) :
      MineOps mines →
      spawn_mines draws robot person mines ((mines.length : Int) + MINES_PER_LEVEL) obstacle
        = some (mines', rest) →
      MineOps mines'
  | bomb (player : Player) (robot : Robot) (mines : List Position) :
      MineOps mines → MineOps (bomb_mines player robot mines).2

/-- The wall test in the words of the specification (`isWall`): the cell lies on the 1-cell
border of the grid or outside `[0, BOARD_COLS) x [0, BOARD_ROWS)`. -/
def spec_is_wall (x y : Int) : Prop :=
  (x = 0 ∨ x = BOARD_COLS - 1 ∨ y = 0 ∨ y = BOARD_ROWS - 1) ∨
  (x < 0 ∨ x ≥ BOARD_COLS ∨ y < 0 ∨ y ≥ BOARD_ROWS)

/-- The blocked test in the words of the specification (`isBlocked`): wall, or obstacle
cell, or member of the mine list. -/
def spec_is_blocked (x y : Int) (mines : List Position) (obstacle : CrossObstacle) : Prop :=
  spec_is_wall x y ∨ is_obstacle_position obstacle x y = true ∨ (⟨x, y⟩ : Position) ∈ mines

/-! ## Runs of the game loop -/

/-- Several passes of the loop of `main` in a row: each pass takes one key and one answer
to the "lost a life" prompt, and is entered only while `running && lives > 0`.  The
result is `none` when the draws run out or the loop has already ended. -/
def play : List (Int × Bool) → List Nat → Game → Option (Game × List Nat)
  | [], draws, g => some (g, draws)
  | (ch, q) :: keys, draws, g =>
    if g.running = true ∧ g.player.lives > 0 then
      match game_tick ch q draws g with
      | none => none
      | some (g', draws') => play keys draws' g'
    else none

/-- The game from the start of `main`: the state on entry of the loop, then the passes of
the loop for the given keys. -/
def play_from_start (body : Nat → Position) (draws : List Nat) (keys : List (Int × Bool)) :
    Option (Game × List Nat) :=
  match initial_game body draws with
  | none => none
  | some (g, draws') => play keys draws' g


/-- The directions that the retry loop of `move_robot_ai` tries, in order, when `rand()`
yields `draws`: `candidates[rand() % 4]` for each of its four passes. -/
def drawn_candidates (draws : List Nat) : List Char :=
  (draws.take 4).map (fun r => ai_candidates.getD (r % 4) 'N')

/-- The destination of a step from the head of `robot` in direction `c` is not blocked. -/
def open_direction (robot : Robot) (mines : List Position) (obstacle : CrossObstacle)
    (c : Char) : Bool :=
  !is_blocked_cell (step_to robot.pos c).x (step_to robot.pos c).y mines obstacle

/-! ## The delay of `game_model5.c` -/

/-- The value a 32-bit `int` holds after an arithmetic result `x` wraps around. -/
def wrap_int32 (x : Int) : Int :=
  (x + 2147483648) % 4294967296 - 2147483648

/-- The loop `for (int i = 1; i < level; i++) factor *= 2;` of `get_delay_for_level` in
`game_model5.c`, with `n` passes left. -/
def model5.factor_loop : Nat → Int → Int
  | 0, factor => factor
  | n + 1, factor => model5.factor_loop n (wrap_int32 (factor * 2))

/-- The function `get_delay_for_level` of `game_model5.c`, with 32-bit `int`; the result is
`none` when the division `BASE_DELAY_MS / factor` is a division by zero. -/
def model5.get_delay_for_level (level : Int) : Option Int :=
  if level ≤ 1 then some BASE_DELAY_MS
  else
    let factor := model5.factor_loop (level - 1).toNat 1
    if factor = 0 then none
    else
      let delay := wrap_int32 (Int.tdiv BASE_DELAY_MS factor)
      let delay := if delay < MIN_DELAY_MS then MIN_DELAY_MS else delay
      some delay

/-! ## Vocabulary of the layout statements -/

/-- The mines are pairwise distinct, the person is on no mine, and neither a mine nor the
person is on an obstacle cell. -/
def layout_ok (g : Game) : Prop :=
  g.mines.Nodup ∧ g.person ∉ g.mines ∧
  (∀ m ∈ g.mines, is_obstacle_position g.obstacle m.x m.y = false) ∧
  is_obstacle_position g.obstacle g.person.x g.person.y = false

/-- The head is on no mine, not on the person and not on an obstacle cell. -/
def head_clear (g : Game) : Prop :=
  g.robot.pos ∉ g.mines ∧ g.robot.pos ≠ g.person ∧
  is_obstacle_position g.obstacle g.robot.pos.x g.robot.pos.y = false

/-! ## Vocabulary of the tie-break statement -/

/-- In the list `q` the cell `a` stands at or before the cell `b`. -/
def stands_before (q : List Position) (a b : Position) : Prop :=
  ∃ i j : Nat, i ≤ j ∧ q[i]? = some a ∧ q[j]? = some b

/-- The index in `dirs` of the step from `s` to `c` (4 when `c` is no neighbour of `s`). -/
def dir_rank (s c : Position) : Nat :=
  bfs_dirs.indexOf (c.x - s.x, c.y - s.y)

/-- The place of a heading in the expansion order of the search: `E`, `W`, `S`, `N`. -/
def heading_rank (d : Char) : Nat :=
  if d = 'E' then 0 else if d = 'W' then 1 else if d = 'S' then 2 else if d = 'N' then 3 else 4

/-- The cell `r` is the ancestor of `c` in the search tree that is a child of the head
`s`: the cell at which the walk along the parent pointers from `c` ends. -/
inductive branch_of (parent : Position → Position) (s : Position) : Position → Position → Prop
  | root (c : Position) : parent c = s → branch_of parent s c c
  | up (c r : Position) : parent c ≠ s → branch_of parent s (parent c) r →
      branch_of parent s c r

/-- The order invariant of the search of `bfs_next_direction` from the head `s`: every
queued cell has its parent among the entries already taken from the queue; cells are
queued in the order of their parents; the parent of a cell is the first queued cell from
which a free step leads to it; and the children of the head are queued in the order of
`dirs`. -/
structure BfsOrd (mines : List Position) (obstacle : CrossObstacle) (s : Position)
    (st : BfsState) : Prop where
  par_before : ∀ c ∈ st.queue, c ≠ s → ∃ i, i < st.front ∧ st.queue[i]? = some (st.parent c)
  par_mono : ∀ c1 c2, stands_before st.queue c1 c2 → c1 ≠ s →
    stands_before st.queue (st.parent c1) (st.parent c2)
  par_first : ∀ c ∈ st.queue, c ≠ s → ∀ p ∈ st.queue, free_step mines obstacle p c →
    stands_before st.queue (st.parent c) p
  child_order : ∀ c1 c2, stands_before st.queue c1 c2 → c1 ≠ s → st.parent c1 = s →
    st.parent c2 = s → dir_rank s c1 ≤ dir_rank s c2

/-- The bounds that the game keeps: at most `MAX_BODY_SEGMENTS` lives, at most `MAX_MINES`
mines, the obstacle of `init_obstacle`, and the person in the board interior. -/
def bounds_ok (g : Game) : Prop :=
  g.player.lives ≤ MAX_BODY_SEGMENTS ∧ (g.mines.length : Int) ≤ MAX_MINES ∧
  g.obstacle = init_obstacle ∧ in_interior g.person
/-! ## Sample states -/

/-- A robot in manual mode that has just stepped onto the left wall at `(0, 5)`. -/
def robot_on_wall : Robot :=
  { pos := ⟨0, 5⟩, direction := 'W', ai_mode := false, invincible := false,
    invincible_ticks := 0, body_length := 3, body := fun _ => ⟨1, 5⟩ }

/-- A player with three lives at level 1. -/
def player_three_lives : Player := { score := 0, lives := 3, level := 1, rescued := 0 }

/-- A player with a single life left. -/
def player_last_life : Player := { score := 0, lives := 1, level := 1, rescued := 0 }

/-- A robot on the left wall during its invincibility period, two ticks left. -/
def robot_invincible : Robot :=
  { pos := ⟨0, 5⟩, direction := 'W', ai_mode := false, invincible := true,
    invincible_ticks := 2, body_length := 3, body := fun _ => ⟨1, 5⟩ }

/-- A robot in AI mode standing on the spawn anchor `(10, 10)`, heading west. -/
def robot_at_anchor : Robot :=
  { pos := ⟨10, 10⟩, direction := 'W', ai_mode := true, invincible := false,
    invincible_ticks := 0, body_length := 3, body := fun _ => ⟨10, 10⟩ }

/-- The values of `rand()` of a sample game start: person at `(4, 5)`, then five mines,
the first of them at `(9, 10)`, just west of the robot. -/
def start_draws : List Nat := [3, 4, 8, 9, 5, 6, 7, 8, 11, 12, 13, 14]

/-- The state in which the game loop is entered when the body array starts zeroed and
`rand()` yields `start_draws`. -/
def start_game : Game :=
  { player := init_player
    robot := reset_robot_body_from_lives (init_robot (fun _ => ⟨0, 0⟩)) init_player
    person := ⟨4, 5⟩
    mines := [⟨9, 10⟩, ⟨6, 7⟩, ⟨8, 9⟩, ⟨12, 13⟩, ⟨14, 15⟩]
    obstacle := init_obstacle
    running := true }

/-- The state after one pass of the loop from `start_game` in which the player presses
`m`: the robot, now in manual mode and heading west, steps onto the mine at `(9, 10)`,
loses a life and respawns. -/
def hit_game : Game :=
  let g := tick_input (key_of 'm') start_game
  let c := check_collision g.player (move_robot g.robot) g.mines g.obstacle g.running
  { g with player := c.player, robot := c.robot, running := c.running }

/-- A state in which the robot stands on the person at `(10, 10)`, first rescue of level 1. -/
def rescue_game : Game :=
  { player := { score := 0, lives := 3, level := 1, rescued := 0 }
    robot := robot_at_anchor
    person := ⟨10, 10⟩
    mines := [⟨9, 10⟩, ⟨6, 7⟩, ⟨8, 9⟩, ⟨12, 13⟩, ⟨14, 15⟩]
    obstacle := init_obstacle
    running := true }

/-- The state after the rescue in `rescue_game` when `rand()` yields 3, 4: the new person
is at `(4, 5)`. -/
def rescue_game_after : Game :=
  { rescue_game with
    player := { rescue_game.player with
      score := rescue_game.player.score + 10, rescued := rescue_game.player.rescued + 1 }
    person := ⟨4, 5⟩ }

/-- A robot heading east with its head at `(2, 5)`: the cell behind the head is `(1, 5)`,
the first interior cell next to the left wall. -/
def robot_near_wall : Robot :=
  { pos := ⟨2, 5⟩, direction := 'E', ai_mode := false, invincible := false,
    invincible_ticks := 0, body_length := 0, body := fun _ => ⟨0, 0⟩ }

/-- A robot at `(10, 10)` heading west with three body segments trailing to the east. -/
def robot_with_trail : Robot :=
  { pos := ⟨10, 10⟩, direction := 'W', ai_mode := false, invincible := false,
    invincible_ticks := 0, body_length := 3, body := fun i => ⟨11 + (i : Int), 10⟩ }


/-- Six mines around the spawn anchor that leave the cell `(11, 10)` east of it as the only
free cell next to `(10, 10)`, itself closed in on its other three sides. -/
def pocket_mines : List Position :=
  [⟨10, 9⟩, ⟨9, 10⟩, ⟨10, 11⟩, ⟨12, 10⟩, ⟨11, 9⟩, ⟨11, 11⟩]

/-- The keys of a lost game: `m` (manual mode, heading west), then no key for 20 passes.
From `start_game` the robot steps on the mine at `(9, 10)`, and twice more walks west
into the wall once its protection has run out. -/
def over_keys : List (Int × Bool) :=
  [(key_of 'm', false)] ++ List.replicate 20 (KEY_ERR, false)

/-- The values of `rand()` of a second sample game start: person at `(10, 8)`, two cells
north of the robot, then the same five mines as in `start_draws`. -/
def near_draws : List Nat := [9, 7, 8, 9, 5, 6, 7, 8, 11, 12, 13, 14]

/-- The state in which the game loop is entered when the body array starts zeroed and
`rand()` yields `near_draws`. -/
def near_game : Game :=
  { start_game with person := ⟨10, 8⟩ }

/-- The keys of a short walk: `m` (manual mode, heading west), then no key for one pass.
From `start_game` the robot loses a life on the mine at `(9, 10)`, respawns on
`(10, 10)` and steps on the same mine again, this time protected. -/
def mine_walk_keys : List (Int × Bool) := [(key_of 'm', false), (KEY_ERR, false)]

/-- The values of `rand()` of a game in which the robot leaves the board: person at
`(9, 10)`, the five starting mines at `(10, 9)`, `(11, 10)`, `(30, 3)`, `(31, 3)`,
`(32, 3)`, four more persons at `(8, 10)`, ..., `(5, 10)`, the two mines of level 2 at
`(10, 10)` and `(9, 10)`, and the sixth person at `(40, 15)`. -/
def escape_draws : List Nat :=
  [8, 9, 9, 8, 10, 9, 29, 2, 30, 2, 31, 2, 7, 9, 6, 9, 5, 9, 4, 9, 9, 9, 8, 9, 39, 14]

/-- The keys of the game in which the robot leaves the board: `m` (manual mode, heading
west), no key for nine passes (five rescues on the way west, then the wall at `x = 0`,
where a life is lost and the robot respawns on `(10, 11)`, the anchor and its other
neighbours being mines), then `s` (heading south) and no key for eight passes, all nine
of them under protection. -/
def escape_keys : List (Int × Bool) :=
  [(key_of 'm', false)] ++ List.replicate 9 (KEY_ERR, false) ++ [(key_of 's', false)] ++
    List.replicate 8 (KEY_ERR, false)

/-- The values of `rand()` of a game in which the robot respawns on the person: person at
`(9, 10)`, five mines at `(30, 3)`, ..., `(34, 3)`, and the second person at `(10, 10)`,
the spawn anchor, which the robot has left by then. -/
def respawn_draws : List Nat := [8, 9, 29, 2, 30, 2, 31, 2, 32, 2, 33, 2, 9, 9]

/-- The keys of the game in which the robot respawns on the person: `m` (manual mode,
heading west, one rescue), then no key for nine passes, the last of them into the wall at
`x = 0`. -/
def respawn_keys : List (Int × Bool) :=
  [(key_of 'm', false)] ++ List.replicate 9 (KEY_ERR, false)

/-- The values of `rand()` of a game in which the robot walks onto the obstacle: person at
`(9, 10)`, the five starting mines at `(10, 9)`, `(30, 3)`, ..., `(33, 3)`, four more
persons at `(8, 10)`, ..., `(5, 10)`, the two mines of level 2 at `(10, 10)` and
`(9, 10)`, and the sixth person at `(40, 15)`. -/
def obstacle_draws : List Nat :=
  [8, 9, 9, 8, 29, 2, 30, 2, 31, 2, 32, 2, 7, 9, 6, 9, 5, 9, 4, 9, 9, 9, 8, 9, 39, 14]

/-- The keys of the game in which the robot walks onto the obstacle: `m` (manual mode,
heading west), no key for nine passes (five rescues, then the wall at `x = 0`, where a
life is lost and the robot respawns on `(11, 10)`), then `d` (heading east) and no key
for eight passes, all nine of them under protection. -/
def obstacle_keys : List (Int × Bool) :=
  [(key_of 'm', false)] ++ List.replicate 9 (KEY_ERR, false) ++ [(key_of 'd', false)] ++
    List.replicate 8 (KEY_ERR, false)

/-- The keys of a game lost on a mine: `m` (manual mode, heading west: the mine at
`(9, 10)` takes the first life), then eleven passes pacing between `(9, 10)` and
`(10, 10)` (no key, then `d`, `a` five times), the last of which steps on the mine
without protection, and the same eleven passes once more. -/
def pace_keys : List (Int × Bool) :=
  [(key_of 'm', false), (KEY_ERR, false)] ++
    (List.replicate 5 [(key_of 'd', false), (key_of 'a', false)]).flatten ++
    [(KEY_ERR, false)] ++
    (List.replicate 5 [(key_of 'd', false), (key_of 'a', false)]).flatten
/-! ## Collision handling -/

/-- The scan of `is_mine_at` is membership in the mine list. -/
theorem is_mine_at_iff (mines : List Position) (x y : Int) :
    is_mine_at mines x y = true ↔ (⟨x, y⟩ : Position) ∈ mines := by
  induction mines with
  | nil => simp [is_mine_at]
  | cons m ms ih =>
    rcases m with ⟨mx, my⟩
    by_cases h : mx = x ∧ my = y
    · simp [is_mine_at, h]
    · have h2 : ¬ (x = mx ∧ y = my) := fun h3 => h ⟨h3.1.symm, h3.2.symm⟩
      simp [is_mine_at, h, ih, h2]

/-- The test `deadly` spelled out: wall, mine or obstacle. -/
theorem deadly_cell_iff (x y : Int) (mines : List Position) (obstacle : CrossObstacle) :
    deadly_cell x y mines obstacle = true ↔
      ((x ≤ 0 ∨ x ≥ BOARD_COLS - 1 ∨ y ≤ 0 ∨ y ≥ BOARD_ROWS - 1) ∨
        (⟨x, y⟩ : Position) ∈ mines ∨ is_obstacle_position obstacle x y = true) := by
  simp [deadly_cell, is_mine_at_iff, or_assoc]

/-- The length set by `reset_robot_body_from_lives`. -/
theorem reset_body_length (robot : Robot) (player : Player) :
    (reset_robot_body_from_lives robot player).body_length = clamp_body_length player.lives := rfl

/-- The two `if`s at the start of `reset_robot_body_from_lives` clamp to `[0, 20]`. -/
theorem clamp_body_length_eq (lives : Int) :
    clamp_body_length lives = max 0 (min lives MAX_BODY_SEGMENTS) := by
  unfold clamp_body_length MAX_BODY_SEGMENTS
  by_cases h1 : lives < 0
  · simp [h1]; omega
  · by_cases h2 : lives > 20
    · simp [h1, h2]; omega
    · simp [h1, h2]; omega



/-- C3. When the robot is not invincible, its head is on a wall, mine or obstacle cell and
the player has more than one life, `check_collision` takes exactly one life, moves the
head to `find_safe_spawn_position mines obstacle`, sets `body_length` to the new number of
lives clamped to `[0, MAX_BODY_SEGMENTS]`, leaves the robot invincible, reports
`life_lost` and does not touch `running`.  (No bound on the number of mines is needed.) -/
theorem check_collision_life_lost (player : Player) (robot : Robot) (mines : List Position)
    (obstacle : CrossObstacle) (running : Bool)
    (hinv : robot.invincible = false)
    (hhit : (robot.pos.x ≤ 0 ∨ robot.pos.x ≥ BOARD_COLS - 1 ∨ robot.pos.y ≤ 0 ∨
        robot.pos.y ≥ BOARD_ROWS - 1) ∨ robot.pos ∈ mines ∨
        is_obstacle_position obstacle robot.pos.x robot.pos.y = true)
    (hlives : player.lives > 1) :
    (check_collision player robot mines obstacle running).player.lives = player.lives - 1 ∧
    (check_collision player robot mines obstacle running).robot.pos =
      find_safe_spawn_position mines obstacle ∧
    (check_collision player robot mines obstacle running).robot.body_length =
      max 0 (min (player.lives - 1) MAX_BODY_SEGMENTS) ∧
    (check_collision player robot mines obstacle running).robot.invincible = true ∧
    (check_collision player robot mines obstacle running).life_lost = true ∧
    (check_collision player robot mines obstacle running).running = running := by
  have hd : deadly_cell robot.pos.x robot.pos.y mines obstacle = true :=
    (deadly_cell_iff _ _ _ _).2 hhit
  have hl : ¬ (player.lives - 1 ≤ 0) := by omega
  simp [check_collision, hd, hinv, hl, invincible_countdown, reset_robot_body_from_lives,
    INVINCIBLE_TICKS, clamp_body_length_eq]

/-- The respawn of C3 at a robot with three lives on the left wall. -/
theorem check_collision_life_lost_witness :
    (check_collision player_three_lives robot_on_wall [] init_obstacle true).player.lives = 2 ∧
    (check_collision player_three_lives robot_on_wall [] init_obstacle true).robot.pos =
      find_safe_spawn_position [] init_obstacle ∧
    (check_collision player_three_lives robot_on_wall [] init_obstacle true).robot.body_length =
      max 0 (min (3 - 1) MAX_BODY_SEGMENTS) ∧
    (check_collision player_three_lives robot_on_wall [] init_obstacle true).robot.invincible
      = true ∧
    (check_collision player_three_lives robot_on_wall [] init_obstacle true).life_lost = true ∧
    (check_collision player_three_lives robot_on_wall [] init_obstacle true).running = true :=
  check_collision_life_lost player_three_lives robot_on_wall [] init_obstacle true
    (by decide) (by decide) (by decide)

/-- C4, the code at a failing input.  A robot with three lives steps onto the left wall:
`check_collision` sets `invincible_ticks` to `INVINCIBLE_TICKS` and then runs the countdown
block in the same call, so the state it returns holds 9, not 10. -/
theorem check_collision_grants_nine_ticks :
    (check_collision player_three_lives robot_on_wall [] init_obstacle true).robot.invincible_ticks
      = 9 ∧
    (check_collision player_three_lives robot_on_wall [] init_obstacle true).robot.invincible_ticks
      ≠ INVINCIBLE_TICKS := by
  have h : (check_collision player_three_lives robot_on_wall [] init_obstacle
      true).robot.invincible_ticks = 9 := by
    simp [check_collision, deadly_cell, robot_on_wall, player_three_lives, invincible_countdown,
      reset_robot_body_from_lives, INVINCIBLE_TICKS, BOARD_COLS, BOARD_ROWS]
  exact ⟨h, by rw [h]; decide⟩

/-- C5. When the robot is not invincible, its head is on a wall, mine or obstacle cell and
the player has exactly one life, `check_collision` sets `lives` to 0 and `running` to
false, reports `life_lost = false` and returns the robot unchanged in every field (head,
heading, body, `body_length`, invincibility): there is no respawn. -/
theorem check_collision_game_over (player : Player) (robot : Robot) (mines : List Position)
    (obstacle : CrossObstacle) (running : Bool)
    (hinv : robot.invincible = false)
    (hhit : (robot.pos.x ≤ 0 ∨ robot.pos.x ≥ BOARD_COLS - 1 ∨ robot.pos.y ≤ 0 ∨
        robot.pos.y ≥ BOARD_ROWS - 1) ∨ robot.pos ∈ mines ∨
        is_obstacle_position obstacle robot.pos.x robot.pos.y = true)
    (hlives : player.lives = 1) :
    (check_collision player robot mines obstacle running).player.lives = 0 ∧
    (check_collision player robot mines obstacle running).running = false ∧
    (check_collision player robot mines obstacle running).life_lost = false ∧
    (check_collision player robot mines obstacle running).robot = robot := by
  have hd : deadly_cell robot.pos.x robot.pos.y mines obstacle = true :=
    (deadly_cell_iff _ _ _ _).2 hhit
  simp [check_collision, hd, hinv, hlives]

/-- The game over of C5 at a robot with one life on the left wall. -/
theorem check_collision_game_over_witness :
    (check_collision player_last_life robot_on_wall [] init_obstacle true).player.lives = 0 ∧
    (check_collision player_last_life robot_on_wall [] init_obstacle true).running = false ∧
    (check_collision player_last_life robot_on_wall [] init_obstacle true).life_lost = false ∧
    (check_collision player_last_life robot_on_wall [] init_obstacle true).robot
      = robot_on_wall :=
  check_collision_game_over player_last_life robot_on_wall [] init_obstacle true
    (by decide) (by decide) (by decide)

/-- C6. When the robot is invincible, `check_collision` leaves the player record (and so
`lives`) and `running` unchanged and reports `life_lost = false`, wherever the head is;
the robot it returns differs from the one it received at most in `invincible` and
`invincible_ticks`. -/
theorem check_collision_invincible_frame (player : Player) (robot : Robot)
    (mines : List Position) (obstacle : CrossObstacle) (running : Bool)
    (hinv : robot.invincible = true) :
    (check_collision player robot mines obstacle running).player = player ∧
    (check_collision player robot mines obstacle running).running = running ∧
    (check_collision player robot mines obstacle running).life_lost = false ∧
    (check_collision player robot mines obstacle running).robot =
      { robot with
        invincible := (check_collision player robot mines obstacle running).robot.invincible
        invincible_ticks :=
          (check_collision player robot mines obstacle running).robot.invincible_ticks } := by
  by_cases h : robot.invincible_ticks - 1 ≤ 0 <;>
    simp [check_collision, hinv, invincible_countdown, h]

/-- The frame of C6 at an invincible robot on the left wall. -/
theorem check_collision_invincible_frame_witness :
    (check_collision player_last_life robot_invincible [] init_obstacle true).player =
      player_last_life ∧
    (check_collision player_last_life robot_invincible [] init_obstacle true).running = true ∧
    (check_collision player_last_life robot_invincible [] init_obstacle true).life_lost = false ∧
    (check_collision player_last_life robot_invincible [] init_obstacle true).robot =
      { robot_invincible with
        invincible :=
          (check_collision player_last_life robot_invincible [] init_obstacle true).robot.invincible
        invincible_ticks :=
          (check_collision player_last_life robot_invincible [] init_obstacle
            true).robot.invincible_ticks } :=
  check_collision_invincible_frame player_last_life robot_invincible [] init_obstacle true
    (by decide)

/-! ## Random placement -/

/-- A cell drawn as `(1 + rand() % 48, 1 + rand() % 18)` lies in the board interior. -/
theorem draw_in_interior (rx ry : Nat) :
    in_interior ⟨1 + ((rx % (BOARD_COLS - 2).toNat : Nat) : Int),
      1 + ((ry % (BOARD_ROWS - 2).toNat : Nat) : Int)⟩ := by
  have e1 : (BOARD_COLS - 2).toNat = 48 := by decide
  have e2 : (BOARD_ROWS - 2).toNat = 18 := by decide
  have h1 := Nat.mod_lt rx (show 0 < 48 by decide)
  have h2 := Nat.mod_lt ry (show 0 < 18 by decide)
  rw [e1, e2]
  refine ⟨?_, ?_, ?_, ?_⟩ <;> simp only [BOARD_COLS, BOARD_ROWS] <;> omega

/-- What `spawn_mines_loop` guarantees when it ends: the old entries are kept in place, the
appended cells are interior cells off the robot, the person, the obstacle and every
earlier mine, and the final count is `max (old count) target_count`. -/
theorem spawn_mines_loop_spec (robot : Robot) (person : Option Position)
    (obstacle : CrossObstacle) (tc : Int) :
    ∀ (n : Nat) (draws : List Nat) (mines mines' : List Position) (rest : List Nat),
      draws.length ≤ n →
      spawn_mines_loop robot person obstacle tc draws mines = some (mines', rest) →
      ∃ added : List Position, mines' = mines ++ added ∧ added.Nodup ∧
        (∀ c ∈ added, in_interior c ∧ c ≠ robot.pos ∧ (∀ p, person = some p → c ≠ p) ∧
          is_obstacle_position obstacle c.x c.y = false ∧ c ∉ mines) ∧
        (mines'.length : Int) = max (mines.length : Int) tc := by
  intro n
  induction n with
  | zero =>
    intro draws mines mines' rest hlen h
    have hd : draws = [] := List.length_eq_zero.mp (Nat.le_zero.mp hlen)
    subst hd
    unfold spawn_mines_loop at h
    split at h
    · exact absurd h (by simp)
    · rename_i hlt
      simp only [Option.some.injEq, Prod.mk.injEq] at h
      refine ⟨[], by simp [h.1], List.nodup_nil, by simp, ?_⟩
      rw [← h.1]; omega
  | succ n ih =>
    intro draws mines mines' rest hlen h
    match draws, hlen, h with
    | [], _, h =>
      unfold spawn_mines_loop at h
      split at h
      · exact absurd h (by simp)
      · simp only [Option.some.injEq, Prod.mk.injEq] at h
        refine ⟨[], by simp [h.1], List.nodup_nil, by simp, ?_⟩
        rw [← h.1]; omega
    | [a], _, h =>
      unfold spawn_mines_loop at h
      split at h
      · exact absurd h (by simp)
      · simp only [Option.some.injEq, Prod.mk.injEq] at h
        refine ⟨[], by simp [h.1], List.nodup_nil, by simp, ?_⟩
        rw [← h.1]; omega
    | rx :: ry :: rest0, hlen, h =>
      have hl0 : rest0.length ≤ n := by simp at hlen; omega
      unfold spawn_mines_loop at h
      by_cases hlt : (mines.length : Int) < tc
      · simp only [hlt, if_true] at h
        split at h
        · exact ih rest0 mines mines' rest hl0 h
        · rename_i hrobot
          split at h
          · exact ih rest0 mines mines' rest hl0 h
          · rename_i hperson
            split at h
            · exact ih rest0 mines mines' rest hl0 h
            · rename_i hobs
              split at h
              · exact ih rest0 mines mines' rest hl0 h
              · rename_i hmine
                obtain ⟨added, hm, hnd, hall, hlen'⟩ := ih rest0 _ mines' rest hl0 h
                have hmine' := hmine
                rw [is_mine_at_iff] at hmine'
                refine ⟨(⟨1 + ((rx % (BOARD_COLS - 2).toNat : Nat) : Int),
                    1 + ((ry % (BOARD_ROWS - 2).toNat : Nat) : Int)⟩ : Position) :: added,
                  by rw [hm, List.append_assoc]; rfl, ?_, ?_, ?_⟩
                · refine List.nodup_cons.mpr ⟨?_, hnd⟩
                  intro hc
                  have := (hall _ hc).2.2.2.2
                  simp at this
                · intro c hc
                  rcases List.mem_cons.mp hc with hc | hc
                  · subst hc
                    refine ⟨?_, ?_, ?_, by simpa using hobs, hmine'⟩
                    · exact draw_in_interior rx ry
                    · intro heq
                      apply hrobot
                      rw [← heq]
                      exact ⟨rfl, rfl⟩
                    · intro p hp heq
                      apply hperson
                      subst hp
                      rw [← heq]
                      simp
                  · obtain ⟨h1, h2, h3, h4, h5⟩ := hall c hc
                    exact ⟨h1, h2, h3, h4, fun hmem => h5 (List.mem_append_left _ hmem)⟩
                · rw [hlen']
                  simp only [List.length_append, List.length_singleton, Nat.cast_add,
                    Nat.cast_one]
                  omega
      · simp only [hlt, if_false, Option.some.injEq, Prod.mk.injEq] at h
        refine ⟨[], by simp [h.1], List.nodup_nil, by simp, ?_⟩
        rw [← h.1]; omega

/-- What `spawn_person` guarantees when it ends: an interior cell off the robot, the mines
and the obstacle. -/
theorem spawn_person_spec (robot : Robot) (mines : List Position) (obstacle : CrossObstacle) :
    ∀ (n : Nat) (draws : List Nat) (c : Position) (rest : List Nat),
      draws.length ≤ n →
      spawn_person robot mines obstacle draws = some (c, rest) →
      in_interior c ∧ c ≠ robot.pos ∧ c ∉ mines ∧
        is_obstacle_position obstacle c.x c.y = false := by
  intro n
  induction n with
  | zero =>
    intro draws c rest hlen h
    have hd : draws = [] := List.length_eq_zero.mp (Nat.le_zero.mp hlen)
    subst hd
    simp [spawn_person] at h
  | succ n ih =>
    intro draws c rest hlen h
    match draws, hlen, h with
    | [], _, h => simp [spawn_person] at h
    | [a], _, h => simp [spawn_person] at h
    | rx :: ry :: rest0, hlen, h =>
      have hl0 : rest0.length ≤ n := by simp at hlen; omega
      unfold spawn_person at h
      simp only at h
      split at h
      · exact ih rest0 c rest hl0 h
      · rename_i hrobot
        split at h
        · exact ih rest0 c rest hl0 h
        · rename_i hmine
          split at h
          · exact ih rest0 c rest hl0 h
          · rename_i hobs
            simp only [Option.some.injEq, Prod.mk.injEq] at h
            rw [is_mine_at_iff] at hmine
            rw [← h.1]
            refine ⟨draw_in_interior rx ry, ?_, hmine, by simpa using hobs⟩
            intro heq
            apply hrobot
            rw [← heq]
            exact ⟨rfl, rfl⟩

/-- C9. On every sequence of draws on which `spawn_mines` ends, the result is the old list
followed by appended cells, each of which lies in the board interior, is not the robot's
head, not the person's cell, not an obstacle cell and not a mine already in the list (the
appended cells are off the old list and pairwise distinct); and on every sequence on
which `spawn_person` ends, the cell it chooses lies in the interior and is not the
robot's head, not a mine and not an obstacle cell. -/
theorem placement_avoids_occupied (draws : List Nat) (robot : Robot)
    (person : Option Position) (mines : List Position) (target_count : Int)
    (obstacle : CrossObstacle) :
    (∀ (mines' : List Position) (rest : List Nat),
      spawn_mines draws robot person mines target_count obstacle = some (mines', rest) →
      ∃ added : List Position, mines' = mines ++ added ∧ added.Nodup ∧
        ∀ c ∈ added, in_interior c ∧ c ≠ robot.pos ∧ (∀ p, person = some p → c ≠ p) ∧
          is_obstacle_position obstacle c.x c.y = false ∧ c ∉ mines) ∧
    (∀ (c : Position) (rest : List Nat),
      spawn_person robot mines obstacle draws = some (c, rest) →
      in_interior c ∧ c ≠ robot.pos ∧ c ∉ mines ∧
        is_obstacle_position obstacle c.x c.y = false) := by
  constructor
  · intro mines' rest h
    obtain ⟨added, h1, h2, h3, _⟩ :=
      spawn_mines_loop_spec robot person obstacle _ draws.length draws mines mines' rest
        (le_refl _) h
    exact ⟨added, h1, h2, h3⟩
  · intro c rest h
    exact spawn_person_spec robot mines obstacle draws.length draws c rest (le_refl _) h

/-- C9 on draws that end both loops: `spawn_mines` rejects the robot's cell `(10, 10)` and
appends `(4, 5)`, `(6, 7)`; `spawn_person` rejects `(10, 10)` and chooses `(4, 5)`. -/
theorem placement_avoids_occupied_witness :
    spawn_mines [9, 9, 3, 4, 5, 6] robot_at_anchor none [] 2 init_obstacle
      = some ([⟨4, 5⟩, ⟨6, 7⟩], []) ∧
    spawn_person robot_at_anchor [] init_obstacle [9, 9, 3, 4, 5, 6] = some (⟨4, 5⟩, [5, 6]) ∧
    (∃ added : List Position, [⟨4, 5⟩, ⟨6, 7⟩] = [] ++ added ∧ added.Nodup ∧
        ∀ c ∈ added, in_interior c ∧ c ≠ robot_at_anchor.pos ∧
          (∀ p, (none : Option Position) = some p → c ≠ p) ∧
          is_obstacle_position init_obstacle c.x c.y = false ∧ c ∉ ([] : List Position)) ∧
    (in_interior ⟨4, 5⟩ ∧ (⟨4, 5⟩ : Position) ≠ robot_at_anchor.pos ∧
      (⟨4, 5⟩ : Position) ∉ ([] : List Position) ∧
      is_obstacle_position init_obstacle (4 : Int) (5 : Int) = false) :=
  ⟨by decide, by decide,
    (placement_avoids_occupied [9, 9, 3, 4, 5, 6] robot_at_anchor none [] 2 init_obstacle).1
      [⟨4, 5⟩, ⟨6, 7⟩] [] (by decide),
    (placement_avoids_occupied [9, 9, 3, 4, 5, 6] robot_at_anchor none [] 2 init_obstacle).2
      ⟨4, 5⟩ [5, 6] (by decide)⟩

/-- C10. When `spawn_mines` ends, the first `mine_count` entries of the list are the old
ones in the old order, and the new count is `max mine_count (min target_count MAX_MINES)`;
so no mine is removed, and a list within `MAX_MINES` stays within it. -/
theorem spawn_mines_count (draws : List Nat) (robot : Robot) (person : Option Position)
    (mines : List Position) (target_count : Int) (obstacle : CrossObstacle)
    (mines' : List Position) (rest : List Nat)
    (h : spawn_mines draws robot person mines target_count obstacle = some (mines', rest)) :
    mines'.take mines.length = mines ∧
    (mines'.length : Int) = max (mines.length : Int) (min target_count MAX_MINES) ∧
    mines.length ≤ mines'.length ∧
    ((mines.length : Int) ≤ MAX_MINES → (mines'.length : Int) ≤ MAX_MINES) := by
  obtain ⟨added, h1, _, _, h4⟩ :=
    spawn_mines_loop_spec robot person obstacle _ draws.length draws mines mines' rest
      (le_refl _) h
  have hcl : (if target_count > MAX_MINES then MAX_MINES else target_count)
      = min target_count MAX_MINES := by
    by_cases hc : target_count > MAX_MINES
    · simp [hc]; omega
    · simp [hc]; omega
  rw [hcl] at h4
  refine ⟨by simp [h1], h4, by simp [h1], ?_⟩
  intro hle
  rw [h4]
  omega

/-- C10 on draws that end the loop: one old mine, target 3. -/
theorem spawn_mines_count_witness :
    spawn_mines [9, 9, 3, 4, 5, 6] robot_at_anchor none [⟨7, 7⟩] 3 init_obstacle
      = some ([⟨7, 7⟩, ⟨4, 5⟩, ⟨6, 7⟩], []) ∧
    ([⟨7, 7⟩, ⟨4, 5⟩, ⟨6, 7⟩] : List Position).take ([⟨7, 7⟩] : List Position).length
      = [⟨7, 7⟩] ∧
    ((([⟨7, 7⟩, ⟨4, 5⟩, ⟨6, 7⟩] : List Position).length : Nat) : Int) =
      max ((([⟨7, 7⟩] : List Position).length : Nat) : Int) (min 3 MAX_MINES) ∧
    ([⟨7, 7⟩] : List Position).length ≤ ([⟨7, 7⟩, ⟨4, 5⟩, ⟨6, 7⟩] : List Position).length ∧
    (((([⟨7, 7⟩] : List Position).length : Nat) : Int) ≤ MAX_MINES →
      ((([⟨7, 7⟩, ⟨4, 5⟩, ⟨6, 7⟩] : List Position).length : Nat) : Int) ≤ MAX_MINES) :=
  ⟨by decide,
    spawn_mines_count [9, 9, 3, 4, 5, 6] robot_at_anchor none [⟨7, 7⟩] 3 init_obstacle
      [⟨7, 7⟩, ⟨4, 5⟩, ⟨6, 7⟩] [] (by decide)⟩

/-! ## The safe spawn position -/

/-- Membership in a loop range. -/
theorem mem_loopRange (lo hi i : Int) : i ∈ loopRange lo hi ↔ lo ≤ i ∧ i < hi := by
  unfold loopRange
  simp only [List.mem_map, List.mem_range]
  constructor
  · rintro ⟨k, hk, rfl⟩
    omega
  · rintro ⟨h1, h2⟩
    exact ⟨(i - lo).toNat, by omega, by omega⟩

/-- A loop range is strictly increasing. -/
theorem loopRange_sorted (lo hi : Int) : (loopRange lo hi).Pairwise (fun a b => a < b) := by
  unfold loopRange
  rw [List.pairwise_map]
  exact (List.pairwise_lt_range _).imp (by intro a b h; omega)

/-- The cells scanned by `find_safe_spawn_position` are those of `[2, 47] x [2, 17]`. -/
theorem mem_scan_cells (c : Position) :
    c ∈ scan_cells ↔ 2 ≤ c.x ∧ c.x < BOARD_COLS - 2 ∧ 2 ≤ c.y ∧ c.y < BOARD_ROWS - 2 := by
  unfold scan_cells
  simp only [List.mem_flatMap, List.mem_map, mem_loopRange]
  constructor
  · rintro ⟨y, hy, x, hx, rfl⟩
    exact ⟨hx.1, hx.2, hy.1, hy.2⟩
  · rintro ⟨h1, h2, h3, h4⟩
    exact ⟨c.y, ⟨h3, h4⟩, c.x, ⟨h1, h2⟩, rfl⟩

/-- The scan of `find_safe_spawn_position` runs in row-major order. -/
theorem scan_cells_sorted : scan_cells.Pairwise row_major_lt := by
  unfold scan_cells
  rw [List.pairwise_flatMap]
  constructor
  · intro y _
    rw [List.pairwise_map]
    exact (loopRange_sorted _ _).imp (by intro a b h; exact Or.inr ⟨rfl, h⟩)
  · refine (loopRange_sorted _ _).imp ?_
    intro y1 y2 h a ha b hb
    simp only [List.mem_map] at ha hb
    obtain ⟨_, _, rfl⟩ := ha
    obtain ⟨_, _, rfl⟩ := hb
    exact Or.inl h

/-- The two nested loops of `find_safe_spawn_position` are one pass over `scan_cells`. -/
theorem spawn_scan_eq (mines : List Position) (obstacle : CrossObstacle) :
    spawn_scan mines obstacle =
      scan_cells.foldl (fun acc c => spawn_scan_cell mines obstacle acc c.x c.y)
        (⟨Int.tdiv BOARD_COLS 2, Int.tdiv BOARD_ROWS 2⟩, 1000000) := by
  unfold spawn_scan scan_cells
  generalize ((⟨Int.tdiv BOARD_COLS 2, Int.tdiv BOARD_ROWS 2⟩ : Position), (1000000 : Int)) = acc
  generalize loopRange 2 (BOARD_ROWS - 2) = rows
  induction rows generalizing acc with
  | nil => rfl
  | cons y ys ih =>
    simp only [List.foldl_cons, List.flatMap_cons, List.foldl_append, List.foldl_map]
    exact ih _

/-- The result of the scan over a list of cells in row-major order: either no free cell
beats the initial distance, or the result is a free cell of the list, at the least
distance, and first in row-major order among the free cells at that distance. -/
theorem scan_fold_spec (mines : List Position) (obstacle : CrossObstacle) :
    ∀ (l : List Position) (acc : Position × Int), l.Pairwise row_major_lt →
      (l.foldl (fun acc c => spawn_scan_cell mines obstacle acc c.x c.y) acc = acc ∧
        ∀ c ∈ l, is_obstacle_position obstacle c.x c.y = false → c ∉ mines →
          acc.2 ≤ anchor_dist c) ∨
      ((l.foldl (fun acc c => spawn_scan_cell mines obstacle acc c.x c.y) acc).1 ∈ l ∧
        is_obstacle_position obstacle
          (l.foldl (fun acc c => spawn_scan_cell mines obstacle acc c.x c.y) acc).1.x
          (l.foldl (fun acc c => spawn_scan_cell mines obstacle acc c.x c.y) acc).1.y = false ∧
        (l.foldl (fun acc c => spawn_scan_cell mines obstacle acc c.x c.y) acc).1 ∉ mines ∧
        (l.foldl (fun acc c => spawn_scan_cell mines obstacle acc c.x c.y) acc).2 =
          anchor_dist (l.foldl (fun acc c => spawn_scan_cell mines obstacle acc c.x c.y) acc).1 ∧
        (l.foldl (fun acc c => spawn_scan_cell mines obstacle acc c.x c.y) acc).2 < acc.2 ∧
        ∀ c ∈ l, is_obstacle_position obstacle c.x c.y = false → c ∉ mines →
          anchor_dist (l.foldl (fun acc c => spawn_scan_cell mines obstacle acc c.x c.y) acc).1
              < anchor_dist c ∨
            (anchor_dist (l.foldl (fun acc c => spawn_scan_cell mines obstacle acc c.x c.y) acc).1
                = anchor_dist c ∧
              ((l.foldl (fun acc c => spawn_scan_cell mines obstacle acc c.x c.y) acc).1 = c ∨
                row_major_lt
                  (l.foldl (fun acc c => spawn_scan_cell mines obstacle acc c.x c.y) acc).1 c))) := by
  intro l
  induction l with
  | nil =>
    intro acc _
    left
    simp
  | cons c cs ih =>
    intro acc hp
    rw [List.pairwise_cons] at hp
    simp only [List.foldl_cons]
    by_cases hfree : is_obstacle_position obstacle c.x c.y = false ∧ c ∉ mines ∧
        anchor_dist c < acc.2
    · obtain ⟨ho, hm, hd⟩ := hfree
      have hm' : is_mine_at mines c.x c.y = false := by
        rw [← Bool.not_eq_true, is_mine_at_iff]
        exact hm
      have hstep : spawn_scan_cell mines obstacle acc c.x c.y = (c, anchor_dist c) := by
        unfold spawn_scan_cell
        rw [if_neg (by rw [ho]; decide), if_neg (by rw [hm']; decide)]
        exact if_pos hd
      rw [hstep]
      right
      rcases ih (c, anchor_dist c) hp.2 with ⟨he, hall⟩ | ⟨h1, h2, h3, h4, h5, h6⟩
      · rw [he]
        refine ⟨List.mem_cons_self _ _, ho, hm, rfl, hd, ?_⟩
        intro c' hc' ho' hm'
        rcases List.mem_cons.mp hc' with rfl | hc'
        · exact Or.inr ⟨rfl, Or.inl rfl⟩
        · have := hall c' hc' ho' hm'
          simp only at this
          rcases lt_or_eq_of_le this with hlt | heq
          · exact Or.inl hlt
          · exact Or.inr ⟨heq, Or.inr (hp.1 c' hc')⟩
      · simp only at h5
        refine ⟨List.mem_cons_of_mem _ h1, h2, h3, h4, lt_trans h5 hd, ?_⟩
        intro c' hc' ho' hm'
        rcases List.mem_cons.mp hc' with rfl | hc'
        · left
          rw [← h4]
          exact h5
        · exact h6 c' hc' ho' hm'
    · have hstep : spawn_scan_cell mines obstacle acc c.x c.y = acc := by
        unfold spawn_scan_cell
        by_cases ho : is_obstacle_position obstacle c.x c.y = true
        · rw [if_pos ho]
        · rw [if_neg ho]
          by_cases hm : is_mine_at mines c.x c.y = true
          · rw [if_pos hm]
          · rw [if_neg hm]
            have hm2 : c ∉ mines := by
              rw [is_mine_at_iff] at hm
              exact hm
            have hd : ¬ anchor_dist c < acc.2 := fun hd =>
              hfree ⟨by simpa using ho, hm2, hd⟩
            exact if_neg hd
      rw [hstep]
      have hc : is_obstacle_position obstacle c.x c.y = false → c ∉ mines →
          acc.2 ≤ anchor_dist c := by
        intro ho hm
        by_contra hlt
        exact hfree ⟨ho, hm, by omega⟩
      rcases ih acc hp.2 with ⟨he, hall⟩ | ⟨h1, h2, h3, h4, h5, h6⟩
      · left
        refine ⟨he, ?_⟩
        intro c' hc' ho' hm'
        rcases List.mem_cons.mp hc' with rfl | hc'
        · exact hc ho' hm'
        · exact hall c' hc' ho' hm'
      · right
        refine ⟨List.mem_cons_of_mem _ h1, h2, h3, h4, h5, ?_⟩
        intro c' hc' ho' hm'
        rcases List.mem_cons.mp hc' with rfl | hc'
        · left
          rw [← h4]
          have := hc ho' hm'
          omega
        · exact h6 c' hc' ho' hm'

/-- The diamond of radius 5 around the anchor has 61 distinct cells, all scanned by
`find_safe_spawn_position` and none on the standard obstacle. -/
theorem anchor_diamond_facts :
    anchor_diamond.Nodup ∧ anchor_diamond.length = 61 ∧
    ∀ c ∈ anchor_diamond, anchor_dist c ≤ 5 ∧
      (2 ≤ c.x ∧ c.x < BOARD_COLS - 2 ∧ 2 ≤ c.y ∧ c.y < BOARD_ROWS - 2) ∧
      is_obstacle_position init_obstacle c.x c.y = false := by
  decide!

/-- With at most `MAX_MINES` mines, some cell within distance 5 of the anchor is free. -/
theorem exists_free_near_anchor (mines : List Position)
    (hcount : (mines.length : Int) ≤ MAX_MINES) :
    ∃ c, c ∈ scan_cells ∧ anchor_dist c ≤ 5 ∧
      is_obstacle_position init_obstacle c.x c.y = false ∧ c ∉ mines := by
  obtain ⟨hnd, hlen, hall⟩ := anchor_diamond_facts
  by_contra hno
  have hsub : anchor_diamond ⊆ mines := by
    intro c hc
    by_contra hcm
    obtain ⟨h1, h2, h3⟩ := hall c hc
    exact hno ⟨c, (mem_scan_cells c).2 h2, h1, h3, hcm⟩
  have hle := (hnd.subperm hsub).length_le
  rw [hlen] at hle
  unfold MAX_MINES at hcount
  omega

/-- C8. For every mine list of at most `MAX_MINES` cells and the standard cross obstacle,
the cell returned by `find_safe_spawn_position` lies in the board interior and is not a
wall, mine or obstacle cell; its Manhattan distance to the anchor `(10, 10)` is at most
that of every free cell of the interior `[1, 48] x [1, 18]`; and every other free
interior cell at the same distance comes later in row-major order (larger `y`, or the same
`y` and larger `x`). -/
theorem find_safe_spawn_nearest (mines : List Position)
    (hcount : (mines.length : Int) ≤ MAX_MINES) :
    in_interior (find_safe_spawn_position mines init_obstacle) ∧
    is_blocked_cell (find_safe_spawn_position mines init_obstacle).x
      (find_safe_spawn_position mines init_obstacle).y mines init_obstacle = false ∧
    ∀ c : Position, in_interior c → c ∉ mines →
      is_obstacle_position init_obstacle c.x c.y = false →
      anchor_dist (find_safe_spawn_position mines init_obstacle) ≤ anchor_dist c ∧
      (anchor_dist c = anchor_dist (find_safe_spawn_position mines init_obstacle) →
        c = find_safe_spawn_position mines init_obstacle ∨
        row_major_lt (find_safe_spawn_position mines init_obstacle) c) := by
  obtain ⟨c0, hc0, hd0, ho0, hm0⟩ := exists_free_near_anchor mines hcount
  unfold find_safe_spawn_position
  rw [spawn_scan_eq]
  rcases scan_fold_spec mines init_obstacle scan_cells
      (⟨Int.tdiv BOARD_COLS 2, Int.tdiv BOARD_ROWS 2⟩, 1000000) scan_cells_sorted with
    ⟨_, hall⟩ | ⟨h1, h2, h3, h4, _, h6⟩
  · have := hall c0 hc0 ho0 hm0
    simp only at this
    omega
  · generalize (scan_cells.foldl (fun acc c => spawn_scan_cell mines init_obstacle acc c.x c.y)
      (⟨Int.tdiv BOARD_COLS 2, Int.tdiv BOARD_ROWS 2⟩, 1000000)) = r at *
    have hb := (mem_scan_cells r.1).1 h1
    have hnear : anchor_dist r.1 ≤ 5 := by
      rcases h6 c0 hc0 ho0 hm0 with h | ⟨h, _⟩ <;> omega
    simp only [BOARD_COLS, BOARD_ROWS] at hb
    refine ⟨?_, ?_, ?_⟩
    · simp only [in_interior, BOARD_COLS, BOARD_ROWS]
      omega
    · have hm : is_mine_at mines r.1.x r.1.y = false := by
        rw [← Bool.not_eq_true, is_mine_at_iff]
        exact h3
      unfold is_blocked_cell
      rw [if_neg (by simp only [BOARD_COLS, BOARD_ROWS]; omega), if_neg (by rw [h2]; decide),
        if_neg (by rw [hm]; decide)]
    · intro c hci hcm hco
      by_cases hs : c ∈ scan_cells
      · rcases h6 c hs hco hcm with h | ⟨h, h'⟩
        · exact ⟨le_of_lt h, fun he => absurd he (by omega)⟩
        · refine ⟨le_of_eq h, fun _ => ?_⟩
          rcases h' with h' | h'
          · exact Or.inl h'.symm
          · exact Or.inr h'
      · have hfar : 8 ≤ anchor_dist c := by
          rw [mem_scan_cells] at hs
          simp only [in_interior, BOARD_COLS, BOARD_ROWS] at hci hs
          unfold anchor_dist
          omega
        exact ⟨by omega, fun he => absurd he (by omega)⟩

/-- C8 at a list of two mines on and next to the anchor: the spawn cell is `(9, 10)`. -/
theorem find_safe_spawn_nearest_witness :
    find_safe_spawn_position [⟨10, 10⟩, ⟨10, 9⟩] init_obstacle = ⟨9, 10⟩ ∧
    (in_interior (find_safe_spawn_position [⟨10, 10⟩, ⟨10, 9⟩] init_obstacle) ∧
    is_blocked_cell (find_safe_spawn_position [⟨10, 10⟩, ⟨10, 9⟩] init_obstacle).x
      (find_safe_spawn_position [⟨10, 10⟩, ⟨10, 9⟩] init_obstacle).y [⟨10, 10⟩, ⟨10, 9⟩]
      init_obstacle = false ∧
    ∀ c : Position, in_interior c → c ∉ ([⟨10, 10⟩, ⟨10, 9⟩] : List Position) →
      is_obstacle_position init_obstacle c.x c.y = false →
      anchor_dist (find_safe_spawn_position [⟨10, 10⟩, ⟨10, 9⟩] init_obstacle) ≤ anchor_dist c ∧
      (anchor_dist c = anchor_dist (find_safe_spawn_position [⟨10, 10⟩, ⟨10, 9⟩] init_obstacle) →
        c = find_safe_spawn_position [⟨10, 10⟩, ⟨10, 9⟩] init_obstacle ∨
        row_major_lt (find_safe_spawn_position [⟨10, 10⟩, ⟨10, 9⟩] init_obstacle) c)) :=
  ⟨by decide!, find_safe_spawn_nearest [⟨10, 10⟩, ⟨10, 9⟩] (by decide)⟩

/-! ## The invincibility counter along the game loop -/

/-- `handle_input` writes only the heading and the mode of the robot. -/
theorem handle_input_invincible (robot : Robot) (input : Int) (running : Bool) :
    (handle_input robot input running).1.invincible = robot.invincible ∧
    (handle_input robot input running).1.invincible_ticks = robot.invincible_ticks := by
  unfold handle_input
  repeat' split
  all_goals simp [set_direction]

/-- The retry loop of `move_robot_ai` writes only the heading. -/
theorem ai_fallback_frame (robot : Robot) (mines : List Position) (obstacle : CrossObstacle) :
    ∀ (k : Nat) (draws : List Nat) (r : Robot) (rest : List Nat),
      ai_fallback robot mines obstacle k draws = some (r, rest) →
      r = { robot with direction := r.direction } := by
  intro k
  induction k with
  | zero =>
    intro draws r rest h
    simp only [ai_fallback, Option.some.injEq, Prod.mk.injEq] at h
    rw [← h.1]
  | succ k ih =>
    intro draws r rest h
    cases draws with
    | nil => simp [ai_fallback] at h
    | cons d ds =>
      simp only [ai_fallback] at h
      split at h
      · simp only [Option.some.injEq, Prod.mk.injEq] at h
        rw [← h.1]
        rfl
      · exact ih ds r rest h

/-- `move_robot_ai` writes only the heading. -/
theorem move_robot_ai_frame (draws : List Nat) (robot : Robot) (person : Option Position)
    (mines : List Position) (obstacle : CrossObstacle) (r : Robot) (rest : List Nat)
    (h : move_robot_ai draws robot person mines obstacle = some (r, rest)) :
    r = { robot with direction := r.direction } := by
  unfold move_robot_ai at h
  split at h
  · simp only [Option.some.injEq, Prod.mk.injEq] at h
    rw [← h.1]
  · split at h
    · simp only [Option.some.injEq, Prod.mk.injEq] at h
      rw [← h.1]
      rfl
    · exact ai_fallback_frame robot mines obstacle 4 draws r rest h

/-- The invariant of the invincibility counter: it is non-negative, and at zero the robot
is not invincible. -/
theorem invincible_countdown_inv (robot : Robot) (h : invincible_ok robot) :
    invincible_ok (invincible_countdown robot) := by
  unfold invincible_ok at *
  unfold invincible_countdown
  by_cases hi : robot.invincible = true
  · by_cases ht : robot.invincible_ticks - 1 ≤ 0
    · simp [hi, ht]
      have := h.2
      by_contra hne
      have h0 : robot.invincible_ticks = 0 ∨ robot.invincible_ticks = 1 := by omega
      rcases h0 with h0 | h0
      · rw [h.2 h0] at hi
        exact absurd hi (by simp)
      · omega
    · simp [hi, ht]
      omega
  · simp [hi]
    exact h.1

/-- `check_collision` keeps the invariant of the invincibility counter. -/
theorem check_collision_inv (player : Player) (robot : Robot) (mines : List Position)
    (obstacle : CrossObstacle) (running : Bool) (h : invincible_ok robot) :
    invincible_ok (check_collision player robot mines obstacle running).robot := by
  unfold check_collision
  simp only
  split
  · split
    · exact h
    · apply invincible_countdown_inv
      simp [invincible_ok, reset_robot_body_from_lives, INVINCIBLE_TICKS]
  · exact invincible_countdown_inv robot h

/-- The block "Saving people" keeps the invincibility fields. -/
theorem rescue_step_invincible (draws : List Nat) (g g' : Game) (rest : List Nat)
    (h : rescue_step draws g = some (g', rest)) :
    g'.robot.invincible = g.robot.invincible ∧
    g'.robot.invincible_ticks = g.robot.invincible_ticks := by
  unfold rescue_step at h
  split at h
  · simp only at h
    split at h
    · simp at h
    · rename_i player robot mines draws' hlev
      split at h
      · simp at h
      · rename_i person draws'' hsp
        simp only [Option.some.injEq, Prod.mk.injEq] at h
        rw [← h.1]
        simp only
        split at hlev
        · split at hlev
          · simp at hlev
          · split at hlev
            · simp only [Option.some.injEq, Prod.mk.injEq] at hlev
              rw [← hlev.2.1]
              simp [reset_robot_body_from_lives]
            · simp only [Option.some.injEq, Prod.mk.injEq] at hlev
              rw [← hlev.2.1]
              simp
        · simp only [Option.some.injEq, Prod.mk.injEq] at hlev
          rw [← hlev.2.1]
          simp
  · simp only [Option.some.injEq, Prod.mk.injEq] at h
    rw [← h.1]
    simp

/-- The invariant of the invincibility counter reads only the two invincibility fields. -/
theorem invincible_ok_congr (r r' : Robot) (h1 : r'.invincible = r.invincible)
    (h2 : r'.invincible_ticks = r.invincible_ticks) (h : invincible_ok r) :
    invincible_ok r' := by
  unfold invincible_ok at *
  rw [h1, h2]
  exact h

/-- `move_robot` keeps the invincibility fields. -/
theorem move_robot_invincible (robot : Robot) :
    (move_robot robot).invincible = robot.invincible ∧
    (move_robot robot).invincible_ticks = robot.invincible_ticks := ⟨rfl, rfl⟩

/-- The key handling of a pass keeps the invariant of the invincibility counter. -/
theorem tick_input_inv (ch : Int) (g : Game) (hok : invincible_ok g.robot) :
    invincible_ok (tick_input ch g).robot := by
  unfold tick_input
  split
  · split
    · exact hok
    · exact hok
  · exact invincible_ok_congr g.robot _ (handle_input_invincible _ _ _).1
      (handle_input_invincible _ _ _).2 hok

/-- The choice of the heading keeps the invariant of the invincibility counter. -/
theorem tick_direction_inv (draws rest : List Nat) (g : Game) (r : Robot)
    (hok : invincible_ok g.robot) (h : tick_direction draws g = some (r, rest)) :
    invincible_ok r := by
  unfold tick_direction at h
  split at h
  · have := move_robot_ai_frame _ _ _ _ _ _ _ h
    rw [this]
    exact hok
  · simp only [Option.some.injEq, Prod.mk.injEq] at h
    rw [← h.1]
    exact hok

/-- The collision and rescue part of a pass keeps the invariant of the counter. -/
theorem tick_settle_inv (quit_on_pause : Bool) (draws rest : List Nat) (g g' : Game)
    (robot : Robot) (hok : invincible_ok robot)
    (h : tick_settle quit_on_pause draws g robot = some (g', rest)) :
    invincible_ok g'.robot := by
  have hc := check_collision_inv g.player robot g.mines g.obstacle g.running hok
  unfold tick_settle at h
  simp only at h
  split at h
  · simp only [Option.some.injEq, Prod.mk.injEq] at h
    rw [← h.1]
    exact hc
  · split at h
    · split at h
      · simp only [Option.some.injEq, Prod.mk.injEq] at h
        rw [← h.1]
        exact hc
      · simp only [Option.some.injEq, Prod.mk.injEq] at h
        rw [← h.1]
        exact hc
    · have := rescue_step_invincible _ _ _ _ h
      exact invincible_ok_congr _ _ this.1 this.2 hc

/-- A pass of the game loop keeps the invariant of the invincibility counter. -/
theorem game_tick_inv (ch : Int) (quit_on_pause : Bool) (draws rest : List Nat) (g g' : Game)
    (hok : invincible_ok g.robot)
    (h : game_tick ch quit_on_pause draws g = some (g', rest)) :
    invincible_ok g'.robot := by
  have h1 := tick_input_inv ch g hok
  unfold game_tick at h
  simp only at h
  split at h
  · simp only [Option.some.injEq, Prod.mk.injEq] at h
    rw [← h.1]
    exact h1
  · split at h
    · simp at h
    · rename_i robot draws' hm
      have hr := tick_direction_inv _ _ _ _ h1 hm
      exact tick_settle_inv _ _ _ _ _ (move_robot robot)
        (invincible_ok_congr robot _ rfl rfl hr) h

/-- The game loop is entered with the robot not invincible and the counter at zero. -/
theorem initial_game_inv (body : Nat → Position) (draws rest : List Nat) (g : Game)
    (h : initial_game body draws = some (g, rest)) : invincible_ok g.robot := by
  unfold initial_game at h
  simp only at h
  split at h
  · simp at h
  · split at h
    · simp at h
    · simp only [Option.some.injEq, Prod.mk.injEq] at h
      rw [← h.1]
      simp [invincible_ok, reset_robot_body_from_lives, init_robot]

/-- The invariant of the invincibility counter holds in every state of the game loop. -/
theorem reachable_invincible_ok (g : Game) (h : Reachable g) : invincible_ok g.robot := by
  induction h with
  | init body draws rest g h => exact initial_game_inv body draws rest g h
  | tick ch q draws rest g g' _ _ _ ht ih => exact game_tick_inv ch q draws rest g g' ih ht

/-- C7. In every state of the game loop `invincible_ticks` is non-negative and is zero only
when the robot is not invincible.  Every call of `check_collision` on an invincible robot
that carries the invincibility fields of such a state (the steps of a pass that precede
the call do not write them) lowers `invincible_ticks` by exactly 1, and it returns the
robot not invincible exactly when the counter it returns is 0. -/
theorem invincibility_counter (g : Game) (h : Reachable g) :
    (0 ≤ g.robot.invincible_ticks ∧
      (g.robot.invincible_ticks = 0 → g.robot.invincible = false)) ∧
    ∀ (player : Player) (robot : Robot) (mines : List Position) (obstacle : CrossObstacle)
      (running : Bool),
      robot.invincible = g.robot.invincible →
      robot.invincible_ticks = g.robot.invincible_ticks →
      robot.invincible = true →
      (check_collision player robot mines obstacle running).robot.invincible_ticks =
        robot.invincible_ticks - 1 ∧
      ((check_collision player robot mines obstacle running).robot.invincible = false ↔
        (check_collision player robot mines obstacle running).robot.invincible_ticks = 0) := by
  have hok := reachable_invincible_ok g h
  refine ⟨hok, ?_⟩
  intro player robot mines obstacle running h1 h2 hinv
  have hr : invincible_ok robot := invincible_ok_congr g.robot robot h1 h2 hok
  have hpos : 1 ≤ robot.invincible_ticks := by
    rcases hr with ⟨h0, hz⟩
    by_contra hlt
    have : robot.invincible_ticks = 0 := by omega
    rw [hz this] at hinv
    exact absurd hinv (by simp)
  by_cases ht : robot.invincible_ticks - 1 ≤ 0
  · simp [check_collision, hinv, invincible_countdown, ht]
    omega
  · simp [check_collision, hinv, invincible_countdown, ht]
    omega

/-- With no mines the robot spawns on the anchor `(10, 10)`. -/
theorem spawn_no_mines : find_safe_spawn_position [] init_obstacle = ⟨10, 10⟩ := by decide!

/-- The sample start state is the state on entry of the loop for the draws `start_draws`. -/
theorem start_game_reachable : Reachable start_game := by
  have h1 : spawn_person (reset_robot_body_from_lives (init_robot (fun _ => ⟨0, 0⟩)) init_player)
      [] init_obstacle start_draws
      = some (⟨4, 5⟩, [8, 9, 5, 6, 7, 8, 11, 12, 13, 14]) := by decide!
  have h2 : spawn_mines [8, 9, 5, 6, 7, 8, 11, 12, 13, 14]
      (reset_robot_body_from_lives (init_robot (fun _ => ⟨0, 0⟩)) init_player)
      (some ⟨4, 5⟩) [] BASE_MINES init_obstacle
      = some ([⟨9, 10⟩, ⟨6, 7⟩, ⟨8, 9⟩, ⟨12, 13⟩, ⟨14, 15⟩], []) := by decide!
  refine Reachable.init (fun _ => ⟨0, 0⟩) start_draws [] start_game ?_
  simp only [initial_game, h1, h2]
  rfl

/-- A pass of the loop in manual mode in which a life is lost and the player chooses to
continue ends in the state left by `check_collision`. -/
theorem game_tick_life_lost (ch : Int) (draws : List Nat) (g : Game)
    (h1 : (tick_input ch g).running = true) (h2 : (tick_input ch g).robot.ai_mode = false)
    (h3 : (check_collision (tick_input ch g).player (move_robot (tick_input ch g).robot)
      (tick_input ch g).mines (tick_input ch g).obstacle (tick_input ch g).running).running
      = true)
    (h4 : 0 < (check_collision (tick_input ch g).player (move_robot (tick_input ch g).robot)
      (tick_input ch g).mines (tick_input ch g).obstacle
      (tick_input ch g).running).player.lives)
    (h5 : (check_collision (tick_input ch g).player (move_robot (tick_input ch g).robot)
      (tick_input ch g).mines (tick_input ch g).obstacle (tick_input ch g).running).life_lost
      = true) :
    game_tick ch false draws g =
      some ({ tick_input ch g with
        player := (check_collision (tick_input ch g).player
          (move_robot (tick_input ch g).robot) (tick_input ch g).mines
          (tick_input ch g).obstacle (tick_input ch g).running).player
        robot := (check_collision (tick_input ch g).player
          (move_robot (tick_input ch g).robot) (tick_input ch g).mines
          (tick_input ch g).obstacle (tick_input ch g).running).robot
        running := (check_collision (tick_input ch g).player
          (move_robot (tick_input ch g).robot) (tick_input ch g).mines
          (tick_input ch g).obstacle (tick_input ch g).running).running }, draws) := by
  unfold game_tick
  simp only
  generalize tick_input ch g = g1 at *
  have e2 : tick_direction draws g1 = some (g1.robot, draws) := by simp [tick_direction, h2]
  rw [if_neg (by simp [h1]), e2]
  simp only
  unfold tick_settle
  simp only
  rw [if_neg (by simp [h3]; omega), if_pos h5]
  simp

/-- The pass of the loop that leads from `start_game` to `hit_game`. -/
theorem hit_game_tick : game_tick (key_of 'm') false [] start_game = some (hit_game, []) :=
  game_tick_life_lost (key_of 'm') [] start_game (by decide!) (by decide!) (by decide!)
    (by decide!) (by decide!)

/-- The sample state after the loss of a life is a state of the game loop. -/
theorem hit_game_reachable : Reachable hit_game :=
  Reachable.tick (key_of 'm') false [] [] start_game hit_game start_game_reachable
    (by decide) (by decide) hit_game_tick

/-- C7 at the state reached when the robot has just lost a life: it is invincible with 9
ticks left. -/
theorem invincibility_counter_witness :
    Reachable hit_game ∧ hit_game.robot.invincible = true ∧
    hit_game.robot.invincible_ticks = 9 ∧
    ((0 ≤ hit_game.robot.invincible_ticks ∧
      (hit_game.robot.invincible_ticks = 0 → hit_game.robot.invincible = false)) ∧
    ∀ (player : Player) (robot : Robot) (mines : List Position) (obstacle : CrossObstacle)
      (running : Bool),
      robot.invincible = hit_game.robot.invincible →
      robot.invincible_ticks = hit_game.robot.invincible_ticks →
      robot.invincible = true →
      (check_collision player robot mines obstacle running).robot.invincible_ticks =
        robot.invincible_ticks - 1 ∧
      ((check_collision player robot mines obstacle running).robot.invincible = false ↔
        (check_collision player robot mines obstacle running).robot.invincible_ticks = 0)) :=
  ⟨hit_game_reachable, by decide!, by decide!,
    invincibility_counter hit_game hit_game_reachable⟩

/-! ## The breadth-first search of the planner -/

/-- A cell that is not blocked lies in the board interior. -/
theorem not_blocked_interior (x y : Int) (mines : List Position) (obstacle : CrossObstacle)
    (h : is_blocked_cell x y mines obstacle = false) : in_interior ⟨x, y⟩ := by
  unfold is_blocked_cell at h
  by_cases hw : x ≤ 0 ∨ x ≥ BOARD_COLS - 1 ∨ y ≤ 0 ∨ y ≥ BOARD_ROWS - 1
  · rw [if_pos hw] at h
    exact absurd h (by decide)
  · simp only [in_interior, BOARD_COLS, BOARD_ROWS] at *
    omega

/-- Equality of cells is equality of both coordinates. -/
theorem position_eq_iff (a b : Position) : a = b ↔ a.x = b.x ∧ a.y = b.y := by
  constructor
  · rintro rfl
    exact ⟨rfl, rfl⟩
  · rintro ⟨h1, h2⟩
    cases a
    cases b
    simp only at h1 h2
    rw [h1, h2]

/-- The neighbour in each direction of `dirs` is adjacent. -/
theorem adjacent_of_dir (cur : Position) (d : Int × Int) (hd : d ∈ bfs_dirs) :
    adjacent cur ⟨cur.x + d.1, cur.y + d.2⟩ := by
  simp only [bfs_dirs, List.mem_cons, List.mem_singleton, List.not_mem_nil, or_false] at hd
  unfold adjacent
  rcases hd with rfl | rfl | rfl | rfl <;> simp <;> omega

/-- Every neighbour is reached through one of the directions of `dirs`. -/
theorem dir_of_adjacent (a b : Position) (h : adjacent a b) :
    ∃ d ∈ bfs_dirs, b = ⟨a.x + d.1, a.y + d.2⟩ := by
  unfold adjacent at h
  rcases h with ⟨h1, h2⟩ | ⟨h1, h2⟩ | ⟨h1, h2⟩ | ⟨h1, h2⟩
  · exact ⟨(1, 0), by simp [bfs_dirs], (position_eq_iff _ _).2 ⟨h1, by simp [h2]⟩⟩
  · exact ⟨(-1, 0), by simp [bfs_dirs], (position_eq_iff _ _).2 ⟨by simp [h1]; omega, by simp [h2]⟩⟩
  · exact ⟨(0, 1), by simp [bfs_dirs], (position_eq_iff _ _).2 ⟨by simp [h1], h2⟩⟩
  · exact ⟨(0, -1), by simp [bfs_dirs], (position_eq_iff _ _).2 ⟨by simp [h1], by simp [h2]; omega⟩⟩

/-- A chain of steps extended at its start. -/
theorem free_walk_cons (mines : List Position) (obstacle : CrossObstacle) (a b : Position)
    (hs : free_step mines obstacle a b) :
    ∀ (c : Position) (n : Nat), free_walk mines obstacle b c n →
      free_walk mines obstacle a c (n + 1) := by
  intro c n h
  induction h with
  | refl => exact free_walk.tail a b 0 free_walk.refl hs
  | tail c d n _ hcd ih => exact free_walk.tail c d (n + 1) ih hcd

/-- One pass of the inner loop of the search keeps the invariant; the queue only grows at
its end, and afterwards the neighbour handled is queued unless it is blocked. -/
theorem bfs_visit_spec (mines : List Position) (obstacle : CrossObstacle) (s target : Position)
    (st : BfsState) (lvl : Position → Nat) (k L : Nat) (cur : Position) (d : Int × Int)
    (hM : BfsMid mines obstacle s target st lvl k L) (hcur : cur ∈ st.queue)
    (hl : lvl cur = L) (hd : d ∈ bfs_dirs) :
    ∃ lvl', BfsMid mines obstacle s target (bfs_visit mines obstacle cur st d) lvl' k L ∧
      (∀ c ∈ st.queue, lvl' c = lvl c) ∧
      (∃ ext, (bfs_visit mines obstacle cur st d).queue = st.queue ++ ext) ∧
      (bfs_visit mines obstacle cur st d).front = st.front ∧
      (bfs_visit mines obstacle cur st d).found = st.found ∧
      (is_blocked_cell (cur.x + d.1) (cur.y + d.2) mines obstacle = false →
        (⟨cur.x + d.1, cur.y + d.2⟩ : Position) ∈ (bfs_visit mines obstacle cur st d).queue) := by
  unfold bfs_visit
  simp only
  by_cases hgrid : cur.x + d.1 < 0 ∨ cur.x + d.1 ≥ BOARD_COLS ∨ cur.y + d.2 < 0 ∨
      cur.y + d.2 ≥ BOARD_ROWS
  · rw [if_pos hgrid]
    refine ⟨lvl, hM, fun _ _ => rfl, ⟨[], by simp⟩, rfl, rfl, ?_⟩
    intro hb
    have := not_blocked_interior _ _ _ _ hb
    simp only [in_interior, BOARD_COLS, BOARD_ROWS] at this hgrid
    omega
  rw [if_neg hgrid]
  by_cases hvis : st.visited ⟨cur.x + d.1, cur.y + d.2⟩ = true
  · rw [if_pos hvis]
    exact ⟨lvl, hM, fun _ _ => rfl, ⟨[], by simp⟩, rfl, rfl,
      fun _ => (hM.visited_iff _).1 hvis⟩
  rw [if_neg hvis]
  by_cases hblk : is_blocked_cell (cur.x + d.1) (cur.y + d.2) mines obstacle = true
  · rw [if_pos hblk]
    refine ⟨lvl, hM, fun _ _ => rfl, ⟨[], by simp⟩, rfl, rfl, ?_⟩
    intro hb
    rw [hb] at hblk
    exact absurd hblk (by decide)
  rw [if_neg hblk]
  have hfree : is_blocked_cell (cur.x + d.1) (cur.y + d.2) mines obstacle = false := by
    simpa using hblk
  generalize hn : (⟨cur.x + d.1, cur.y + d.2⟩ : Position) = n at *
  have hnq : n ∉ st.queue := fun h => hvis ((hM.visited_iff n).2 h)
  have hne : ∀ c ∈ st.queue, c ≠ n := fun c hc h => hnq (h ▸ hc)
  have hstep : free_step mines obstacle cur n := by
    refine ⟨?_, ?_⟩
    · rw [← hn]
      exact adjacent_of_dir cur d hd
    · rw [← hn]
      exact hfree
  have hint : in_interior n := by
    rw [← hn]
    exact not_blocked_interior _ _ _ _ hfree
  obtain ⟨rest, hq, hrest⟩ := hM.start
  have hsq : s ∈ st.queue := by rw [hq]; exact List.mem_cons_self _ _
  have hagree : ∀ c ∈ st.queue, Function.update lvl n (L + 1) c = lvl c := fun c hc =>
    Function.update_noteq (hne c hc) _ _
  refine ⟨Function.update lvl n (L + 1), ?_, hagree, ⟨[n], rfl⟩, rfl, rfl,
    fun _ => List.mem_append_right _ (List.mem_singleton_self n)⟩
  constructor
  · show (st.queue ++ [n]).Nodup
    rw [List.nodup_append]
    refine ⟨hM.nodup, List.nodup_singleton n, ?_⟩
    intro a ha hb
    rw [List.mem_singleton] at hb
    exact hne a ha hb
  · refine ⟨rest ++ [n], ?_, ?_⟩
    · show st.queue ++ [n] = s :: (rest ++ [n])
      rw [hq]
      rfl
    · intro c hc
      rcases List.mem_append.mp hc with hc | hc
      · exact hrest c hc
      · rw [List.mem_singleton] at hc
        rw [hc]
        exact hint
  · intro c
    show Function.update st.visited n true c = true ↔ c ∈ st.queue ++ [n]
    by_cases hc : c = n
    · subst hc
      simp
    · rw [Function.update_noteq hc, hM.visited_iff]
      simp [hc]
  · rw [hagree s hsq]
    exact hM.lvl_start
  · show Function.update st.parent n cur s = _
    rw [Function.update_noteq (hne s hsq)]
    exact hM.parent_start
  · intro c hc hcs
    show Function.update st.parent n cur c ∈ st.queue ++ [n] ∧
      free_step mines obstacle (Function.update st.parent n cur c) c ∧
      Function.update lvl n (L + 1) c = Function.update lvl n (L + 1)
        (Function.update st.parent n cur c) + 1
    rcases List.mem_append.mp hc with hc | hc
    · obtain ⟨h1, h2, h3⟩ := hM.parent_ok c hc hcs
      rw [Function.update_noteq (hne c hc), hagree c hc, hagree _ h1]
      exact ⟨List.mem_append_left _ h1, h2, h3⟩
    · rw [List.mem_singleton] at hc
      subst hc
      rw [Function.update_same, Function.update_same, hagree cur hcur, hl]
      exact ⟨List.mem_append_left _ hcur, hstep, rfl⟩
  · intro c hc
    show free_walk mines obstacle s c (Function.update lvl n (L + 1) c)
    rcases List.mem_append.mp hc with hc | hc
    · rw [hagree c hc]
      exact hM.walk c hc
    · rw [List.mem_singleton] at hc
      subst hc
      rw [Function.update_same, ← hl]
      exact free_walk.tail cur c _ (hM.walk cur hcur) hstep
  · show (st.queue ++ [n]).Pairwise _
    rw [List.pairwise_append]
    refine ⟨?_, List.pairwise_singleton _ _, ?_⟩
    · refine hM.sorted.imp_of_mem ?_
      intro a b ha hb hab
      rw [hagree a ha, hagree b hb]
      exact hab
    · intro a ha b hb
      rw [List.mem_singleton] at hb
      subst hb
      rw [hagree a ha, Function.update_same]
      exact hM.bound a ha
  · intro c hc
    show Function.update lvl n (L + 1) c < (st.queue ++ [n]).length
    rw [List.length_append, List.length_singleton]
    rcases List.mem_append.mp hc with hc | hc
    · rw [hagree c hc]
      exact Nat.lt_succ_of_lt (hM.lvl_lt c hc)
    · rw [List.mem_singleton] at hc
      subst hc
      rw [Function.update_same, ← hl]
      exact Nat.succ_lt_succ (hM.lvl_lt cur hcur)
  · intro c hc
    rcases List.mem_append.mp hc with hc | hc
    · rw [hagree c hc]
      exact hM.bound c hc
    · rw [List.mem_singleton] at hc
      subst hc
      rw [Function.update_same]
  · show k ≤ (st.queue ++ [n]).length
    rw [List.length_append]
    exact Nat.le_add_right_of_le hM.k_le
  · intro i a hi ha c hstep'
    have hi' : i < st.queue.length := lt_of_lt_of_le hi hM.k_le
    have ha' : st.queue[i]? = some a := by
      rw [← List.getElem?_append_left hi']
      exact ha
    obtain ⟨h1, h2⟩ := hM.closed i a hi ha' c hstep'
    have haq : a ∈ st.queue := List.mem_iff_getElem?.2 ⟨i, ha'⟩
    rw [hagree c h1, hagree a haq]
    exact ⟨List.mem_append_left _ h1, h2⟩
  · intro i hi ha
    have hi' : i < st.queue.length := lt_of_lt_of_le hi hM.k_le
    apply hM.not_target i hi
    rw [← List.getElem?_append_left hi']
    exact ha

/-- The inner loop of the search over a list of directions keeps the invariant; the queue
only grows at its end, and afterwards every unblocked neighbour handled is queued. -/
theorem bfs_expand_spec (mines : List Position) (obstacle : CrossObstacle) (s target : Position)
    (k L : Nat) (cur : Position) :
    ∀ (ds : List (Int × Int)), (∀ d ∈ ds, d ∈ bfs_dirs) →
    ∀ (st : BfsState) (lvl : Position → Nat),
      BfsMid mines obstacle s target st lvl k L → cur ∈ st.queue → lvl cur = L →
      ∃ lvl', BfsMid mines obstacle s target (ds.foldl (bfs_visit mines obstacle cur) st) lvl' k L ∧
        (∀ c ∈ st.queue, lvl' c = lvl c) ∧
        (∃ ext, (ds.foldl (bfs_visit mines obstacle cur) st).queue = st.queue ++ ext) ∧
        (ds.foldl (bfs_visit mines obstacle cur) st).front = st.front ∧
        (ds.foldl (bfs_visit mines obstacle cur) st).found = st.found ∧
        ∀ d ∈ ds, is_blocked_cell (cur.x + d.1) (cur.y + d.2) mines obstacle = false →
          (⟨cur.x + d.1, cur.y + d.2⟩ : Position) ∈
            (ds.foldl (bfs_visit mines obstacle cur) st).queue := by
  intro ds
  induction ds with
  | nil =>
    intro _ st lvl hM _ _
    exact ⟨lvl, hM, fun _ _ => rfl, ⟨[], by simp⟩, rfl, rfl, by simp⟩
  | cons d ds ih =>
    intro hds st lvl hM hcur hl
    obtain ⟨lvl1, hM1, hag1, ⟨ext1, hq1⟩, hf1, hfd1, hn1⟩ :=
      bfs_visit_spec mines obstacle s target st lvl k L cur d hM hcur hl
        (hds d (List.mem_cons_self _ _))
    have hcur1 : cur ∈ (bfs_visit mines obstacle cur st d).queue := by
      rw [hq1]
      exact List.mem_append_left _ hcur
    obtain ⟨lvl2, hM2, hag2, ⟨ext2, hq2⟩, hf2, hfd2, hn2⟩ :=
      ih (fun d' hd' => hds d' (List.mem_cons_of_mem _ hd'))
        (bfs_visit mines obstacle cur st d) lvl1 hM1 hcur1 ((hag1 cur hcur).trans hl)
    simp only [List.foldl_cons]
    refine ⟨lvl2, hM2, ?_, ⟨ext1 ++ ext2, ?_⟩, hf2.trans hf1, hfd2.trans hfd1, ?_⟩
    · intro c hc
      rw [hag2 c (by rw [hq1]; exact List.mem_append_left _ hc)]
      exact hag1 c hc
    · rw [hq2, hq1, List.append_assoc]
    · intro d' hd' hb
      rcases List.mem_cons.mp hd' with rfl | hd'
      · rw [hq2]
        exact List.mem_append_left _ (hn1 hb)
      · exact hn2 d' hd' hb

/-- The cells of `interior_cells` are those of the board interior. -/
theorem mem_interior_cells (c : Position) : c ∈ interior_cells ↔ in_interior c := by
  unfold interior_cells in_interior
  simp only [List.mem_flatMap, List.mem_map, mem_loopRange]
  constructor
  · rintro ⟨y, hy, x, hx, rfl⟩
    simp only
    omega
  · rintro ⟨h1, h2, h3, h4⟩
    exact ⟨c.y, ⟨h3, by omega⟩, c.x, ⟨h1, by omega⟩, rfl⟩

/-- The board interior has 864 cells. -/
theorem interior_cells_length : interior_cells.length = 864 := by decide!

/-- The queue of the search never holds more than 865 cells, so it fits its array. -/
theorem bfs_queue_bound (mines : List Position) (obstacle : CrossObstacle) (s target : Position)
    (st : BfsState) (lvl : Position → Nat) (k L : Nat)
    (hM : BfsMid mines obstacle s target st lvl k L) : st.queue.length ≤ 865 := by
  obtain ⟨rest, hq, hrest⟩ := hM.start
  have hnd : rest.Nodup := by
    have := hM.nodup
    rw [hq, List.nodup_cons] at this
    exact this.2
  have hsub : rest ⊆ interior_cells := fun c hc => (mem_interior_cells c).2 (hrest c hc)
  have hle := (hnd.subperm hsub).length_le
  rw [interior_cells_length] at hle
  rw [hq, List.length_cons]
  omega

/-- The invariant holds when the search starts. -/
theorem bfs_init_head (mines : List Position) (obstacle : CrossObstacle) (s target : Position) :
    BfsHead mines obstacle s target (bfs_init s) := by
  refine ⟨rfl, fun _ => 0, 0, ?_, fun _ _ => Nat.le_refl _⟩
  constructor
  · exact List.nodup_singleton s
  · exact ⟨[], rfl, by simp⟩
  · intro c
    show Function.update (fun _ => false) s true c = true ↔ c ∈ [s]
    by_cases hc : c = s
    · subst hc
      simp
    · rw [Function.update_noteq hc]
      simp [hc]
  · rfl
  · rfl
  · intro c hc hcs
    exact absurd (List.mem_singleton.mp hc) hcs
  · intro c hc
    rw [List.mem_singleton.mp hc]
    exact free_walk.refl
  · exact List.pairwise_singleton _ _
  · intro c _
    show 0 < 1
    exact Nat.one_pos
  · intro c _
    exact Nat.zero_le _
  · exact Nat.zero_le _
  · intro i a hi
    exact absurd hi (Nat.not_lt_zero i)
  · intro i hi
    exact absurd hi (Nat.not_lt_zero i)

/-- The `while` loop of the search, run with enough fuel from a state that satisfies the
invariant, is left through its own exits: either the queue is exhausted, or the target
has just been taken from the queue and `found` is set. -/
theorem bfs_loop_spec (mines : List Position) (obstacle : CrossObstacle) (s target : Position) :
    ∀ (fuel : Nat) (st : BfsState), BfsHead mines obstacle s target st →
      865 ≤ fuel + st.front →
      ∃ (st0 : BfsState) (lvl : Position → Nat) (L : Nat),
        BfsMid mines obstacle s target st0 lvl st0.front L ∧ st0.found = false ∧
        ((st0.front = st0.queue.length ∧ bfs_loop mines obstacle target fuel st = st0) ∨
          (st0.queue[st0.front]? = some target ∧
            bfs_loop mines obstacle target fuel st =
              { st0 with front := st0.front + 1, found := true })) := by
  intro fuel
  induction fuel with
  | zero =>
    intro st hH hfuel
    obtain ⟨hnf, lvl, L, hM, _⟩ := hH
    have hb := bfs_queue_bound mines obstacle s target st lvl _ L hM
    have hk := hM.k_le
    exact ⟨st, lvl, L, hM, hnf, Or.inl ⟨by omega, rfl⟩⟩
  | succ fuel ih =>
    intro st hH hfuel
    obtain ⟨hnf, lvl, L, hM, hL⟩ := hH
    by_cases hlt : st.front < st.queue.length
    · have hget : st.queue.getD st.front ⟨0, 0⟩ = st.queue[st.front] :=
        List.getD_eq_getElem _ _ hlt
      have hsome : st.queue[st.front]? = some st.queue[st.front] :=
        List.getElem?_eq_getElem hlt
      have hcurq : st.queue[st.front] ∈ st.queue := List.getElem_mem hlt
      generalize st.queue[st.front] = cur at hget hsome hcurq
      by_cases htgt : cur = target
      · refine ⟨st, lvl, L, hM, hnf, Or.inr ⟨by rw [hsome, htgt], ?_⟩⟩
        rw [bfs_loop]
        simp only [hlt, if_true, hget]
        rw [if_pos ((position_eq_iff _ _).1 htgt)]
      · have hM1 : BfsMid mines obstacle s target { st with front := st.front + 1 } lvl
            st.front (lvl cur) :=
          ⟨hM.nodup, hM.start, hM.visited_iff, hM.lvl_start, hM.parent_start, hM.parent_ok,
            hM.walk, hM.sorted, hM.lvl_lt,
            fun c hc => le_trans (hM.bound c hc) (Nat.succ_le_succ (hL cur hsome)),
            hM.k_le, hM.closed, hM.not_target⟩
        obtain ⟨lvl2, hM2, hag, ⟨ext, hq2⟩, hf2, hfd2, hn⟩ :=
          bfs_expand_spec mines obstacle s target st.front (lvl cur) cur bfs_dirs
            (fun _ hd => hd) { st with front := st.front + 1 } lvl hM1 hcurq rfl
        have hstep : bfs_loop mines obstacle target (fuel + 1) st =
            bfs_loop mines obstacle target fuel
              (bfs_dirs.foldl (bfs_visit mines obstacle cur) { st with front := st.front + 1 }) := by
          rw [bfs_loop]
          simp only [hlt, if_true, hget]
          rw [if_neg (fun h => htgt ((position_eq_iff _ _).2 h))]
        rw [hstep]
        generalize bfs_dirs.foldl (bfs_visit mines obstacle cur) { st with front := st.front + 1 }
          = st2 at *
        simp only at hq2 hf2 hfd2
        have hcur2 : st2.queue[st.front]? = some cur := by
          rw [hq2, List.getElem?_append_left hlt]
          exact hsome
        have hlvlcur : lvl2 cur = lvl cur := hag cur hcurq
        have hM3 : BfsMid mines obstacle s target st2 lvl2 st2.front (lvl cur) := by
          rw [hf2]
          refine ⟨hM2.nodup, hM2.start, hM2.visited_iff, hM2.lvl_start, hM2.parent_start,
            hM2.parent_ok, hM2.walk, hM2.sorted, hM2.lvl_lt, hM2.bound, ?_, ?_, ?_⟩
          · rw [hq2, List.length_append]
            omega
          · intro i a hi ha c hc
            by_cases hi' : i < st.front
            · exact hM2.closed i a hi' ha c hc
            · have hie : i = st.front := by omega
              subst hie
              rw [hcur2] at ha
              have hac : cur = a := Option.some.inj ha
              subst hac
              obtain ⟨d, hd, hcd⟩ := dir_of_adjacent cur c hc.1
              have hcq : c ∈ st2.queue := by
                rw [hcd]
                apply hn d hd
                have := hc.2
                rw [hcd] at this
                exact this
              refine ⟨hcq, ?_⟩
              rw [hlvlcur]
              exact hM2.bound c hcq
          · intro i hi ha
            by_cases hi' : i < st.front
            · exact hM2.not_target i hi' ha
            · have hie : i = st.front := by omega
              subst hie
              rw [hcur2] at ha
              exact htgt (Option.some.inj ha)
        have hH2 : BfsHead mines obstacle s target st2 := by
          refine ⟨by rw [hfd2]; exact hnf, lvl2, lvl cur, hM3, ?_⟩
          intro a ha
          rw [hf2] at ha
          obtain ⟨h1, e1⟩ := List.getElem?_eq_some.1 hcur2
          obtain ⟨h2, e2⟩ := List.getElem?_eq_some.1 ha
          have := List.pairwise_iff_getElem.1 hM2.sorted st.front (st.front + 1) h1 h2
            (Nat.lt_succ_self _)
          rw [e1, e2, hlvlcur] at this
          exact this
        exact ih st2 hH2 (by rw [hf2]; omega)
    · refine ⟨st, lvl, L, hM, hnf, Or.inl ⟨le_antisymm hM.k_le (not_lt.mp hlt), ?_⟩⟩
      rw [bfs_loop]
      simp only [hlt, if_false]

/-- When the search has exhausted its queue, every cell that a chain of free steps reaches
from the head is in the queue. -/
theorem bfs_exhausted_complete (mines : List Position) (obstacle : CrossObstacle)
    (s target : Position) (st : BfsState) (lvl : Position → Nat) (L : Nat)
    (hM : BfsMid mines obstacle s target st lvl st.front L)
    (hex : st.front = st.queue.length) :
    ∀ (c : Position) (n : Nat), free_walk mines obstacle s c n → c ∈ st.queue := by
  intro c n h
  induction h with
  | refl =>
    obtain ⟨rest, hq, _⟩ := hM.start
    rw [hq]
    exact List.mem_cons_self _ _
  | tail b c n _ hbc ih =>
    obtain ⟨i, hi⟩ := List.mem_iff_getElem?.1 ih
    have hlt : i < st.front := by
      rw [hex]
      exact (List.getElem?_eq_some.1 hi).1
    exact (hM.closed i b hlt hi c hbc).1

/-- When the search has exhausted its queue, the target is not reachable from the head. -/
theorem bfs_exhausted_unreachable (mines : List Position) (obstacle : CrossObstacle)
    (s target : Position) (st : BfsState) (lvl : Position → Nat) (L : Nat)
    (hM : BfsMid mines obstacle s target st lvl st.front L)
    (hex : st.front = st.queue.length) :
    ¬ ∃ n, free_walk mines obstacle s target n := by
  rintro ⟨n, h⟩
  have hmem := bfs_exhausted_complete mines obstacle s target st lvl L hM hex target n h
  obtain ⟨i, hi⟩ := List.mem_iff_getElem?.1 hmem
  have hlt : i < st.front := by
    rw [hex]
    exact (List.getElem?_eq_some.1 hi).1
  exact hM.not_target i hlt hi

/-- When the target is taken from the queue, its depth in the search tree is its
shortest-path distance from the head. -/
theorem bfs_found_dist (mines : List Position) (obstacle : CrossObstacle)
    (s target : Position) (st : BfsState) (lvl : Position → Nat) (L : Nat)
    (hM : BfsMid mines obstacle s target st lvl st.front L)
    (ht : st.queue[st.front]? = some target) :
    is_dist mines obstacle s target (lvl target) := by
  have htq : target ∈ st.queue := List.mem_iff_getElem?.2 ⟨_, ht⟩
  refine ⟨hM.walk target htq, ?_⟩
  have key : ∀ (c : Position) (m : Nat), free_walk mines obstacle s c m → m ≤ lvl target →
      c ∈ st.queue ∧ lvl c ≤ m := by
    intro c m h
    induction h with
    | refl =>
      intro _
      obtain ⟨rest, hq, _⟩ := hM.start
      refine ⟨by rw [hq]; exact List.mem_cons_self _ _, ?_⟩
      rw [hM.lvl_start]
    | tail b c n _ hbc ih =>
      intro hle
      obtain ⟨hbq, hbl⟩ := ih (by omega)
      obtain ⟨i, hi⟩ := List.mem_iff_getElem?.1 hbq
      have hlt : i < st.front := by
        by_contra hge
        obtain ⟨h1, e1⟩ := List.getElem?_eq_some.1 hi
        obtain ⟨h2, e2⟩ := List.getElem?_eq_some.1 ht
        rcases Nat.eq_or_lt_of_le (not_lt.mp hge) with heq | hlt'
        · subst heq
          have hbt : b = target := by rw [← e1, ← e2]
          rw [hbt] at hbl
          omega
        · have := List.pairwise_iff_getElem.1 hM.sorted st.front i h2 h1 hlt'
          rw [e1, e2] at this
          omega
      obtain ⟨hcq, hcl⟩ := hM.closed i b hlt hi c hbc
      exact ⟨hcq, by omega⟩
  intro m hw
  by_cases hle : m ≤ lvl target
  · exact (key target m hw hle).2
  · omega

/-- The walk along the parent pointers, started at a queued cell other than the head and
with enough fuel, ends at the child of the head on the tree path to the target. -/
theorem bfs_walk_back_spec (mines : List Position) (obstacle : CrossObstacle)
    (s target : Position) (st : BfsState) (lvl : Position → Nat) (k L : Nat)
    (hM : BfsMid mines obstacle s target st lvl k L) :
    ∀ (fuel : Nat) (c : Position) (j : Nat), c ∈ st.queue → c ≠ s → lvl c ≤ fuel →
      free_walk mines obstacle c target j →
      (bfs_walk_back st.parent s fuel c (st.parent c)) ∈ st.queue ∧
      free_step mines obstacle s (bfs_walk_back st.parent s fuel c (st.parent c)) ∧
      free_walk mines obstacle (bfs_walk_back st.parent s fuel c (st.parent c)) target
        (j + lvl c - 1) := by
  intro fuel
  induction fuel with
  | zero =>
    intro c j hc hcs hl _
    have := (hM.parent_ok c hc hcs).2.2
    omega
  | succ fuel ih =>
    intro c j hc hcs hl hw
    obtain ⟨hpq, hps, hpl⟩ := hM.parent_ok c hc hcs
    rw [bfs_walk_back]
    by_cases hp : st.parent c = s
    · rw [if_pos ((position_eq_iff _ _).1 hp)]
      rw [hp] at hps hpl
      rw [hM.lvl_start] at hpl
      refine ⟨hc, hps, ?_⟩
      rw [hpl]
      exact hw
    · rw [if_neg (fun h => hp ((position_eq_iff _ _).2 h))]
      simp only
      obtain ⟨hpq2, hps2, hpl2⟩ := hM.parent_ok (st.parent c) hpq hp
      have hint : in_interior (st.parent c) := by
        obtain ⟨rest, hq, hrest⟩ := hM.start
        rw [hq] at hpq
        rcases List.mem_cons.mp hpq with h | h
        · exact absurd h hp
        · exact hrest _ h
      have hnot : ¬ ((st.parent (st.parent c)).x = -1 ∧ (st.parent (st.parent c)).y = -1) := by
        rintro ⟨h1, h2⟩
        have hadj := hps2.1
        unfold adjacent at hadj
        simp only [in_interior, BOARD_COLS, BOARD_ROWS] at hint
        omega
      rw [if_neg hnot]
      have := ih (st.parent c) (j + 1) hpq hp (by omega)
        (free_walk_cons mines obstacle (st.parent c) c hps target j hw)
      have e : j + 1 + lvl (st.parent c) - 1 = j + lvl c - 1 := by omega
      rw [e] at this
      exact this

/-- The final `if` chain of `bfs_next_direction` names the direction of a neighbour. -/
theorem bfs_direction_of_adjacent (s c : Position) (h : adjacent s c) :
    ∃ d : Char,
      (if c.x - s.x = 1 ∧ c.y - s.y = 0 then some 'E'
        else if c.x - s.x = -1 ∧ c.y - s.y = 0 then some 'W'
        else if c.x - s.x = 0 ∧ c.y - s.y = 1 then some 'S'
        else if c.x - s.x = 0 ∧ c.y - s.y = -1 then some 'N'
        else none) = some d ∧ step_to s d = c := by
  unfold adjacent at h
  rcases h with ⟨h1, h2⟩ | ⟨h1, h2⟩ | ⟨h1, h2⟩ | ⟨h1, h2⟩
  · refine ⟨'E', ?_, ?_⟩
    · rw [if_pos ⟨by omega, by omega⟩]
    · exact (position_eq_iff _ _).2 ⟨by simp [step_to, direction_to_delta, h1],
        by simp [step_to, direction_to_delta, h2]⟩
  · refine ⟨'W', ?_, ?_⟩
    · rw [if_neg (by omega), if_pos ⟨by omega, by omega⟩]
    · exact (position_eq_iff _ _).2 ⟨by simp [step_to, direction_to_delta, h1]; omega,
        by simp [step_to, direction_to_delta, h2]⟩
  · refine ⟨'S', ?_, ?_⟩
    · rw [if_neg (by omega), if_neg (by omega), if_pos ⟨by omega, by omega⟩]
    · exact (position_eq_iff _ _).2 ⟨by simp [step_to, direction_to_delta, h1],
        by simp [step_to, direction_to_delta, h2]⟩
  · refine ⟨'N', ?_, ?_⟩
    · rw [if_neg (by omega), if_neg (by omega), if_neg (by omega), if_pos ⟨by omega, by omega⟩]
    · exact (position_eq_iff _ _).2 ⟨by simp [step_to, direction_to_delta, h1],
        by simp [step_to, direction_to_delta, h2]; omega⟩

/-- The outcome of `bfs_next_direction`.  The search loop is left through its own exits
and its queue fits the array.  The function returns false when the target is the head's
own cell or cannot be reached by a chain of free steps; otherwise it returns a direction
whose neighbour cell is unblocked and is one step closer to the target than the head. -/
theorem bfs_outcome (robot : Robot) (person : Position) (mines : List Position)
    (obstacle : CrossObstacle) :
    ((bfs_search robot.pos person mines obstacle).found = true ∨
      (bfs_search robot.pos person mines obstacle).front =
        (bfs_search robot.pos person mines obstacle).queue.length) ∧
    (bfs_search robot.pos person mines obstacle).queue.length ≤ bfs_fuel ∧
    ((bfs_next_direction robot person mines obstacle = none ∧
        (person = robot.pos ∨ ¬ ∃ n, free_walk mines obstacle robot.pos person n)) ∨
      (∃ (d : Char) (n : Nat), bfs_next_direction robot person mines obstacle = some d ∧
        person ≠ robot.pos ∧
        free_step mines obstacle robot.pos (step_to robot.pos d) ∧
        is_dist mines obstacle robot.pos person (n + 1) ∧
        is_dist mines obstacle (step_to robot.pos d) person n)) := by
  have hfuel : bfs_fuel = 1000 := by decide
  obtain ⟨st0, lvl, L, hM, hnf, hcase⟩ :=
    bfs_loop_spec mines obstacle robot.pos person bfs_fuel (bfs_init robot.pos)
      (bfs_init_head mines obstacle robot.pos person)
      (by rw [hfuel]; exact Nat.le_add_right_of_le (by decide))
  have hb := bfs_queue_bound mines obstacle robot.pos person st0 lvl _ L hM
  have hsearch : bfs_search robot.pos person mines obstacle =
      bfs_loop mines obstacle person bfs_fuel (bfs_init robot.pos) := rfl
  rcases hcase with ⟨hex, hres⟩ | ⟨ht, hres⟩
  · rw [hsearch, hres]
    refine ⟨Or.inr hex, by omega, Or.inl ⟨?_, Or.inr ?_⟩⟩
    · unfold bfs_next_direction
      simp only [hsearch, hres, hnf]
      rfl
    · exact bfs_exhausted_unreachable mines obstacle robot.pos person st0 lvl L hM hex
  · rw [hsearch, hres]
    refine ⟨Or.inl rfl, by simp only; omega, ?_⟩
    have htq : person ∈ st0.queue := List.mem_iff_getElem?.2 ⟨_, ht⟩
    by_cases hts : person = robot.pos
    · refine Or.inl ⟨?_, Or.inl hts⟩
      unfold bfs_next_direction
      simp only [hsearch, hres]
      have hp : st0.parent person = ⟨-1, -1⟩ := by
        rw [hts]
        exact hM.parent_start
      rw [hp]
      rfl
    · right
      obtain ⟨hpq, hps, hpl⟩ := hM.parent_ok person htq hts
      have hint : in_interior person := by
        obtain ⟨rest, hq, hrest⟩ := hM.start
        rw [hq] at htq
        rcases List.mem_cons.mp htq with h | h
        · exact absurd h hts
        · exact hrest _ h
      have hnot : ¬ ((st0.parent person).x = -1 ∧ (st0.parent person).y = -1) := by
        rintro ⟨h1, h2⟩
        have hadj := hps.1
        unfold adjacent at hadj
        simp only [in_interior, BOARD_COLS, BOARD_ROWS] at hint
        omega
      have hl : lvl person ≤ bfs_fuel := by
        have := hM.lvl_lt person htq
        omega
      obtain ⟨hcq, hcs, hcw⟩ :=
        bfs_walk_back_spec mines obstacle robot.pos person st0 lvl _ L hM bfs_fuel person 0
          htq hts hl free_walk.refl
      obtain ⟨d, hd, hstep⟩ := bfs_direction_of_adjacent robot.pos _ hcs.1
      have hdist := bfs_found_dist mines obstacle robot.pos person st0 lvl L hM ht
      refine ⟨d, lvl person - 1, ?_, hts, by rw [hstep]; exact hcs, ?_, ?_⟩
      · unfold bfs_next_direction
        simp only [hsearch, hres]
        rw [if_neg (by simp), if_neg hnot]
        exact hd
      · have e : lvl person - 1 + 1 = lvl person := by omega
        rw [e]
        exact hdist
      · rw [hstep]
        have e : 0 + lvl person - 1 = lvl person - 1 := by omega
        rw [e] at hcw
        refine ⟨hcw, ?_⟩
        intro m hm
        have := hdist.2 (m + 1) (free_walk_cons mines obstacle robot.pos _ hcs person m hm)
        omega

/-- C1. For a head and a target inside the grid `[0, 50) x [0, 20)` with the target not on
the head, every mine list and every cross obstacle, `bfs_next_direction` returns true (a
direction) exactly when the target is reachable from the head by a chain of 4-connected
steps whose destination cells are all unblocked (the head's own cell is not tested), and
false otherwise.  Its search loop is left through its own exits, not for lack of fuel. -/
theorem bfs_finds_iff_reachable (robot : Robot) (person : Position) (mines : List Position)
    (obstacle : CrossObstacle)
    (_hhead : 0 ≤ robot.pos.x ∧ robot.pos.x < BOARD_COLS ∧
      0 ≤ robot.pos.y ∧ robot.pos.y < BOARD_ROWS)
    (_htarget : 0 ≤ person.x ∧ person.x < BOARD_COLS ∧ 0 ≤ person.y ∧ person.y < BOARD_ROWS)
    (hne : person ≠ robot.pos) :
    ((bfs_next_direction robot person mines obstacle).isSome = true ↔
      ∃ n, free_walk mines obstacle robot.pos person n) ∧
    ((bfs_next_direction robot person mines obstacle = none) ↔
      ¬ ∃ n, free_walk mines obstacle robot.pos person n) ∧
    ((bfs_search robot.pos person mines obstacle).found = true ∨
      (bfs_search robot.pos person mines obstacle).front =
        (bfs_search robot.pos person mines obstacle).queue.length) := by
  obtain ⟨hterm, _, hout⟩ := bfs_outcome robot person mines obstacle
  rcases hout with ⟨hnone, hun⟩ | ⟨d, n, hsome, _, _, hdist, _⟩
  · have hun' : ¬ ∃ n, free_walk mines obstacle robot.pos person n := by
      rcases hun with h | h
      · exact absurd h hne
      · exact h
    refine ⟨?_, ?_, hterm⟩
    · rw [hnone]
      constructor
      · intro h
        exact absurd h (by simp)
      · intro h
        exact absurd h hun'
    · exact ⟨fun _ => hun', fun _ => hnone⟩
  · have hre : ∃ n, free_walk mines obstacle robot.pos person n := ⟨n + 1, hdist.1⟩
    refine ⟨?_, ?_, hterm⟩
    · rw [hsome]
      exact ⟨fun _ => hre, fun _ => rfl⟩
    · rw [hsome]
      constructor
      · intro h
        exact absurd h (by simp)
      · intro h
        exact absurd hre h

/-- C1 at a head on `(10, 10)` and a target two cells north of it, on the empty board. -/
theorem bfs_finds_iff_reachable_witness :
    bfs_next_direction robot_at_anchor ⟨10, 8⟩ [] init_obstacle = some 'N' ∧
    (((bfs_next_direction robot_at_anchor ⟨10, 8⟩ [] init_obstacle).isSome = true ↔
      ∃ n, free_walk [] init_obstacle robot_at_anchor.pos ⟨10, 8⟩ n) ∧
    ((bfs_next_direction robot_at_anchor ⟨10, 8⟩ [] init_obstacle = none) ↔
      ¬ ∃ n, free_walk [] init_obstacle robot_at_anchor.pos ⟨10, 8⟩ n) ∧
    ((bfs_search robot_at_anchor.pos ⟨10, 8⟩ [] init_obstacle).found = true ∨
      (bfs_search robot_at_anchor.pos ⟨10, 8⟩ [] init_obstacle).front =
        (bfs_search robot_at_anchor.pos ⟨10, 8⟩ [] init_obstacle).queue.length)) :=
  ⟨by decide!, bfs_finds_iff_reachable robot_at_anchor ⟨10, 8⟩ [] init_obstacle (by decide)
    (by decide) (by decide)⟩

/-- C2. Whenever `bfs_next_direction` returns true with direction `d`, the cell next to the
head in direction `d` is unblocked, and for some `n` the shortest-path distance (in steps
through unblocked cells) from the head to the target is `n + 1` and that from this cell
to the target is `n`: `d` is the first step of a shortest path. -/
theorem bfs_first_step_shortest (robot : Robot) (person : Position) (mines : List Position)
    (obstacle : CrossObstacle) (d : Char)
    (h : bfs_next_direction robot person mines obstacle = some d) :
    is_blocked_cell (step_to robot.pos d).x (step_to robot.pos d).y mines obstacle = false ∧
    ∃ n, is_dist mines obstacle robot.pos person (n + 1) ∧
      is_dist mines obstacle (step_to robot.pos d) person n := by
  obtain ⟨_, _, hout⟩ := bfs_outcome robot person mines obstacle
  rcases hout with ⟨hnone, _⟩ | ⟨d', n, hsome, _, hstep, hd1, hd2⟩
  · rw [hnone] at h
    exact absurd h (by simp)
  · rw [hsome] at h
    have hdd : d' = d := Option.some.inj h
    subst hdd
    exact ⟨hstep.2, n, hd1, hd2⟩

/-- C2 at a head on `(10, 10)` with a mine to its west and the target at `(9, 9)`: the
search returns north. -/
theorem bfs_first_step_shortest_witness :
    bfs_next_direction robot_at_anchor ⟨9, 9⟩ [⟨9, 10⟩] init_obstacle = some 'N' ∧
    (is_blocked_cell (step_to robot_at_anchor.pos 'N').x (step_to robot_at_anchor.pos 'N').y
      [⟨9, 10⟩] init_obstacle = false ∧
    ∃ n, is_dist [⟨9, 10⟩] init_obstacle robot_at_anchor.pos ⟨9, 9⟩ (n + 1) ∧
      is_dist [⟨9, 10⟩] init_obstacle (step_to robot_at_anchor.pos 'N') ⟨9, 9⟩ n) :=
  ⟨by decide!, bfs_first_step_shortest robot_at_anchor ⟨9, 9⟩ [⟨9, 10⟩] init_obstacle 'N'
    (by decide!)⟩

/-! ## The order of the search queue -/

/-- The order of a list is kept when the list grows at its end. -/
theorem stands_before_append (q ext : List Position) (a b : Position)
    (h : stands_before q a b) : stands_before (q ++ ext) a b := by
  obtain ⟨i, j, hij, hi, hj⟩ := h
  have hi' := (List.getElem?_eq_some.1 hi).1
  have hj' := (List.getElem?_eq_some.1 hj).1
  exact ⟨i, j, hij, by rw [List.getElem?_append_left hi']; exact hi,
    by rw [List.getElem?_append_left hj']; exact hj⟩

/-- Every entry stands at or before the last one. -/
theorem stands_before_last (q : List Position) (a n : Position) (h : a ∈ q ++ [n]) :
    stands_before (q ++ [n]) a n := by
  obtain ⟨i, hi⟩ := List.mem_iff_getElem?.1 h
  have hi' := (List.getElem?_eq_some.1 hi).1
  rw [List.length_append, List.length_singleton] at hi'
  exact ⟨i, q.length, by omega, hi, by simp⟩

/-- Two entries of a list with one more entry: either both are old, or the second is the
new one. -/
theorem stands_before_snoc (q : List Position) (a b n : Position)
    (h : stands_before (q ++ [n]) a b) : stands_before q a b ∨ b = n := by
  obtain ⟨i, j, hij, hi, hj⟩ := h
  have hj' := (List.getElem?_eq_some.1 hj).1
  rw [List.length_append, List.length_singleton] at hj'
  by_cases hlt : j < q.length
  · left
    refine ⟨i, j, hij, ?_, ?_⟩
    · rw [← List.getElem?_append_left (by omega : i < q.length)]
      exact hi
    · rw [← List.getElem?_append_left hlt]
      exact hj
  · right
    have hje : j = q.length := by omega
    rw [hje] at hj
    simpa using hj.symm

/-- An entry stands at or before itself. -/
theorem stands_before_refl (q : List Position) (a : Position) (h : a ∈ q) :
    stands_before q a a := by
  obtain ⟨i, hi⟩ := List.mem_iff_getElem?.1 h
  exact ⟨i, i, le_refl _, hi, hi⟩

/-- In a list without repetitions an entry has one index. -/
theorem nodup_index_unique (q : List Position) (hnd : q.Nodup) (i j : Nat) (a : Position)
    (hi : q[i]? = some a) (hj : q[j]? = some a) : i = j := by
  obtain ⟨h1, e1⟩ := List.getElem?_eq_some.1 hi
  obtain ⟨h2, e2⟩ := List.getElem?_eq_some.1 hj
  exact (List.Nodup.getElem_inj_iff hnd).1 (e1.trans e2.symm)

/-- In a list without repetitions the order of two entries is the order of their indices. -/
theorem stands_before_index (q : List Position) (hnd : q.Nodup) (i j : Nat) (a b : Position)
    (hi : q[i]? = some a) (hj : q[j]? = some b) (h : stands_before q a b) : i ≤ j := by
  obtain ⟨i', j', hij, hi', hj'⟩ := h
  rw [nodup_index_unique q hnd i i' a hi hi', nodup_index_unique q hnd j j' b hj hj']
  exact hij

/-- The order of a list without repetitions is transitive. -/
theorem stands_before_trans (q : List Position) (hnd : q.Nodup) (a b c : Position)
    (h1 : stands_before q a b) (h2 : stands_before q b c) : stands_before q a c := by
  obtain ⟨i, j, hij, hi, hj⟩ := h1
  obtain ⟨j', k, hjk, hj', hk⟩ := h2
  have := nodup_index_unique q hnd j j' b hj hj'
  exact ⟨i, k, by omega, hi, hk⟩

/-- The members of a list are its two sides of the order. -/
theorem stands_before_mem (q : List Position) (a b : Position) (h : stands_before q a b) :
    a ∈ q ∧ b ∈ q := by
  obtain ⟨i, j, _, hi, hj⟩ := h
  exact ⟨List.mem_iff_getElem?.2 ⟨i, hi⟩, List.mem_iff_getElem?.2 ⟨j, hj⟩⟩

/-- One pass of the inner loop of the search keeps the order invariant; a child of the
head in the queue afterwards was one before, or is the neighbour just handled. -/
theorem bfs_visit_ord (mines : List Position) (obstacle : CrossObstacle) (s target : Position)
    (st : BfsState) (lvl : Position → Nat) (k L : Nat) (cur : Position) (d : Int × Int)
    (hM : BfsMid mines obstacle s target st lvl k L) (hcur : st.queue[k]? = some cur)
    (hfront : st.front = k + 1) (hO : BfsOrd mines obstacle s st)
    (hch : cur = s → ∀ c ∈ st.queue, c ≠ s → st.parent c = s →
      dir_rank s c < dir_rank s ⟨cur.x + d.1, cur.y + d.2⟩) :
    BfsOrd mines obstacle s (bfs_visit mines obstacle cur st d) ∧
    (∀ c ∈ (bfs_visit mines obstacle cur st d).queue, c ≠ s →
      (bfs_visit mines obstacle cur st d).parent c = s →
      (c ∈ st.queue ∧ st.parent c = s) ∨ c = ⟨cur.x + d.1, cur.y + d.2⟩) := by
  unfold bfs_visit
  simp only
  by_cases hgrid : cur.x + d.1 < 0 ∨ cur.x + d.1 ≥ BOARD_COLS ∨ cur.y + d.2 < 0 ∨
      cur.y + d.2 ≥ BOARD_ROWS
  · rw [if_pos hgrid]
    exact ⟨hO, fun c hc _ hp => Or.inl ⟨hc, hp⟩⟩
  rw [if_neg hgrid]
  by_cases hvis : st.visited ⟨cur.x + d.1, cur.y + d.2⟩ = true
  · rw [if_pos hvis]
    exact ⟨hO, fun c hc _ hp => Or.inl ⟨hc, hp⟩⟩
  rw [if_neg hvis]
  by_cases hblk : is_blocked_cell (cur.x + d.1) (cur.y + d.2) mines obstacle = true
  · rw [if_pos hblk]
    exact ⟨hO, fun c hc _ hp => Or.inl ⟨hc, hp⟩⟩
  rw [if_neg hblk]
  generalize hn : (⟨cur.x + d.1, cur.y + d.2⟩ : Position) = n at *
  have hnq : n ∉ st.queue := fun h => hvis ((hM.visited_iff n).2 h)
  have hne : ∀ c ∈ st.queue, c ≠ n := fun c hc h => hnq (h ▸ hc)
  have hcurq : cur ∈ st.queue := List.mem_iff_getElem?.2 ⟨k, hcur⟩
  have hklt : k < st.queue.length := (List.getElem?_eq_some.1 hcur).1
  have hpar : ∀ c ∈ st.queue, Function.update st.parent n cur c = st.parent c :=
    fun c hc => Function.update_noteq (hne c hc) _ _
  have hparq : ∀ c ∈ st.queue, c ≠ s → st.parent c ∈ st.queue :=
    fun c hc hcs => (hM.parent_ok c hc hcs).1
  constructor
  · constructor
    · -- par_before
      intro c hc hcs
      show ∃ i, i < st.front ∧ (st.queue ++ [n])[i]? = some (Function.update st.parent n cur c)
      rcases List.mem_append.mp hc with hc | hc
      · obtain ⟨i, hi, hq⟩ := hO.par_before c hc hcs
        refine ⟨i, hi, ?_⟩
        rw [hpar c hc, List.getElem?_append_left (List.getElem?_eq_some.1 hq).1]
        exact hq
      · rw [List.mem_singleton] at hc
        subst hc
        refine ⟨k, by omega, ?_⟩
        rw [Function.update_same, List.getElem?_append_left hklt]
        exact hcur
    · -- par_mono
      intro c1 c2 hsb hc1
      show stands_before (st.queue ++ [n]) (Function.update st.parent n cur c1)
        (Function.update st.parent n cur c2)
      rcases stands_before_snoc st.queue c1 c2 n hsb with hold | hnew
      · obtain ⟨h1, h2⟩ := stands_before_mem st.queue c1 c2 hold
        rw [hpar c1 h1, hpar c2 h2]
        exact stands_before_append _ _ _ _ (hO.par_mono c1 c2 hold hc1)
      · subst hnew
        rw [Function.update_same]
        rcases List.mem_append.mp (stands_before_mem _ _ _ hsb).1 with h1 | h1
        · rw [hpar c1 h1]
          obtain ⟨i, hi, hq⟩ := hO.par_before c1 h1 hc1
          exact stands_before_append _ _ _ _ ⟨i, k, by omega, hq, hcur⟩
        · rw [List.mem_singleton] at h1
          subst h1
          rw [Function.update_same]
          exact stands_before_append _ _ _ _ (stands_before_refl _ _ hcurq)
    · -- par_first
      intro c hc hcs p hp hstep
      show stands_before (st.queue ++ [n]) (Function.update st.parent n cur c) p
      rcases List.mem_append.mp hc with hc1 | hc1
      · rw [hpar c hc1]
        rcases List.mem_append.mp hp with hp1 | hp1
        · exact stands_before_append _ _ _ _ (hO.par_first c hc1 hcs p hp1 hstep)
        · rw [List.mem_singleton.mp hp1]
          exact stands_before_last _ _ _ (List.mem_append_left _ (hparq c hc1 hcs))
      · have hcn : c = n := List.mem_singleton.mp hc1
        rw [hcn, Function.update_same]
        rcases List.mem_append.mp hp with hp1 | hp1
        · obtain ⟨j, hj⟩ := List.mem_iff_getElem?.1 hp1
          have hkj : k ≤ j := by
            by_contra hlt
            rw [hcn] at hstep
            exact hnq (hM.closed j p (by omega) hj n hstep).1
          exact stands_before_append _ _ _ _ ⟨k, j, hkj, hcur, hj⟩
        · rw [List.mem_singleton.mp hp1]
          exact stands_before_last _ _ _ (List.mem_append_left _ hcurq)
    · -- child_order
      intro c1 c2 hsb hc1 hp1 hp2
      have hp1' : Function.update st.parent n cur c1 = s := hp1
      have hp2' : Function.update st.parent n cur c2 = s := hp2
      rcases stands_before_snoc st.queue c1 c2 n hsb with hold | hnew
      · obtain ⟨h1, h2⟩ := stands_before_mem st.queue c1 c2 hold
        rw [hpar c1 h1] at hp1'
        rw [hpar c2 h2] at hp2'
        exact hO.child_order c1 c2 hold hc1 hp1' hp2'
      · subst hnew
        rw [Function.update_same] at hp2'
        rcases List.mem_append.mp (stands_before_mem _ _ _ hsb).1 with h1 | h1
        · rw [hpar c1 h1] at hp1'
          exact Nat.le_of_lt (hch hp2' c1 h1 hc1 hp1')
        · rw [List.mem_singleton] at h1
          rw [h1]
  · intro c hc _ hp
    have hp' : Function.update st.parent n cur c = s := hp
    rcases List.mem_append.mp hc with hc | hc
    · rw [hpar c hc] at hp'
      exact Or.inl ⟨hc, hp'⟩
    · exact Or.inr (List.mem_singleton.mp hc)

/-- The rank of the neighbour of `s` in direction `d` is the index of `d` in `dirs`. -/
theorem dir_rank_step (s : Position) (d : Int × Int) :
    dir_rank s ⟨s.x + d.1, s.y + d.2⟩ = bfs_dirs.indexOf d := by
  unfold dir_rank
  simp only [add_sub_cancel_left]

/-- The inner loop of the search over a list of directions, taken in the order of `dirs`,
keeps the order invariant. -/
theorem bfs_expand_ord (mines : List Position) (obstacle : CrossObstacle) (s target : Position)
    (k L : Nat) (cur : Position) :
    ∀ (ds : List (Int × Int)), (∀ d ∈ ds, d ∈ bfs_dirs) →
    ds.Pairwise (fun a b => bfs_dirs.indexOf a < bfs_dirs.indexOf b) →
    ∀ (st : BfsState) (lvl : Position → Nat),
      BfsMid mines obstacle s target st lvl k L → st.queue[k]? = some cur →
      st.front = k + 1 → lvl cur = L → BfsOrd mines obstacle s st →
      (cur = s → ∀ c ∈ st.queue, c ≠ s → st.parent c = s →
        ∀ d ∈ ds, dir_rank s c < bfs_dirs.indexOf d) →
      BfsOrd mines obstacle s (ds.foldl (bfs_visit mines obstacle cur) st) := by
  intro ds
  induction ds with
  | nil =>
    intro _ _ st lvl _ _ _ _ hO _
    exact hO
  | cons d ds ih =>
    intro hds hpw st lvl hM hcur hfront hl hO hch
    have hcurq : cur ∈ st.queue := List.mem_iff_getElem?.2 ⟨k, hcur⟩
    have hklt : k < st.queue.length := (List.getElem?_eq_some.1 hcur).1
    obtain ⟨lvl1, hM1, hag1, ⟨ext1, hq1⟩, hf1, _, _⟩ :=
      bfs_visit_spec mines obstacle s target st lvl k L cur d hM hcurq hl
        (hds d (List.mem_cons_self _ _))
    obtain ⟨hO1, hframe⟩ :=
      bfs_visit_ord mines obstacle s target st lvl k L cur d hM hcur hfront hO (by
        intro hs c hc hcs hp
        rw [hs, dir_rank_step]
        exact hch hs c hc hcs hp d (List.mem_cons_self _ _))
    simp only [List.foldl_cons]
    refine ih (fun d' hd' => hds d' (List.mem_cons_of_mem _ hd')) (List.Pairwise.of_cons hpw)
      (bfs_visit mines obstacle cur st d) lvl1 hM1 ?_ (hf1.trans hfront)
      ((hag1 cur hcurq).trans hl) hO1 ?_
    · rw [hq1, List.getElem?_append_left hklt]
      exact hcur
    · intro hs c hc hcs hp d' hd'
      rcases hframe c hc hcs hp with ⟨hc0, hp0⟩ | hnew
      · exact hch hs c hc0 hcs hp0 d' (List.mem_cons_of_mem _ hd')
      · rw [hnew, hs, dir_rank_step]
        exact List.rel_of_pairwise_cons hpw hd'

/-- One pass of the `while` loop of the search that does not take the target from the queue
leaves a state that satisfies the invariant of the loop head, with `front` one further. -/
theorem bfs_step_head (mines : List Position) (obstacle : CrossObstacle) (s target : Position)
    (st : BfsState) (cur : Position) (hH : BfsHead mines obstacle s target st)
    (hsome : st.queue[st.front]? = some cur) (htgt : cur ≠ target) :
    BfsHead mines obstacle s target
      (bfs_dirs.foldl (bfs_visit mines obstacle cur) { st with front := st.front + 1 }) ∧
    ∃ lvl, BfsMid mines obstacle s target { st with front := st.front + 1 } lvl st.front
      (lvl cur) := by
  obtain ⟨hnf, lvl, L, hM, hL⟩ := hH
  have hlt : st.front < st.queue.length := (List.getElem?_eq_some.1 hsome).1
  have hcurq : cur ∈ st.queue := List.mem_iff_getElem?.2 ⟨_, hsome⟩
  have hM1 : BfsMid mines obstacle s target { st with front := st.front + 1 } lvl
      st.front (lvl cur) :=
    ⟨hM.nodup, hM.start, hM.visited_iff, hM.lvl_start, hM.parent_start, hM.parent_ok,
      hM.walk, hM.sorted, hM.lvl_lt,
      fun c hc => le_trans (hM.bound c hc) (Nat.succ_le_succ (hL cur hsome)),
      hM.k_le, hM.closed, hM.not_target⟩
  refine ⟨?_, lvl, hM1⟩
  obtain ⟨lvl2, hM2, hag, ⟨ext, hq2⟩, hf2, hfd2, hn⟩ :=
    bfs_expand_spec mines obstacle s target st.front (lvl cur) cur bfs_dirs
      (fun _ hd => hd) { st with front := st.front + 1 } lvl hM1 hcurq rfl
  generalize bfs_dirs.foldl (bfs_visit mines obstacle cur) { st with front := st.front + 1 }
    = st2 at *
  simp only at hq2 hf2 hfd2
  have hcur2 : st2.queue[st.front]? = some cur := by
    rw [hq2, List.getElem?_append_left hlt]
    exact hsome
  have hlvlcur : lvl2 cur = lvl cur := hag cur hcurq
  have hM3 : BfsMid mines obstacle s target st2 lvl2 st2.front (lvl cur) := by
    rw [hf2]
    refine ⟨hM2.nodup, hM2.start, hM2.visited_iff, hM2.lvl_start, hM2.parent_start,
      hM2.parent_ok, hM2.walk, hM2.sorted, hM2.lvl_lt, hM2.bound, ?_, ?_, ?_⟩
    · rw [hq2, List.length_append]
      omega
    · intro i a hi ha c hc
      by_cases hi' : i < st.front
      · exact hM2.closed i a hi' ha c hc
      · have hie : i = st.front := by omega
        subst hie
        rw [hcur2] at ha
        have hac : cur = a := Option.some.inj ha
        subst hac
        obtain ⟨d, hd, hcd⟩ := dir_of_adjacent cur c hc.1
        have hcq : c ∈ st2.queue := by
          rw [hcd]
          apply hn d hd
          have := hc.2
          rw [hcd] at this
          exact this
        refine ⟨hcq, ?_⟩
        rw [hlvlcur]
        exact hM2.bound c hcq
    · intro i hi ha
      by_cases hi' : i < st.front
      · exact hM2.not_target i hi' ha
      · have hie : i = st.front := by omega
        subst hie
        rw [hcur2] at ha
        exact htgt (Option.some.inj ha)
  refine ⟨by rw [hfd2]; exact hnf, lvl2, lvl cur, hM3, ?_⟩
  intro a ha
  rw [hf2] at ha
  obtain ⟨h1, e1⟩ := List.getElem?_eq_some.1 hcur2
  obtain ⟨h2, e2⟩ := List.getElem?_eq_some.1 ha
  have := List.pairwise_iff_getElem.1 hM2.sorted st.front (st.front + 1) h1 h2
    (Nat.lt_succ_self _)
  rw [e1, e2, hlvlcur] at this
  exact this

/-- The array `dirs` lists its entries in the order of their indices. -/
theorem bfs_dirs_ordered :
    bfs_dirs.Pairwise (fun a b => bfs_dirs.indexOf a < bfs_dirs.indexOf b) := by decide

/-- The order invariant holds when the search starts. -/
theorem bfs_init_ord (mines : List Position) (obstacle : CrossObstacle) (s : Position) :
    BfsOrd mines obstacle s (bfs_init s) := by
  have hone : ∀ (i : Nat) (c : Position), (bfs_init s).queue[i]? = some c → c = s := by
    intro i c h
    have hc : c ∈ [s] := List.mem_iff_getElem?.2 ⟨i, h⟩
    exact List.mem_singleton.mp hc
  constructor
  · intro c hc hcs
    exact absurd (List.mem_singleton.mp hc) hcs
  · rintro c1 c2 ⟨i, j, _, hi, _⟩ hc1
    exact absurd (hone i c1 hi) hc1
  · intro c hc hcs
    exact absurd (List.mem_singleton.mp hc) hcs
  · rintro c1 c2 ⟨i, j, _, hi, _⟩ hc1
    exact absurd (hone i c1 hi) hc1

/-- The `while` loop of the search keeps the order invariant. -/
theorem bfs_loop_ord (mines : List Position) (obstacle : CrossObstacle) (s target : Position) :
    ∀ (fuel : Nat) (st : BfsState), BfsHead mines obstacle s target st →
      BfsOrd mines obstacle s st →
      BfsOrd mines obstacle s (bfs_loop mines obstacle target fuel st) := by
  intro fuel
  induction fuel with
  | zero =>
    intro st _ hO
    exact hO
  | succ fuel ih =>
    intro st hH hO
    by_cases hlt : st.front < st.queue.length
    · have hget : st.queue.getD st.front ⟨0, 0⟩ = st.queue[st.front] :=
        List.getD_eq_getElem _ _ hlt
      have hsome : st.queue[st.front]? = some st.queue[st.front] :=
        List.getElem?_eq_getElem hlt
      generalize st.queue[st.front] = cur at hget hsome
      have hO1 : BfsOrd mines obstacle s { st with front := st.front + 1 } :=
        ⟨fun c hc hcs => by
            obtain ⟨i, hi, hq⟩ := hO.par_before c hc hcs
            exact ⟨i, Nat.lt_succ_of_lt hi, hq⟩,
          hO.par_mono, hO.par_first, hO.child_order⟩
      by_cases htgt : cur = target
      · rw [bfs_loop]
        simp only [hlt, if_true, hget]
        rw [if_pos ((position_eq_iff _ _).1 htgt)]
        exact ⟨hO1.par_before, hO1.par_mono, hO1.par_first, hO1.child_order⟩
      · obtain ⟨hH2, lvl, hM1⟩ := bfs_step_head mines obstacle s target st cur hH hsome htgt
        have hO2 := bfs_expand_ord mines obstacle s target st.front (lvl cur) cur bfs_dirs
          (fun _ hd => hd) bfs_dirs_ordered { st with front := st.front + 1 } lvl hM1 hsome
          rfl rfl hO1 (by
            intro hs c hc hcs _
            obtain ⟨i, hi, _⟩ := hO.par_before c hc hcs
            obtain ⟨rest, hq, _⟩ := hM1.start
            have h0 : st.queue[0]? = some s := by
              show ({ st with front := st.front + 1 } : BfsState).queue[0]? = some s
              rw [hq]
              exact List.getElem?_cons_zero
            have hz := nodup_index_unique st.queue hM1.nodup _ _ cur hsome (hs ▸ h0)
            omega)
        rw [bfs_loop]
        simp only [hlt, if_true, hget]
        rw [if_neg (fun h => htgt ((position_eq_iff _ _).2 h))]
        exact ih _ hH2 hO2
    · rw [bfs_loop]
      simp only [hlt, if_false]
      exact hO

/-- The head is the only queued cell of depth 0. -/
theorem bfs_depth_zero (mines : List Position) (obstacle : CrossObstacle) (s target : Position)
    (st : BfsState) (lvl : Position → Nat) (k L : Nat)
    (hM : BfsMid mines obstacle s target st lvl k L) (c : Position) (hc : c ∈ st.queue)
    (h0 : lvl c = 0) : c = s := by
  by_contra hcs
  have := (hM.parent_ok c hc hcs).2.2
  omega

/-- The cell at which a branch starts is a child of the head. -/
theorem branch_of_root (parent : Position → Position) (s c r : Position)
    (h : branch_of parent s c r) : parent r = s := by
  induction h with
  | root c hp => exact hp
  | up c r _ _ ih => exact ih

/-- Among queued cells of equal depth, the branches stand in the queue in the order of the
cells: if `c1` stands at or before `c2`, the branch of `c1` stands at or before every cell
that the branch of `c2` stands at or before. -/
theorem branch_mono (mines : List Position) (obstacle : CrossObstacle) (s target : Position)
    (st : BfsState) (lvl : Position → Nat) (k L : Nat)
    (hM : BfsMid mines obstacle s target st lvl k L) (hO : BfsOrd mines obstacle s st)
    (r0 : Position) :
    ∀ (c1 r1 : Position), branch_of st.parent s c1 r1 → c1 ∈ st.queue → c1 ≠ s →
      ∀ c2 ∈ st.queue, lvl c1 = lvl c2 → stands_before st.queue c1 c2 →
      (∀ r2, branch_of st.parent s c2 r2 → stands_before st.queue r2 r0) →
      stands_before st.queue r1 r0 := by
  intro c1 r1 hb
  induction hb with
  | root c hp =>
    intro hc hcs c2 hc2 hl hsb hbound
    have hlc : lvl c = 1 := by
      have := (hM.parent_ok c hc hcs).2.2
      rw [hp, hM.lvl_start] at this
      exact this
    have hc2s : c2 ≠ s := by
      intro h
      rw [h, hM.lvl_start] at hl
      omega
    obtain ⟨hpq, _, hpl⟩ := hM.parent_ok c2 hc2 hc2s
    have hp2 : st.parent c2 = s :=
      bfs_depth_zero mines obstacle s target st lvl k L hM _ hpq (by omega)
    exact stands_before_trans st.queue hM.nodup c c2 r0 hsb
      (hbound c2 (branch_of.root c2 hp2))
  | up c r hp _ ih =>
    intro hc hcs c2 hc2 hl hsb hbound
    obtain ⟨hpq, _, hpl⟩ := hM.parent_ok c hc hcs
    have hpl1 : 1 ≤ lvl (st.parent c) := by
      by_contra h0
      exact hp (bfs_depth_zero mines obstacle s target st lvl k L hM _ hpq (by omega))
    have hc2s : c2 ≠ s := by
      intro h
      rw [h, hM.lvl_start] at hl
      omega
    obtain ⟨hpq2, _, hpl2⟩ := hM.parent_ok c2 hc2 hc2s
    have hp2 : st.parent c2 ≠ s := by
      intro h
      rw [h, hM.lvl_start] at hpl2
      omega
    exact ih hpq hp (st.parent c2) hpq2 (by omega) (hO.par_mono c c2 hsb hcs)
      (fun r2 hb2 => hbound r2 (branch_of.up c2 r2 hp2 hb2))

/-- The walk along the parent pointers, started at a queued cell other than the head and
with enough fuel, ends at the cell at which the branch of the start cell begins. -/
theorem bfs_walk_back_branch (mines : List Position) (obstacle : CrossObstacle)
    (s target : Position) (st : BfsState) (lvl : Position → Nat) (k L : Nat)
    (hM : BfsMid mines obstacle s target st lvl k L) :
    ∀ (fuel : Nat) (c : Position), c ∈ st.queue → c ≠ s → lvl c ≤ fuel →
      branch_of st.parent s c (bfs_walk_back st.parent s fuel c (st.parent c)) := by
  intro fuel
  induction fuel with
  | zero =>
    intro c hc hcs hl
    have := (hM.parent_ok c hc hcs).2.2
    omega
  | succ fuel ih =>
    intro c hc hcs hl
    obtain ⟨hpq, hps, hpl⟩ := hM.parent_ok c hc hcs
    rw [bfs_walk_back]
    by_cases hp : st.parent c = s
    · rw [if_pos ((position_eq_iff _ _).1 hp)]
      exact branch_of.root c hp
    · rw [if_neg (fun h => hp ((position_eq_iff _ _).2 h))]
      simp only
      obtain ⟨_, hps2, _⟩ := hM.parent_ok (st.parent c) hpq hp
      have hint : in_interior (st.parent c) := by
        obtain ⟨rest, hq, hrest⟩ := hM.start
        rw [hq] at hpq
        rcases List.mem_cons.mp hpq with h | h
        · exact absurd h hp
        · exact hrest _ h
      have hnot : ¬ ((st.parent (st.parent c)).x = -1 ∧ (st.parent (st.parent c)).y = -1) := by
        rintro ⟨h1, h2⟩
        have hadj := hps2.1
        unfold adjacent at hadj
        simp only [in_interior, BOARD_COLS, BOARD_ROWS] at hint
        omega
      rw [if_neg hnot]
      exact branch_of.up c _ hp (ih (st.parent c) hpq hp (by omega))

/-- Along a chain of free steps from a child `a` of the head that is short enough to be a
start of a shortest path, every cell is queued at a depth no more than its place in the
chain, and when the depth is exactly that place the branch of the cell stands at or
before `a` in the queue. -/
theorem branch_along_path (mines : List Position) (obstacle : CrossObstacle)
    (s target : Position) (st : BfsState) (lvl : Position → Nat) (k L : Nat)
    (hM : BfsMid mines obstacle s target st lvl k L) (hO : BfsOrd mines obstacle s st)
    (ht : st.queue[k]? = some target) (hk : 1 ≤ k) (a : Position)
    (ha : free_step mines obstacle s a) :
    ∀ (c : Position) (m : Nat), free_walk mines obstacle a c m → m + 1 ≤ lvl target →
      c ∈ st.queue ∧ lvl c ≤ m + 1 ∧
      (lvl c = m + 1 → ∀ r, branch_of st.parent s c r → stands_before st.queue r a) := by
  obtain ⟨rest, hq, _⟩ := hM.start
  have h0 : st.queue[0]? = some s := by
    rw [hq]
    exact List.getElem?_cons_zero
  have hsq : s ∈ st.queue := List.mem_iff_getElem?.2 ⟨0, h0⟩
  intro c m hw
  induction hw with
  | refl =>
    intro _
    obtain ⟨haq, hal⟩ := hM.closed 0 s (by omega) h0 a ha
    rw [hM.lvl_start] at hal
    refine ⟨haq, hal, ?_⟩
    intro hl r hb
    have has : a ≠ s := by
      intro h
      rw [h, hM.lvl_start] at hl
      omega
    have hpa : st.parent a = s := by
      have hsb := hO.par_first a haq has s hsq ha
      obtain ⟨i, hi⟩ := List.mem_iff_getElem?.1 (hM.parent_ok a haq has).1
      have hi0 := stands_before_index st.queue hM.nodup i 0 _ _ hi h0 hsb
      have hie : i = 0 := by omega
      rw [hie, h0] at hi
      exact (Option.some.inj hi).symm
    cases hb with
    | root _ _ => exact stands_before_refl _ _ haq
    | up _ _ hp _ => exact absurd hpa hp
  | tail b c m _ hbc ih =>
    intro hle
    obtain ⟨hbq, hbl, hbb⟩ := ih (by omega)
    obtain ⟨i, hi⟩ := List.mem_iff_getElem?.1 hbq
    have hlt : i < k := by
      by_contra hge
      obtain ⟨h1, e1⟩ := List.getElem?_eq_some.1 hi
      obtain ⟨h2, e2⟩ := List.getElem?_eq_some.1 ht
      rcases Nat.eq_or_lt_of_le (not_lt.mp hge) with heq | hlt'
      · subst heq
        have hbt : b = target := by rw [← e1, ← e2]
        rw [hbt] at hbl
        omega
      · have := List.pairwise_iff_getElem.1 hM.sorted k i h2 h1 hlt'
        rw [e1, e2] at this
        omega
    obtain ⟨hcq, hcl⟩ := hM.closed i b hlt hi c hbc
    refine ⟨hcq, by omega, ?_⟩
    intro hl r hb
    have hcs : c ≠ s := by
      intro h
      rw [h, hM.lvl_start] at hl
      omega
    obtain ⟨hpq, _, hpl⟩ := hM.parent_ok c hcq hcs
    have hps : st.parent c ≠ s := by
      intro h
      rw [h, hM.lvl_start] at hpl
      omega
    cases hb with
    | root _ hp => exact absurd hp hps
    | up _ _ _ hb' =>
      exact branch_mono mines obstacle s target st lvl k L hM hO a (st.parent c) r hb' hpq hps
        b hbq (by omega) (hO.par_first c hcq hcs b hbq hbc) (hbb (by omega))

/-- The rank of the neighbour in the direction of a heading is the place of the heading
in the expansion order. -/
theorem heading_rank_step (s : Position) (d : Char) (h : adjacent s (step_to s d)) :
    dir_rank s (step_to s d) = heading_rank d ∧
    (d = 'E' ∨ d = 'W' ∨ d = 'S' ∨ d = 'N') := by
  unfold adjacent step_to direction_to_delta at h
  unfold dir_rank step_to direction_to_delta heading_rank
  by_cases hN : d = 'N'
  · subst hN
    simp only [Char.reduceEq, if_true, if_false, add_sub_cancel_left]
    exact ⟨by decide, by decide⟩
  by_cases hS : d = 'S'
  · subst hS
    simp only [Char.reduceEq, if_true, if_false, add_sub_cancel_left]
    exact ⟨by decide, by decide⟩
  by_cases hW : d = 'W'
  · subst hW
    simp only [Char.reduceEq, if_true, if_false, add_sub_cancel_left]
    exact ⟨by decide, by decide⟩
  by_cases hE : d = 'E'
  · subst hE
    simp only [Char.reduceEq, if_true, if_false, add_sub_cancel_left]
    exact ⟨by decide, by decide⟩
  rw [if_neg hN, if_neg hS, if_neg hW, if_neg hE] at h
  simp only at h
  omega

/-- C25. When `bfs_next_direction` succeeds with direction `d`, then `d` is one of `E`, `W`,
`S`, `N`, and for every direction `d'` that begins a shortest path to the target (the
step from the head in direction `d'` is free, and a chain of `n` free steps leads from
there to the target, where `n + 1` is the shortest-path distance from the head), `d`
stands at or before `d'` in the expansion order `E`, `W`, `S`, `N`.  The result depends
on the robot only through the position of its head: it is a function of head, target,
mine list and obstacle. -/
theorem bfs_tie_break (robot : Robot) (person : Position) (mines : List Position)
    (obstacle : CrossObstacle) (d : Char)
    (h : bfs_next_direction robot person mines obstacle = some d) :
    (d = 'E' ∨ d = 'W' ∨ d = 'S' ∨ d = 'N') ∧
    (∀ (d' : Char) (n : Nat), is_dist mines obstacle robot.pos person (n + 1) →
      free_step mines obstacle robot.pos (step_to robot.pos d') →
      free_walk mines obstacle (step_to robot.pos d') person n →
      heading_rank d ≤ heading_rank d') ∧
    (∀ robot' : Robot, robot'.pos = robot.pos →
      bfs_next_direction robot' person mines obstacle = some d) := by
  have hfuel : bfs_fuel = 1000 := by decide
  obtain ⟨st0, lvl, L, hM0, hnf, hcase⟩ :=
    bfs_loop_spec mines obstacle robot.pos person bfs_fuel (bfs_init robot.pos)
      (bfs_init_head mines obstacle robot.pos person)
      (by rw [hfuel]; exact Nat.le_add_right_of_le (by decide))
  have hOs := bfs_loop_ord mines obstacle robot.pos person bfs_fuel (bfs_init robot.pos)
    (bfs_init_head mines obstacle robot.pos person) (bfs_init_ord mines obstacle robot.pos)
  have hb := bfs_queue_bound mines obstacle robot.pos person st0 lvl _ L hM0
  have hsearch : bfs_search robot.pos person mines obstacle =
      bfs_loop mines obstacle person bfs_fuel (bfs_init robot.pos) := rfl
  have hdet : ∀ robot' : Robot, robot'.pos = robot.pos →
      bfs_next_direction robot' person mines obstacle = some d := by
    intro robot' hpos
    rw [← h]
    unfold bfs_next_direction
    rw [hpos]
  rcases hcase with ⟨_, hres⟩ | ⟨ht, hres⟩
  · exfalso
    unfold bfs_next_direction at h
    simp only [hsearch, hres, hnf] at h
    exact absurd h (by simp)
  · by_cases hts : person = robot.pos
    · exfalso
      unfold bfs_next_direction at h
      simp only [hsearch, hres] at h
      have hp : st0.parent person = ⟨-1, -1⟩ := by
        rw [hts]
        exact hM0.parent_start
      rw [hp] at h
      simp at h
    · rw [hres] at hOs
      have hM : BfsMid mines obstacle robot.pos person
          { st0 with front := st0.front + 1, found := true } lvl st0.front L :=
        ⟨hM0.nodup, hM0.start, hM0.visited_iff, hM0.lvl_start, hM0.parent_start,
          hM0.parent_ok, hM0.walk, hM0.sorted, hM0.lvl_lt, hM0.bound, hM0.k_le, hM0.closed,
          hM0.not_target⟩
      have htq : person ∈ st0.queue := List.mem_iff_getElem?.2 ⟨_, ht⟩
      obtain ⟨hpq, hps, hpl⟩ := hM0.parent_ok person htq hts
      have hint : in_interior person := by
        obtain ⟨rest, hq, hrest⟩ := hM0.start
        rw [hq] at htq
        rcases List.mem_cons.mp htq with h' | h'
        · exact absurd h' hts
        · exact hrest _ h'
      have hnot : ¬ ((st0.parent person).x = -1 ∧ (st0.parent person).y = -1) := by
        rintro ⟨h1, h2⟩
        have hadj := hps.1
        unfold adjacent at hadj
        simp only [in_interior, BOARD_COLS, BOARD_ROWS] at hint
        omega
      have hl : lvl person ≤ bfs_fuel := by
        have := hM0.lvl_lt person htq
        omega
      obtain ⟨hcq, hcs, _⟩ :=
        bfs_walk_back_spec mines obstacle robot.pos person st0 lvl _ L hM0 bfs_fuel person 0
          htq hts hl free_walk.refl
      have hbr := bfs_walk_back_branch mines obstacle robot.pos person st0 lvl _ L hM0
        bfs_fuel person htq hts hl
      obtain ⟨d0, hd0, hstep⟩ := bfs_direction_of_adjacent robot.pos _ hcs.1
      have hdd : d0 = d := by
        unfold bfs_next_direction at h
        simp only [hsearch, hres] at h
        rw [if_neg (by simp), if_neg hnot, hd0] at h
        exact Option.some.inj h
      subst hdd
      generalize bfs_walk_back st0.parent robot.pos bfs_fuel person (st0.parent person) = c1
        at hcq hcs hbr hstep
      have hadj1 : adjacent robot.pos (step_to robot.pos d0) := by
        rw [hstep]
        exact hcs.1
      obtain ⟨hrank, hdir⟩ := heading_rank_step robot.pos d0 hadj1
      refine ⟨hdir, ?_, hdet⟩
      intro d' n hdist hfree hwalk
      obtain ⟨hrank', _⟩ := heading_rank_step robot.pos d' hfree.1
      have hlt : lvl person = n + 1 := by
        have h1 := (bfs_found_dist mines obstacle robot.pos person st0 lvl L hM0 ht)
        have h2 := h1.2 (n + 1) hdist.1
        have h3 := hdist.2 (lvl person) h1.1
        omega
      have hk : 1 ≤ st0.front := by
        by_contra h0
        have hz : st0.front = 0 := by omega
        obtain ⟨rest, hq, _⟩ := hM0.start
        rw [hz, hq, List.getElem?_cons_zero] at ht
        exact hts (Option.some.inj ht).symm
      obtain ⟨_, _, hwin⟩ := branch_along_path mines obstacle robot.pos person _ lvl
        st0.front L hM hOs ht hk (step_to robot.pos d') hfree person n hwalk (by omega)
      have hsb := hwin hlt c1 hbr
      have hc1s : c1 ≠ robot.pos := by
        intro he
        have hadj := hcs.1
        rw [he] at hadj
        unfold adjacent at hadj
        omega
      have has : step_to robot.pos d' ≠ robot.pos := by
        intro he
        have hadj := hfree.1
        rw [he] at hadj
        unfold adjacent at hadj
        omega
      have hpa : st0.parent (step_to robot.pos d') = robot.pos := by
        obtain ⟨rest, hq, _⟩ := hM0.start
        have h0 : st0.queue[0]? = some robot.pos := by
          rw [hq]
          exact List.getElem?_cons_zero
        have hsq : robot.pos ∈ st0.queue := List.mem_iff_getElem?.2 ⟨0, h0⟩
        have haq : step_to robot.pos d' ∈ st0.queue :=
          (hM0.closed 0 robot.pos (by omega) h0 _ hfree).1
        have hsb' := hOs.par_first _ haq has robot.pos hsq hfree
        obtain ⟨i, hi⟩ := List.mem_iff_getElem?.1 (hM0.parent_ok _ haq has).1
        have hi0 := stands_before_index st0.queue hM0.nodup i 0 _ _ hi h0 hsb'
        have hie : i = 0 := by omega
        rw [hie, h0] at hi
        exact (Option.some.inj hi).symm
      have hord := hOs.child_order c1 (step_to robot.pos d') hsb hc1s
        (branch_of_root _ _ _ _ hbr) hpa
      rw [← hrank, ← hrank', hstep]
      exact hord

/-- The search from `(10, 10)` for a target at `(11, 9)` on the empty board answers `E`. -/
theorem diagonal_plan :
    bfs_next_direction robot_at_anchor ⟨11, 9⟩ [] init_obstacle = some 'E' := by decide!

/-- C25 at a head on `(10, 10)` and a target at `(11, 9)`, one cell east and one cell
north, on the empty board: the steps east and north both begin a shortest path (of length
2), and the search answers `E`, the earlier of the two in the expansion order. -/
theorem bfs_tie_break_witness :
    bfs_next_direction robot_at_anchor ⟨11, 9⟩ [] init_obstacle = some 'E' ∧
    heading_rank 'E' ≤ heading_rank 'N' ∧
    (('E' = 'E' ∨ 'E' = 'W' ∨ 'E' = 'S' ∨ 'E' = 'N') ∧
    (∀ (d' : Char) (n : Nat), is_dist [] init_obstacle robot_at_anchor.pos ⟨11, 9⟩ (n + 1) →
      free_step [] init_obstacle robot_at_anchor.pos (step_to robot_at_anchor.pos d') →
      free_walk [] init_obstacle (step_to robot_at_anchor.pos d') ⟨11, 9⟩ n →
      heading_rank 'E' ≤ heading_rank d') ∧
    (∀ robot' : Robot, robot'.pos = robot_at_anchor.pos →
      bfs_next_direction robot' ⟨11, 9⟩ [] init_obstacle = some 'E')) :=
  ⟨diagonal_plan, by decide,
    bfs_tie_break robot_at_anchor ⟨11, 9⟩ [] init_obstacle 'E' diagonal_plan⟩

/-! ## The bomb -/

/-- Writing entry `w` of an array does not change the entries below `w`. -/
theorem take_set_self (l : List Position) (w : Nat) (v : Position) :
    (l.set w v).take w = l.take w := by
  induction l generalizing w with
  | nil => simp
  | cons x xs ih =>
    cases w with
    | zero => simp
    | succ w => simp [ih]

/-- The invariant of the last loop of `bomb_mines` after the indices below `i`: the array
keeps its length, the entries from `i` on are untouched, and the entries below the write
index are the unmarked mines among the first `i`, in their order. -/
theorem bomb_compact_inv (test : Position → Bool) (mines : List Position) :
    ∀ i, i ≤ mines.length →
      ((List.range i).foldl (bomb_compact_step (mines.map test)) (mines, 0)).1.length
          = mines.length ∧
      ((List.range i).foldl (bomb_compact_step (mines.map test)) (mines, 0)).2 ≤ i ∧
      ((List.range i).foldl (bomb_compact_step (mines.map test)) (mines, 0)).1.drop i
          = mines.drop i ∧
      ((List.range i).foldl (bomb_compact_step (mines.map test)) (mines, 0)).1.take
          ((List.range i).foldl (bomb_compact_step (mines.map test)) (mines, 0)).2
          = (mines.take i).filter (fun m => !test m) := by
  intro i
  induction i with
  | zero =>
    intro _
    simp
  | succ i ih =>
    intro hi
    have hlt : i < mines.length := hi
    obtain ⟨h1, h2, h3, h4⟩ := ih (Nat.le_of_lt hlt)
    rw [List.range_succ, List.foldl_append]
    simp only [List.foldl_cons, List.foldl_nil]
    generalize (List.range i).foldl (bomb_compact_step (mines.map test)) (mines, 0) = acc at *
    obtain ⟨a, w⟩ := acc
    simp only at h1 h2 h3 h4
    have hia : i < a.length := by rw [h1]; exact hlt
    have hai : a[i]? = some mines[i] := by
      have e1 : a[i]? = (a.drop i)[0]? := by simp
      rw [e1, h3]
      simp [List.getElem?_eq_getElem hlt]
    have haD : a.getD i ⟨0, 0⟩ = mines[i] := by
      rw [List.getD_eq_getElem?_getD, hai]
      rfl
    have hmark : (mines.map test).getD i false = test mines[i] := by
      rw [List.getD_eq_getElem?_getD]
      simp [List.getElem?_eq_getElem hlt]
    have htake : mines.take (i + 1) = mines.take i ++ [mines[i]] := by
      rw [List.take_succ, List.getElem?_eq_getElem hlt]
      rfl
    have hdrop : a.drop (i + 1) = mines.drop (i + 1) := by
      have := congrArg (List.drop 1) h3
      simpa [List.drop_drop, Nat.add_comm] using this
    unfold bomb_compact_step
    rw [hmark, htake, List.filter_append]
    by_cases ht : test mines[i] = true
    · rw [if_pos ht]
      simp only [List.filter_cons, List.filter_nil]
      simp only [ht, Bool.not_true]
      refine ⟨h1, Nat.le_succ_of_le h2, hdrop, ?_⟩
      simpa using h4
    · rw [if_neg ht]
      have ht' : test mines[i] = false := by simpa using ht
      simp only [List.filter_cons, List.filter_nil, ht', Bool.not_false, if_true]
      rw [haD]
      by_cases hw : w = i
      · subst hw
        rw [if_neg (by simp)]
        refine ⟨h1, Nat.le_refl _, hdrop, ?_⟩
        rw [List.take_succ, h4, hai]
        rfl
      · have hwlt : w < i := by omega
        rw [if_pos hw]
        refine ⟨by simp [h1], by omega, ?_, ?_⟩
        · rw [List.drop_set_of_lt _ _ (by omega)]
          exact hdrop
        · have hwa : w < a.length := by omega
          rw [List.take_succ, take_set_self, h4, List.getElem?_set_self hwa]
          rfl

/-- The last loop of `bomb_mines` keeps exactly the unmarked mines, in their order. -/
theorem bomb_compact_eq_filter (test : Position → Bool) (mines : List Position) :
    bomb_compact (mines.map test) mines = mines.filter (fun m => !test m) := by
  obtain ⟨_, _, _, h4⟩ := bomb_compact_inv test mines mines.length (Nat.le_refl _)
  unfold bomb_compact
  simp only
  rw [h4, List.take_length]

/-- The mine list that `bomb_mines` leaves: the mines out of range of the head, in their
order. -/
theorem bomb_mines_list (player : Player) (robot : Robot) (mines : List Position) :
    (bomb_mines player robot mines).2 =
      if player.level ≤ 10 then mines
      else mines.filter (fun m => !bomb_in_range robot.pos.x robot.pos.y m) := by
  unfold bomb_mines
  split
  · rfl
  · exact bomb_compact_eq_filter _ mines

/-- C24. `bomb_mines` changes nothing when `level <= 10`.  When `level > 10` it lowers
`level` by exactly 5 (the result is at least 6, so never below 1), leaves `score`, `lives`
and `rescued` unchanged, and the mine list it leaves is the old list without exactly the
mines whose `x` and `y` offsets from the robot's head are both at most 5 in absolute
value, the other mines in their old relative order.  The robot is only read. -/
theorem bomb_mines_effect (player : Player) (robot : Robot) (mines : List Position) :
    (player.level ≤ 10 → bomb_mines player robot mines = (player, mines)) ∧
    (player.level > 10 →
      (bomb_mines player robot mines).1 = { player with level := player.level - 5 } ∧
      1 ≤ (bomb_mines player robot mines).1.level ∧
      (bomb_mines player robot mines).2 =
        mines.filter (fun m =>
          decide (¬ (|m.x - robot.pos.x| ≤ 5 ∧ |m.y - robot.pos.y| ≤ 5))) ∧
      (bomb_mines player robot mines).2.Sublist mines ∧
      ∀ m, m ∈ (bomb_mines player robot mines).2 ↔
        m ∈ mines ∧ ¬ (|m.x - robot.pos.x| ≤ 5 ∧ |m.y - robot.pos.y| ≤ 5)) := by
  constructor
  · intro h
    unfold bomb_mines
    rw [if_pos h]
  · intro h
    have hl : ¬ player.level ≤ 10 := by omega
    have hfun : (fun m => !bomb_in_range robot.pos.x robot.pos.y m) =
        (fun m : Position =>
          decide (¬ (|m.x - robot.pos.x| ≤ 5 ∧ |m.y - robot.pos.y| ≤ 5))) := by
      funext m
      unfold bomb_in_range
      simp only [Int.natCast_natAbs]
      by_cases hc : |m.x - robot.pos.x| ≤ 5 ∧ |m.y - robot.pos.y| ≤ 5
      · simp [hc]
      · simp [hc]
    have hlist := bomb_mines_list player robot mines
    rw [if_neg hl, hfun] at hlist
    have hplayer : (bomb_mines player robot mines).1 =
        { player with level := player.level - 5 } := by
      unfold bomb_mines
      rw [if_neg hl]
      simp only
      rw [if_neg (by show ¬ (player.level - 5 < 1); omega)]
    refine ⟨hplayer, ?_, hlist, ?_, ?_⟩
    · rw [hplayer]
      simp only
      omega
    · rw [hlist]
      exact List.filter_sublist _
    · intro m
      rw [hlist, List.mem_filter, decide_eq_true_iff]

/-- C24 at level 12 with five mines and the head at `(10, 10)`: the level drops to 7, the
three mines within 5 cells in both coordinates are removed, and `(30, 9)` and `(14, 16)`
stay, in this order. -/
theorem bomb_mines_effect_witness :
    bomb_mines { score := 0, lives := 3, level := 12, rescued := 0 } robot_at_anchor
      [⟨9, 10⟩, ⟨6, 7⟩, ⟨30, 9⟩, ⟨12, 13⟩, ⟨14, 16⟩]
      = ({ score := 0, lives := 3, level := 7, rescued := 0 }, [⟨30, 9⟩, ⟨14, 16⟩]) ∧
    ((bomb_mines { score := 0, lives := 3, level := 12, rescued := 0 } robot_at_anchor
        [⟨9, 10⟩, ⟨6, 7⟩, ⟨30, 9⟩, ⟨12, 13⟩, ⟨14, 16⟩]).1 =
      { score := 0, lives := 3, level := 12 - 5, rescued := 0 } ∧
    1 ≤ (bomb_mines { score := 0, lives := 3, level := 12, rescued := 0 } robot_at_anchor
        [⟨9, 10⟩, ⟨6, 7⟩, ⟨30, 9⟩, ⟨12, 13⟩, ⟨14, 16⟩]).1.level ∧
    (bomb_mines { score := 0, lives := 3, level := 12, rescued := 0 } robot_at_anchor
        [⟨9, 10⟩, ⟨6, 7⟩, ⟨30, 9⟩, ⟨12, 13⟩, ⟨14, 16⟩]).2 =
      ([⟨9, 10⟩, ⟨6, 7⟩, ⟨30, 9⟩, ⟨12, 13⟩, ⟨14, 16⟩] : List Position).filter (fun m =>
        decide (¬ (|m.x - robot_at_anchor.pos.x| ≤ 5 ∧ |m.y - robot_at_anchor.pos.y| ≤ 5))) ∧
    (bomb_mines { score := 0, lives := 3, level := 12, rescued := 0 } robot_at_anchor
        [⟨9, 10⟩, ⟨6, 7⟩, ⟨30, 9⟩, ⟨12, 13⟩, ⟨14, 16⟩]).2.Sublist
      [⟨9, 10⟩, ⟨6, 7⟩, ⟨30, 9⟩, ⟨12, 13⟩, ⟨14, 16⟩] ∧
    ∀ m, m ∈ (bomb_mines { score := 0, lives := 3, level := 12, rescued := 0 } robot_at_anchor
        [⟨9, 10⟩, ⟨6, 7⟩, ⟨30, 9⟩, ⟨12, 13⟩, ⟨14, 16⟩]).2 ↔
      m ∈ ([⟨9, 10⟩, ⟨6, 7⟩, ⟨30, 9⟩, ⟨12, 13⟩, ⟨14, 16⟩] : List Position) ∧
        ¬ (|m.x - robot_at_anchor.pos.x| ≤ 5 ∧ |m.y - robot_at_anchor.pos.y| ≤ 5)) :=
  ⟨by decide,
    (bomb_mines_effect { score := 0, lives := 3, level := 12, rescued := 0 } robot_at_anchor
      [⟨9, 10⟩, ⟨6, 7⟩, ⟨30, 9⟩, ⟨12, 13⟩, ⟨14, 16⟩]).2 (by decide)⟩

/-! ## The mine list -/

/-- `spawn_mines` keeps a duplicate-free list duplicate-free and a list within `MAX_MINES`
within it. -/
theorem spawn_mines_keeps_bounds (draws : List Nat) (robot : Robot) (person : Option Position)
    (mines : List Position) (target_count : Int) (obstacle : CrossObstacle)
    (mines' : List Position) (rest : List Nat)
    (h : spawn_mines draws robot person mines target_count obstacle = some (mines', rest))
    (hlen : (mines.length : Int) ≤ MAX_MINES) (hnd : mines.Nodup) :
    (mines'.length : Int) ≤ MAX_MINES ∧ mines'.Nodup := by
  obtain ⟨added, h1, h2, h3, h4⟩ :=
    spawn_mines_loop_spec robot person obstacle _ draws.length draws mines mines' rest
      (le_refl _) h
  constructor
  · rw [h4]
    split_ifs <;> omega
  · rw [h1, List.nodup_append]
    refine ⟨hnd, h2, ?_⟩
    intro a ha hb
    exact (h3 a hb).2.2.2.2 ha

/-- `bomb_mines` returns a sublist of the mine list. -/
theorem bomb_mines_sublist (player : Player) (robot : Robot) (mines : List Position) :
    (bomb_mines player robot mines).2.Sublist mines := by
  rw [bomb_mines_list]
  split
  · exact List.Sublist.refl _
  · exact List.filter_sublist _

/-- C11. Every mine list that the game's mine operations produce from the empty list (the
first `spawn_mines` with `BASE_MINES`, `spawn_mines` on a level-up, `bomb_mines`) has at
most `MAX_MINES` entries, and no two of its entries are the same cell. -/
theorem mine_list_bounded_nodup (mines : List Position) (h : MineOps mines) :
    (mines.length : Int) ≤ MAX_MINES ∧ mines.Nodup := by
  induction h with
  | init draws rest robot person obstacle mines hs =>
    exact spawn_mines_keeps_bounds draws robot person [] BASE_MINES obstacle mines rest hs
      (by decide) List.nodup_nil
  | level_up draws rest robot person obstacle mines mines' _ hs ih =>
    exact spawn_mines_keeps_bounds draws robot person mines _ obstacle mines' rest hs ih.1 ih.2
  | bomb player robot mines _ ih =>
    have hsub := bomb_mines_sublist player robot mines
    refine ⟨?_, ih.2.sublist hsub⟩
    have := hsub.length_le
    omega

/-- The five mines of the sample start state are produced by the first `spawn_mines`. -/
theorem start_mines_ops : MineOps [⟨9, 10⟩, ⟨6, 7⟩, ⟨8, 9⟩, ⟨12, 13⟩, ⟨14, 15⟩] :=
  MineOps.init [8, 9, 5, 6, 7, 8, 11, 12, 13, 14] [] robot_at_anchor (some ⟨4, 5⟩)
    init_obstacle _ (by decide)

/-- C11 at the five mines of the sample start state. -/
theorem mine_list_bounded_nodup_witness :
    MineOps [⟨9, 10⟩, ⟨6, 7⟩, ⟨8, 9⟩, ⟨12, 13⟩, ⟨14, 15⟩] ∧
    ((([⟨9, 10⟩, ⟨6, 7⟩, ⟨8, 9⟩, ⟨12, 13⟩, ⟨14, 15⟩] : List Position).length : Int)
      ≤ MAX_MINES ∧
    ([⟨9, 10⟩, ⟨6, 7⟩, ⟨8, 9⟩, ⟨12, 13⟩, ⟨14, 15⟩] : List Position).Nodup) :=
  ⟨start_mines_ops, mine_list_bounded_nodup _ start_mines_ops⟩

/-! ## The delay of a step -/

/-- The delay in closed form: 400 up to level 1, then 200, 100, and 50 from level 4 on. -/
theorem get_delay_closed_form (level : Int) :
    get_delay_for_level level =
      if level ≤ 1 then 400 else if level = 2 then 200 else if level = 3 then 100 else 50 := by
  have hstop : ∀ n : Nat, delay_loop n 50 = 50 := by
    intro n
    cases n with
    | zero => rfl
    | succ n => rfl
  by_cases h1 : level ≤ 1
  · have e : (level - 1).toNat = 0 := by omega
    rw [if_pos h1]
    unfold get_delay_for_level
    rw [e]
    rfl
  · rw [if_neg h1]
    by_cases h2 : level = 2
    · subst h2
      rfl
    · rw [if_neg h2]
      by_cases h3 : level = 3
      · subst h3
        rfl
      · rw [if_neg h3]
        obtain ⟨n, hn⟩ : ∃ n : Nat, (level - 1).toNat = n + 3 :=
          ⟨(level - 1).toNat - 3, by omega⟩
        unfold get_delay_for_level
        rw [hn]
        have e : delay_loop (n + 3) BASE_DELAY_MS = delay_loop n 50 := rfl
        rw [e, hstop n]
        rfl

/-- C12. For every level `>= 1`, `get_delay_for_level level` is
`max 50 (400 div 2^(level-1))` milliseconds: 400, 200, 100 at levels 1, 2, 3 and 50 at every
level from 4 on.  The function is a pure function of `level`. -/
theorem get_delay_formula (level : Int) (h : 1 ≤ level) :
    get_delay_for_level level = max 50 (400 / 2 ^ (level - 1).toNat) ∧
    get_delay_for_level 1 = 400 ∧ get_delay_for_level 2 = 200 ∧
    get_delay_for_level 3 = 100 ∧ (4 ≤ level → get_delay_for_level level = 50) := by
  refine ⟨?_, rfl, rfl, rfl, ?_⟩
  · rw [get_delay_closed_form]
    by_cases h1 : level ≤ 1
    · have e : level = 1 := by omega
      subst e
      rfl
    · rw [if_neg h1]
      by_cases h2 : level = 2
      · subst h2
        rfl
      · rw [if_neg h2]
        by_cases h3 : level = 3
        · subst h3
          rfl
        · rw [if_neg h3]
          obtain ⟨n, hn⟩ : ∃ n : Nat, (level - 1).toNat = n + 3 :=
            ⟨(level - 1).toNat - 3, by omega⟩
          rw [hn]
          have hpow : (8 : Int) ≤ 2 ^ (n + 3) := by
            have : (2 : Int) ^ (n + 3) = 2 ^ n * 8 := by ring
            rw [this]
            have : (1 : Int) ≤ 2 ^ n := one_le_pow₀ (by norm_num)
            omega
          have hdiv : (400 : Int) / 2 ^ (n + 3) ≤ 50 := by
            have hpos : (0 : Int) < 2 ^ (n + 3) := by omega
            have := Int.ediv_lt_of_lt_mul hpos (show (400 : Int) < 51 * 2 ^ (n + 3) by omega)
            omega
          omega
  · intro h4
    rw [get_delay_closed_form]
    rw [if_neg (by omega), if_neg (by omega), if_neg (by omega)]

/-- C12 at level 6: the delay is 50 ms, and `400 div 32 = 12`. -/
theorem get_delay_formula_witness :
    get_delay_for_level 6 = max 50 (400 / 2 ^ ((6 : Int) - 1).toNat) ∧
    get_delay_for_level 1 = 400 ∧ get_delay_for_level 2 = 200 ∧
    get_delay_for_level 3 = 100 ∧ ((4 : Int) ≤ 6 → get_delay_for_level 6 = 50) :=
  get_delay_formula 6 (by decide)

/-- C13. `get_delay_for_level` is non-increasing in the level, is never below
`MIN_DELAY_MS` (so in particular not for any level `>= 1`), and is 400 at level 1. -/
theorem get_delay_monotone :
    (∀ a b : Int, a ≤ b → get_delay_for_level b ≤ get_delay_for_level a) ∧
    (∀ level : Int, MIN_DELAY_MS ≤ get_delay_for_level level) ∧
    get_delay_for_level 1 = 400 := by
  refine ⟨?_, ?_, rfl⟩
  · intro a b hab
    rw [get_delay_closed_form a, get_delay_closed_form b]
    split_ifs <;> omega
  · intro level
    rw [get_delay_closed_form level]
    unfold MIN_DELAY_MS
    split_ifs <;> omega

/-! ## The two delay functions -/

/-- Doubling zero leaves zero. -/
theorem factor_loop_zero : ∀ n : Nat, model5.factor_loop n 0 = 0 := by
  intro n
  induction n with
  | zero => rfl
  | succ n ih =>
    rw [model5.factor_loop]
    exact ih

/-- The doubling loop run `a + b` times is the loop run `b` times after `a` times. -/
theorem factor_loop_add : ∀ (a b : Nat) (f : Int),
    model5.factor_loop (a + b) f = model5.factor_loop b (model5.factor_loop a f) := by
  intro a
  induction a with
  | zero =>
    intro b f
    rw [Nat.zero_add]
    rfl
  | succ a ih =>
    intro b f
    rw [Nat.add_right_comm, model5.factor_loop, ih]
    rfl

/-- C30 fails on the code of `game_model5.c`: after 31 doublings the factor is `-2^31`,
after 32 doublings it is `0`, so for every level from 33 on the function divides by zero,
where the function of `game.c` returns 50; up to level 32 the two functions agree. -/
theorem model5_delay_divides_by_zero :
    model5.factor_loop 31 1 = -2147483648 ∧ model5.factor_loop 32 1 = 0 ∧
    model5.get_delay_for_level 33 = none ∧ get_delay_for_level 33 = 50 ∧
    (∀ level : Int, 33 ≤ level → model5.get_delay_for_level level = none) ∧
    (∀ level : Int, level ≤ 32 →
      model5.get_delay_for_level level = some (get_delay_for_level level)) := by
  have h32 : model5.factor_loop 32 1 = 0 := by decide!
  refine ⟨by decide!, h32, by decide!, by decide!, ?_, ?_⟩
  · intro level hl
    have hn : (level - 1).toNat = 32 + ((level - 1).toNat - 32) := by omega
    unfold model5.get_delay_for_level
    rw [if_neg (by omega), hn, factor_loop_add, h32, factor_loop_zero]
    rfl
  · intro level hl
    by_cases h1 : level ≤ 1
    · unfold model5.get_delay_for_level
      rw [if_pos h1]
      have h0 : (level - 1).toNat = 0 := by omega
      unfold get_delay_for_level
      rw [h0]
      rfl
    · have h2 : 2 ≤ level := by omega
      interval_cases level <;> decide!

/-! ## The rescue step -/

/-- The block "Saving people" when the head is on the person, case by case: the score
grows by 10; without a level-up only the rescue counter and the person change; with a
level-up the counter is reset, the level grows by 1, `spawn_mines` runs with target
`mine_count + MINES_PER_LEVEL`, and when the new level is a multiple of 5 a life is added
(capped at `MAX_BODY_SEGMENTS`) and the body is rebuilt; the person is placed last. -/
theorem rescue_step_cases (draws rest : List Nat) (g g' : Game)
    (hhead : g.robot.pos.x = g.person.x ∧ g.robot.pos.y = g.person.y)
    (h : rescue_step draws g = some (g', rest)) :
    g'.obstacle = g.obstacle ∧ g'.running = g.running ∧
    g'.player.score = g.player.score + 10 ∧
    ((g.player.rescued + 1 < PEOPLE_PER_LEVEL ∧ g'.player.rescued = g.player.rescued + 1 ∧
        g'.player.level = g.player.level ∧ g'.player.lives = g.player.lives ∧
        g'.robot = g.robot ∧ g'.mines = g.mines ∧
        spawn_person g.robot g.mines g.obstacle draws = some (g'.person, rest)) ∨
      (g.player.rescued + 1 ≥ PEOPLE_PER_LEVEL ∧ g'.player.rescued = 0 ∧
        g'.player.level = g.player.level + 1 ∧
        ∃ d1, spawn_mines draws g.robot (some g.person) g.mines
            ((g.mines.length : Int) + MINES_PER_LEVEL) g.obstacle = some (g'.mines, d1) ∧
          spawn_person g'.robot g'.mines g.obstacle d1 = some (g'.person, rest) ∧
          ((Int.tmod (g.player.level + 1) 5 = 0 ∧
              g'.player.lives =
                (if g.player.lives + 1 > MAX_BODY_SEGMENTS then MAX_BODY_SEGMENTS
                  else g.player.lives + 1) ∧
              g'.robot = reset_robot_body_from_lives g.robot g'.player) ∨
            (Int.tmod (g.player.level + 1) 5 ≠ 0 ∧ g'.player.lives = g.player.lives ∧
              g'.robot = g.robot)))) := by
  unfold rescue_step at h
  rw [if_pos hhead] at h
  simp only at h
  by_cases hl : g.player.rescued + 1 ≥ PEOPLE_PER_LEVEL
  · rw [if_pos hl] at h
    cases hsm : spawn_mines draws g.robot (some g.person) g.mines
        ((g.mines.length : Int) + MINES_PER_LEVEL) g.obstacle with
    | none =>
      rw [hsm] at h
      simp at h
    | some r =>
      obtain ⟨mines', d1⟩ := r
      rw [hsm] at h
      simp only at h
      by_cases h5 : Int.tmod (g.player.level + 1) 5 = 0
      · rw [if_pos h5] at h
        simp only at h
        split at h
        · simp at h
        · rename_i person d2 hsp
          simp only [Option.some.injEq, Prod.mk.injEq] at h
          obtain ⟨hg, hr⟩ := h
          subst hg
          subst hr
          refine ⟨rfl, rfl, ?_, Or.inr ⟨hl, ?_, ?_, d1, rfl, hsp, Or.inl ⟨h5, ?_, ?_⟩⟩⟩
          all_goals first | rfl | (simp only; done) | (simp only; split <;> rfl)
      · rw [if_neg h5] at h
        simp only at h
        split at h
        · simp at h
        · rename_i person d2 hsp
          simp only [Option.some.injEq, Prod.mk.injEq] at h
          obtain ⟨hg, hr⟩ := h
          subst hg
          subst hr
          exact ⟨rfl, rfl, rfl, Or.inr ⟨hl, rfl, rfl, d1, rfl, hsp, Or.inr ⟨h5, rfl, rfl⟩⟩⟩
  · rw [if_neg hl] at h
    simp only at h
    split at h
    · simp at h
    · rename_i person d2 hsp
      simp only [Option.some.injEq, Prod.mk.injEq] at h
      obtain ⟨hg, hr⟩ := h
      subst hg
      subst hr
      exact ⟨rfl, rfl, rfl, Or.inl ⟨by omega, rfl, rfl, rfl, rfl, rfl, hsp⟩⟩

/-- The rescue without a level-up, computed: only the score, the counter and the person
change. -/
theorem rescue_step_plain (draws rest : List Nat) (g : Game) (p : Position)
    (hhead : g.robot.pos.x = g.person.x ∧ g.robot.pos.y = g.person.y)
    (hl : ¬ g.player.rescued + 1 ≥ PEOPLE_PER_LEVEL)
    (hsp : spawn_person g.robot g.mines g.obstacle draws = some (p, rest)) :
    rescue_step draws g =
      some ({ g with
        player := { g.player with
          score := g.player.score + 10, rescued := g.player.rescued + 1 }
        person := p }, rest) := by
  unfold rescue_step
  rw [if_pos hhead]
  simp only
  rw [if_neg hl]
  simp only [hsp]

/-- The step from `rescue_game` to `rescue_game_after`. -/
theorem rescue_game_step : rescue_step [3, 4] rescue_game = some (rescue_game_after, []) :=
  rescue_step_plain [3, 4] [] rescue_game ⟨4, 5⟩ (by decide) (by decide) (by decide!)

/-- `reset_robot_body_from_lives` keeps the head where it is. -/
theorem reset_body_pos (robot : Robot) (player : Player) :
    (reset_robot_body_from_lives robot player).pos = robot.pos := rfl

/-- C14. In the rescue step, whenever the head is on the person's cell, the score grows by
exactly 10 and the rescue is counted (`rescued + 1`, or `rescued = 0` together with a
level-up when the counter reaches `PEOPLE_PER_LEVEL`); and on every sequence of draws on
which the step ends, the head stays where it is and the new person cell differs from the
old person cell, from the robot's head and from every mine of the list as it stands after
the step.  (C `int` arithmetic is taken without overflow.) -/
theorem rescue_counts_and_relocates (draws rest : List Nat) (g g' : Game)
    (hhead : g.robot.pos = g.person)
    (h : rescue_step draws g = some (g', rest)) :
    g'.player.score = g.player.score + 10 ∧
    (g.player.rescued + 1 < PEOPLE_PER_LEVEL → g'.player.rescued = g.player.rescued + 1) ∧
    (g.player.rescued + 1 ≥ PEOPLE_PER_LEVEL →
      g'.player.rescued = 0 ∧ g'.player.level = g.player.level + 1) ∧
    g'.robot.pos = g.robot.pos ∧
    g'.person ≠ g.person ∧ g'.person ≠ g'.robot.pos ∧ g'.person ∉ g'.mines := by
  have hxy : g.robot.pos.x = g.person.x ∧ g.robot.pos.y = g.person.y := by
    rw [hhead]
    exact ⟨rfl, rfl⟩
  obtain ⟨_, _, hscore, hcase⟩ := rescue_step_cases draws rest g g' hxy h
  rcases hcase with ⟨hlt, hr, _, _, hrob, hm, hsp⟩ | ⟨hge, hr, hlv, d1, _, hsp, hbonus⟩
  · obtain ⟨_, h2, h3, _⟩ := spawn_person_spec g.robot g.mines g.obstacle draws.length draws
      g'.person rest (le_refl _) hsp
    refine ⟨hscore, fun _ => hr, fun hge => absurd hge (by omega), by rw [hrob], ?_, ?_, ?_⟩
    · rw [← hhead]
      exact h2
    · rw [hrob]
      exact h2
    · rw [hm]
      exact h3
  · obtain ⟨_, h2, h3, _⟩ := spawn_person_spec g'.robot g'.mines g.obstacle d1.length d1
      g'.person rest (le_refl _) hsp
    have hpos : g'.robot.pos = g.robot.pos := by
      rcases hbonus with ⟨_, _, hrob⟩ | ⟨_, _, hrob⟩
      · rw [hrob]
        rfl
      · rw [hrob]
    refine ⟨hscore, fun hlt => absurd hge (by omega), fun _ => ⟨hr, hlv⟩, hpos, ?_, h2, h3⟩
    rw [← hhead, ← hpos]
    exact h2

/-- C14 at the first rescue of the sample game: score 0 becomes 10, the counter 1, and the
person moves from `(10, 10)` to `(4, 5)`. -/
theorem rescue_counts_and_relocates_witness :
    rescue_step [3, 4] rescue_game = some (rescue_game_after, []) ∧
    (rescue_game_after.player.score = rescue_game.player.score + 10 ∧
    (rescue_game.player.rescued + 1 < PEOPLE_PER_LEVEL →
      rescue_game_after.player.rescued = rescue_game.player.rescued + 1) ∧
    (rescue_game.player.rescued + 1 ≥ PEOPLE_PER_LEVEL →
      rescue_game_after.player.rescued = 0 ∧
      rescue_game_after.player.level = rescue_game.player.level + 1) ∧
    rescue_game_after.robot.pos = rescue_game.robot.pos ∧
    rescue_game_after.person ≠ rescue_game.person ∧
    rescue_game_after.person ≠ rescue_game_after.robot.pos ∧
    rescue_game_after.person ∉ rescue_game_after.mines) :=
  ⟨rescue_game_step,
    rescue_counts_and_relocates [3, 4] [] rescue_game rescue_game_after (by decide)
      rescue_game_step⟩

/-- The segment loop of `reset_robot_body_from_lives`: the entries below `n` are written,
the others are kept. -/
theorem reset_fold_apply (seg : Nat → Position) :
    ∀ (n : Nat) (body : Nat → Position) (i : Nat),
      (List.range n).foldl (fun b j => Function.update b j (seg j)) body i =
        if i < n then seg i else body i := by
  intro n
  induction n with
  | zero =>
    intro body i
    simp
  | succ n ih =>
    intro body i
    rw [List.range_succ, List.foldl_append]
    simp only [List.foldl_cons, List.foldl_nil]
    by_cases hi : i = n
    · subst hi
      rw [Function.update_same, if_pos (Nat.lt_succ_self _)]
    · rw [Function.update_noteq hi, ih]
      by_cases hlt : i < n
      · rw [if_pos hlt, if_pos (Nat.lt_succ_of_lt hlt)]
      · rw [if_neg hlt, if_neg (by omega)]

/-- C17. For every integer `lives` (negative values and values above 20 included) and every
robot, `reset_robot_body_from_lives` sets `body_length` to `lives` clamped to
`[0, MAX_BODY_SEGMENTS]` and leaves the head position, the heading, the mode and the
invincibility fields unchanged. -/
theorem reset_body_clamps_and_frames (robot : Robot) (player : Player) :
    (reset_robot_body_from_lives robot player).body_length =
      max 0 (min player.lives MAX_BODY_SEGMENTS) ∧
    (reset_robot_body_from_lives robot player).pos = robot.pos ∧
    (reset_robot_body_from_lives robot player).direction = robot.direction ∧
    (reset_robot_body_from_lives robot player).ai_mode = robot.ai_mode ∧
    (reset_robot_body_from_lives robot player).invincible = robot.invincible ∧
    (reset_robot_body_from_lives robot player).invincible_ticks = robot.invincible_ticks :=
  ⟨clamp_body_length_eq player.lives, rfl, rfl, rfl, rfl, rfl⟩

/-- What `reset_robot_body_from_lives` writes: for every `i < body_length`, `body[i]` is the
cell `i + 1` steps behind the head when that cell lies in `[2, 47] x [2, 17]`, and the
head's own cell otherwise. -/
theorem reset_body_segments (robot : Robot) (player : Player) (i : Nat)
    (hi : (i : Int) < (reset_robot_body_from_lives robot player).body_length)
    (hdir : robot.direction = 'N' ∨ robot.direction = 'S' ∨ robot.direction = 'E' ∨
      robot.direction = 'W') :
    (reset_robot_body_from_lives robot player).body i =
      if 2 ≤ robot.pos.x - (direction_to_delta robot.direction).1 * ((i : Int) + 1) ∧
          robot.pos.x - (direction_to_delta robot.direction).1 * ((i : Int) + 1) ≤ 47 ∧
          2 ≤ robot.pos.y - (direction_to_delta robot.direction).2 * ((i : Int) + 1) ∧
          robot.pos.y - (direction_to_delta robot.direction).2 * ((i : Int) + 1) ≤ 17
      then ⟨robot.pos.x - (direction_to_delta robot.direction).1 * ((i : Int) + 1),
            robot.pos.y - (direction_to_delta robot.direction).2 * ((i : Int) + 1)⟩
      else robot.pos := by
  have hd : ¬ ((direction_to_delta robot.direction).1 = 0 ∧
      (direction_to_delta robot.direction).2 = 0) := by
    rcases hdir with h | h | h | h <;> rw [h] <;> decide
  have hlt : i < (clamp_body_length player.lives).toNat := by
    have : (i : Int) < clamp_body_length player.lives := hi
    omega
  show (List.range (clamp_body_length player.lives).toNat).foldl _ robot.body i = _
  rw [if_neg hd, reset_fold_apply, if_pos hlt]
  unfold reset_segment
  simp only [BOARD_COLS, BOARD_ROWS]
  split_ifs <;> first | rfl | omega

/-- C18, the code at a failing input.  For a head at `(2, 5)` heading east and three lives,
the cell one step behind the head is `(1, 5)`, a cell of the board interior
`[1, 48] x [1, 18]`; `reset_robot_body_from_lives` nevertheless stores the head's own
cell `(2, 5)` in `body[0]`, because its test is `bx <= 1`. -/
theorem reset_body_rejects_interior_cell :
    (0 : Int) < (reset_robot_body_from_lives robot_near_wall player_three_lives).body_length ∧
    in_interior ⟨1, 5⟩ ∧
    (reset_robot_body_from_lives robot_near_wall player_three_lives).body 0 = ⟨2, 5⟩ ∧
    (reset_robot_body_from_lives robot_near_wall player_three_lives).body 0 ≠ ⟨1, 5⟩ := by
  decide

/-- The shifting loop of `move_robot`: the entries `1 .. n` take the value of their
predecessor, the others are kept. -/
theorem shift_body_apply :
    ∀ (n : Nat) (body : Nat → Position) (i : Nat),
      shift_body body n i = if 1 ≤ i ∧ i ≤ n then body (i - 1) else body i := by
  intro n
  induction n with
  | zero =>
    intro body i
    rw [shift_body, if_neg (by omega)]
  | succ n ih =>
    intro body i
    rw [shift_body, ih]
    by_cases h1 : 1 ≤ i ∧ i ≤ n
    · rw [if_pos h1, if_pos ⟨h1.1, by omega⟩, Function.update_noteq (by omega)]
    · rw [if_neg h1]
      by_cases h2 : i = n + 1
      · subst h2
        rw [Function.update_same, if_pos ⟨by omega, le_refl _⟩]
        rfl
      · rw [Function.update_noteq h2, if_neg (by omega)]

/-- C19. For every robot with a heading among `N`, `S`, `E`, `W`, `move_robot` puts the old
head in `body[0]` (when `body_length > 0`), the old `body[i-1]` in `body[i]` for
`1 <= i < body_length`, and moves the head by the unit delta of the heading (`N`: `(0,-1)`,
`S`: `(0,1)`, `W`: `(-1,0)`, `E`: `(1,0)`); `body_length`, the heading, the mode and the
invincibility fields are unchanged. -/
theorem move_robot_shifts (robot : Robot)
    (_hdir : robot.direction = 'N' ∨ robot.direction = 'S' ∨ robot.direction = 'E' ∨
      robot.direction = 'W') :
    (0 < robot.body_length → (move_robot robot).body 0 = robot.pos) ∧
    (∀ i : Nat, 1 ≤ i → (i : Int) < robot.body_length →
      (move_robot robot).body i = robot.body (i - 1)) ∧
    (robot.direction = 'N' → (move_robot robot).pos = ⟨robot.pos.x, robot.pos.y - 1⟩) ∧
    (robot.direction = 'S' → (move_robot robot).pos = ⟨robot.pos.x, robot.pos.y + 1⟩) ∧
    (robot.direction = 'W' → (move_robot robot).pos = ⟨robot.pos.x - 1, robot.pos.y⟩) ∧
    (robot.direction = 'E' → (move_robot robot).pos = ⟨robot.pos.x + 1, robot.pos.y⟩) ∧
    (move_robot robot).body_length = robot.body_length ∧
    (move_robot robot).direction = robot.direction ∧
    (move_robot robot).ai_mode = robot.ai_mode ∧
    (move_robot robot).invincible = robot.invincible ∧
    (move_robot robot).invincible_ticks = robot.invincible_ticks := by
  refine ⟨?_, ?_, ?_, ?_, ?_, ?_, rfl, rfl, rfl, rfl, rfl⟩
  · intro hpos
    show (if robot.body_length > 0 then
        Function.update (shift_body robot.body (robot.body_length - 1).toNat) 0 robot.pos
      else shift_body robot.body (robot.body_length - 1).toNat) 0 = robot.pos
    rw [if_pos hpos, Function.update_same]
  · intro i h1 hlt
    have hpos : robot.body_length > 0 := by omega
    show (if robot.body_length > 0 then
        Function.update (shift_body robot.body (robot.body_length - 1).toNat) 0 robot.pos
      else shift_body robot.body (robot.body_length - 1).toNat) i = robot.body (i - 1)
    rw [if_pos hpos, Function.update_noteq (by omega), shift_body_apply,
      if_pos ⟨h1, by omega⟩]
  · intro h
    show (⟨robot.pos.x + (direction_to_delta robot.direction).1,
      robot.pos.y + (direction_to_delta robot.direction).2⟩ : Position) = _
    rw [h]
    simp [direction_to_delta]
    rfl
  · intro h
    show (⟨robot.pos.x + (direction_to_delta robot.direction).1,
      robot.pos.y + (direction_to_delta robot.direction).2⟩ : Position) = _
    rw [h]
    simp [direction_to_delta]
  · intro h
    show (⟨robot.pos.x + (direction_to_delta robot.direction).1,
      robot.pos.y + (direction_to_delta robot.direction).2⟩ : Position) = _
    rw [h]
    simp [direction_to_delta]
    rfl
  · intro h
    show (⟨robot.pos.x + (direction_to_delta robot.direction).1,
      robot.pos.y + (direction_to_delta robot.direction).2⟩ : Position) = _
    rw [h]
    simp [direction_to_delta]

/-- C19 at a robot heading west with three segments: the head moves to `(9, 10)`, the
segments follow. -/
theorem move_robot_shifts_witness :
    (move_robot robot_with_trail).pos = ⟨9, 10⟩ ∧
    (move_robot robot_with_trail).body 0 = ⟨10, 10⟩ ∧
    (move_robot robot_with_trail).body 1 = ⟨11, 10⟩ ∧
    (move_robot robot_with_trail).body 2 = ⟨12, 10⟩ ∧
    ((0 < robot_with_trail.body_length →
      (move_robot robot_with_trail).body 0 = robot_with_trail.pos) ∧
    (∀ i : Nat, 1 ≤ i → (i : Int) < robot_with_trail.body_length →
      (move_robot robot_with_trail).body i = robot_with_trail.body (i - 1)) ∧
    (robot_with_trail.direction = 'N' → (move_robot robot_with_trail).pos =
      ⟨robot_with_trail.pos.x, robot_with_trail.pos.y - 1⟩) ∧
    (robot_with_trail.direction = 'S' → (move_robot robot_with_trail).pos =
      ⟨robot_with_trail.pos.x, robot_with_trail.pos.y + 1⟩) ∧
    (robot_with_trail.direction = 'W' → (move_robot robot_with_trail).pos =
      ⟨robot_with_trail.pos.x - 1, robot_with_trail.pos.y⟩) ∧
    (robot_with_trail.direction = 'E' → (move_robot robot_with_trail).pos =
      ⟨robot_with_trail.pos.x + 1, robot_with_trail.pos.y⟩) ∧
    (move_robot robot_with_trail).body_length = robot_with_trail.body_length ∧
    (move_robot robot_with_trail).direction = robot_with_trail.direction ∧
    (move_robot robot_with_trail).ai_mode = robot_with_trail.ai_mode ∧
    (move_robot robot_with_trail).invincible = robot_with_trail.invincible ∧
    (move_robot robot_with_trail).invincible_ticks = robot_with_trail.invincible_ticks) :=
  ⟨by decide, by decide, by decide, by decide,
    move_robot_shifts robot_with_trail (by decide)⟩

/-! ## Blocked cells and lethal contact -/

/-- The wall test of the code is the wall test of the specification. -/
theorem wall_test_iff (x y : Int) :
    (x ≤ 0 ∨ x ≥ BOARD_COLS - 1 ∨ y ≤ 0 ∨ y ≥ BOARD_ROWS - 1) ↔ spec_is_wall x y := by
  unfold spec_is_wall BOARD_COLS BOARD_ROWS
  omega

/-- The blocked test of the planner in the words of the specification. -/
theorem is_blocked_cell_iff (x y : Int) (mines : List Position) (obstacle : CrossObstacle) :
    is_blocked_cell x y mines obstacle = true ↔ spec_is_blocked x y mines obstacle := by
  unfold is_blocked_cell spec_is_blocked
  rw [← wall_test_iff, ← is_mine_at_iff]
  by_cases hw : x ≤ 0 ∨ x ≥ BOARD_COLS - 1 ∨ y ≤ 0 ∨ y ≥ BOARD_ROWS - 1
  · rw [if_pos hw]
    exact ⟨fun _ => Or.inl hw, fun _ => rfl⟩
  · rw [if_neg hw]
    by_cases ho : is_obstacle_position obstacle x y = true
    · rw [if_pos ho]
      exact ⟨fun _ => Or.inr (Or.inl ho), fun _ => rfl⟩
    · rw [if_neg ho]
      by_cases hm : is_mine_at mines x y = true
      · rw [if_pos hm]
        exact ⟨fun _ => Or.inr (Or.inr hm), fun _ => rfl⟩
      · rw [if_neg hm]
        constructor
        · intro h
          exact absurd h (by decide)
        · rintro (h | h | h)
          · exact absurd h hw
          · exact absurd h ho
          · exact absurd h hm

/-- The lethal test of the collision check in the words of the specification. -/
theorem deadly_cell_iff_spec (x y : Int) (mines : List Position) (obstacle : CrossObstacle) :
    deadly_cell x y mines obstacle = true ↔ spec_is_blocked x y mines obstacle := by
  rw [deadly_cell_iff]
  unfold spec_is_blocked
  rw [← wall_test_iff]
  constructor
  · rintro (h | h | h)
    · exact Or.inl h
    · exact Or.inr (Or.inr h)
    · exact Or.inr (Or.inl h)
  · rintro (h | h | h)
    · exact Or.inl h
    · exact Or.inr (Or.inr h)
    · exact Or.inr (Or.inl h)

/-- The planner's blocked test and the lethal test of the collision check agree. -/
theorem blocked_eq_deadly (x y : Int) (mines : List Position) (obstacle : CrossObstacle) :
    is_blocked_cell x y mines obstacle = deadly_cell x y mines obstacle := by
  rw [Bool.eq_iff_iff, is_blocked_cell_iff, deadly_cell_iff_spec]

/-- C20. For every cell `(x, y)`, mine list and obstacle, `is_blocked_cell` is true exactly
when the cell lies on the 1-cell border or outside `[0, 50) x [0, 20)`, or is an obstacle
cell, or is in the mine list; the lethal test of `check_collision` is true under exactly
the same condition, so the two tests never disagree; and `check_collision` takes a life
from a non-invincible robot with its head at `(x, y)` exactly when `is_blocked_cell` is
true there, and otherwise changes nothing. -/
theorem blocked_iff_lethal (x y : Int) (mines : List Position) (obstacle : CrossObstacle) :
    (is_blocked_cell x y mines obstacle = true ↔ spec_is_blocked x y mines obstacle) ∧
    (deadly_cell x y mines obstacle = true ↔ spec_is_blocked x y mines obstacle) ∧
    is_blocked_cell x y mines obstacle = deadly_cell x y mines obstacle ∧
    ∀ (player : Player) (robot : Robot) (running : Bool),
      robot.pos = ⟨x, y⟩ → robot.invincible = false →
      ((check_collision player robot mines obstacle running).player.lives = player.lives - 1 ↔
        is_blocked_cell x y mines obstacle = true) ∧
      (is_blocked_cell x y mines obstacle = false →
        (check_collision player robot mines obstacle running).player = player ∧
        (check_collision player robot mines obstacle running).robot = robot ∧
        (check_collision player robot mines obstacle running).running = running ∧
        (check_collision player robot mines obstacle running).life_lost = false) := by
  refine ⟨is_blocked_cell_iff x y mines obstacle, deadly_cell_iff_spec x y mines obstacle,
    blocked_eq_deadly x y mines obstacle, ?_⟩
  intro player robot running hpos hinv
  rw [blocked_eq_deadly]
  have hx : robot.pos.x = x := by rw [hpos]
  have hy : robot.pos.y = y := by rw [hpos]
  by_cases hd : deadly_cell x y mines obstacle = true
  · refine ⟨⟨fun _ => hd, fun _ => ?_⟩, fun hf => absurd hd (by rw [hf]; decide)⟩
    unfold check_collision
    simp only [hx, hy, hd, hinv, Bool.not_false, Bool.and_self, if_true]
    by_cases hl : player.lives - 1 ≤ 0
    · rw [if_pos hl]
    · rw [if_neg hl]
  · have hd' : deadly_cell x y mines obstacle = false := by simpa using hd
    have hres : check_collision player robot mines obstacle running =
        { player := player, robot := robot, running := running, life_lost := false } := by
      unfold check_collision
      simp [hx, hy, hd', invincible_countdown, hinv]
    rw [hres]
    refine ⟨⟨fun h => ?_, fun h => absurd h hd⟩, fun _ => ⟨rfl, rfl, rfl, rfl⟩⟩
    simp only at h
    omega

/-! ## The random fallback of the AI -/

/-- The retry loop of `move_robot_ai` with enough draws returns the robot with its heading
set to the first drawn candidate whose destination is unblocked, or the robot as it was. -/
theorem ai_fallback_spec (robot : Robot) (mines : List Position) (obstacle : CrossObstacle) :
    ∀ (k : Nat) (draws : List Nat), k ≤ draws.length →
      ∃ rest, ai_fallback robot mines obstacle k draws =
        some (match ((draws.take k).map (fun r => ai_candidates.getD (r % 4) 'N')).find?
            (open_direction robot mines obstacle) with
          | some c => set_direction robot c
          | none => robot, rest) := by
  intro k
  induction k with
  | zero =>
    intro draws _
    exact ⟨draws, rfl⟩
  | succ k ih =>
    intro draws hlen
    cases draws with
    | nil => simp at hlen
    | cons r rest =>
      have hk : k ≤ rest.length := by simpa using hlen
      obtain ⟨rest', h⟩ := ih rest hk
      by_cases hb : open_direction robot mines obstacle (ai_candidates.getD (r % 4) 'N') = true
      · refine ⟨rest, ?_⟩
        have hb' := hb
        unfold open_direction step_to at hb'
        simp only [ai_fallback, List.take_succ_cons, List.map_cons, List.find?_cons, hb, hb',
          if_true]
      · refine ⟨rest', ?_⟩
        have hb' := hb
        unfold open_direction step_to at hb'
        simp only [ai_fallback, List.take_succ_cons, List.map_cons, List.find?_cons, hb, hb', h]
        rfl

/-- Every candidate direction is one of the four headings, and its step is the matching
neighbour. -/
theorem drawn_candidate_mem (r : Nat) : ai_candidates.getD (r % 4) 'N' ∈ ai_candidates := by
  have h : r % 4 < 4 := Nat.mod_lt _ (by decide)
  interval_cases (r % 4) <;> decide

/-- What `move_robot_ai` does when the search fails and four draws are at hand. -/
theorem move_robot_ai_fallback (draws : List Nat) (robot : Robot) (person : Position)
    (mines : List Position) (obstacle : CrossObstacle)
    (hbfs : bfs_next_direction robot person mines obstacle = none)
    (hlen : 4 ≤ draws.length) :
    ∃ rest, move_robot_ai draws robot (some person) mines obstacle =
      some (match (drawn_candidates draws).find? (open_direction robot mines obstacle) with
        | some c => set_direction robot c
        | none => robot, rest) := by
  unfold move_robot_ai
  simp only [hbfs]
  exact ai_fallback_spec robot mines obstacle 4 draws hlen

/-- When the search fails, a result of `move_robot_ai` is the robot with its heading either
kept or set to a drawn candidate with an unblocked destination. -/
theorem ai_fallback_result (robot : Robot) (mines : List Position) (obstacle : CrossObstacle) :
    ∀ (k : Nat) (draws : List Nat) (r : Robot) (rest : List Nat),
      ai_fallback robot mines obstacle k draws = some (r, rest) →
      r = robot ∨ ∃ c ∈ ai_candidates, r = set_direction robot c ∧
        open_direction robot mines obstacle c = true := by
  intro k
  induction k with
  | zero =>
    intro draws r rest h
    simp only [ai_fallback, Option.some.injEq, Prod.mk.injEq] at h
    exact Or.inl h.1.symm
  | succ k ih =>
    intro draws r rest h
    cases draws with
    | nil => simp [ai_fallback] at h
    | cons d ds =>
      by_cases hb : open_direction robot mines obstacle (ai_candidates.getD (d % 4) 'N') = true
      · have hb' := hb
        unfold open_direction step_to at hb'
        simp only [ai_fallback, hb', if_true, Option.some.injEq, Prod.mk.injEq] at h
        exact Or.inr ⟨_, drawn_candidate_mem d, h.1.symm, hb⟩
      · have hb' := hb
        unfold open_direction step_to at hb'
        simp only [ai_fallback, hb'] at h
        exact ih ds r rest h

/-- C26. Whenever `bfs_next_direction` fails, `move_robot_ai` returns (given four draws), and
the robot it returns differs from the robot it was given in the heading only; the heading
is either the old one or a direction whose destination cell is unblocked; and if all four
cells adjacent to the head are blocked the robot is returned unchanged. -/
theorem move_robot_ai_fallback_frame (draws : List Nat) (robot : Robot) (person : Position)
    (mines : List Position) (obstacle : CrossObstacle)
    (hbfs : bfs_next_direction robot person mines obstacle = none) :
    (4 ≤ draws.length → (move_robot_ai draws robot (some person) mines obstacle).isSome) ∧
    ∀ (r : Robot) (rest : List Nat),
      move_robot_ai draws robot (some person) mines obstacle = some (r, rest) →
      r = { robot with direction := r.direction } ∧
      (r.direction = robot.direction ∨
        is_blocked_cell (step_to robot.pos r.direction).x (step_to robot.pos r.direction).y
          mines obstacle = false) ∧
      ((∀ c ∈ ai_candidates,
          is_blocked_cell (step_to robot.pos c).x (step_to robot.pos c).y mines obstacle = true) →
        r = robot) := by
  constructor
  · intro hlen
    obtain ⟨rest, h⟩ := move_robot_ai_fallback draws robot person mines obstacle hbfs hlen
    rw [h]
    rfl
  · intro r rest h
    have hframe := move_robot_ai_frame draws robot (some person) mines obstacle r rest h
    unfold move_robot_ai at h
    simp only [hbfs] at h
    rcases ai_fallback_result robot mines obstacle 4 draws r rest h with h1 | ⟨c, hc, h1, h2⟩
    · exact ⟨hframe, Or.inl (by rw [h1]), fun _ => h1⟩
    · refine ⟨hframe, Or.inr ?_, fun hall => ?_⟩
      · rw [h1]
        simpa [open_direction, set_direction] using h2
      · have := hall c hc
        simp [open_direction, this] at h2

/-- C26 at the anchor closed in by `pocket_mines`, where the search fails: with the draws
`[2, 0, 0, 0]` the first candidate is `E`, whose destination `(11, 10)` is free. -/
theorem move_robot_ai_fallback_frame_witness :
    bfs_next_direction robot_at_anchor ⟨4, 5⟩ pocket_mines init_obstacle = none ∧
    (move_robot_ai [2, 0, 0, 0] robot_at_anchor (some ⟨4, 5⟩) pocket_mines init_obstacle).map
      (fun r => (r.1.direction, r.2)) = some ('E', [0, 0, 0]) ∧
    ((4 ≤ [2, 0, 0, 0].length →
      (move_robot_ai [2, 0, 0, 0] robot_at_anchor (some ⟨4, 5⟩) pocket_mines
        init_obstacle).isSome) ∧
    ∀ (r : Robot) (rest : List Nat),
      move_robot_ai [2, 0, 0, 0] robot_at_anchor (some ⟨4, 5⟩) pocket_mines init_obstacle
        = some (r, rest) →
      r = { robot_at_anchor with direction := r.direction } ∧
      (r.direction = robot_at_anchor.direction ∨
        is_blocked_cell (step_to robot_at_anchor.pos r.direction).x
          (step_to robot_at_anchor.pos r.direction).y pocket_mines init_obstacle = false) ∧
      ((∀ c ∈ ai_candidates,
          is_blocked_cell (step_to robot_at_anchor.pos c).x (step_to robot_at_anchor.pos c).y
            pocket_mines init_obstacle = true) →
        r = robot_at_anchor)) :=
  ⟨by decide!, by decide!,
    move_robot_ai_fallback_frame [2, 0, 0, 0] robot_at_anchor ⟨4, 5⟩ pocket_mines init_obstacle
      (by decide!)⟩

/-- Counterexample to C23: at the anchor closed in by `pocket_mines` the search fails and the
cell `(11, 10)` east of the head is unblocked, yet when all four draws select `N` (blocked
by the mine at `(10, 9)`) `move_robot_ai` leaves the heading `W`, whose destination
`(9, 10)` is a mine. -/
theorem fallback_can_miss_open_cell :
    bfs_next_direction robot_at_anchor ⟨4, 5⟩ pocket_mines init_obstacle = none ∧
    is_blocked_cell (step_to robot_at_anchor.pos 'E').x (step_to robot_at_anchor.pos 'E').y
      pocket_mines init_obstacle = false ∧
    (move_robot_ai [0, 0, 0, 0] robot_at_anchor (some ⟨4, 5⟩) pocket_mines init_obstacle).map
      (fun r => (r.1.direction, r.2)) = some ('W', []) ∧
    is_blocked_cell (step_to robot_at_anchor.pos 'W').x (step_to robot_at_anchor.pos 'W').y
      pocket_mines init_obstacle = true ∧
    ¬ ∀ (draws : List Nat) (r : Robot) (rest : List Nat),
      move_robot_ai draws robot_at_anchor (some ⟨4, 5⟩) pocket_mines init_obstacle
        = some (r, rest) →
      is_blocked_cell (step_to robot_at_anchor.pos r.direction).x
        (step_to robot_at_anchor.pos r.direction).y pocket_mines init_obstacle = false := by
  have hnone : bfs_next_direction robot_at_anchor ⟨4, 5⟩ pocket_mines init_obstacle = none := by
    decide!
  refine ⟨hnone, by decide!, by decide!, by decide!, fun hall => ?_⟩
  obtain ⟨rest, h⟩ := move_robot_ai_fallback [0, 0, 0, 0] robot_at_anchor ⟨4, 5⟩ pocket_mines
    init_obstacle hnone (by decide)
  have hfind : (drawn_candidates [0, 0, 0, 0]).find?
      (open_direction robot_at_anchor pocket_mines init_obstacle) = none := by decide!
  rw [hfind] at h
  exact absurd (hall _ _ _ h) (by decide!)

/-- C23, amended. Whenever `bfs_next_direction` fails and four draws are at hand,
`move_robot_ai` returns the robot with no field changed but the heading, and the heading
is decided by the four candidates `candidates[rand() % 4]` it draws: if one of them has an
unblocked destination, the heading is the first such candidate (so its destination is
unblocked); if all of them have a blocked destination, the robot is returned unchanged. -/
theorem move_robot_ai_fallback_first (draws : List Nat) (robot : Robot) (person : Position)
    (mines : List Position) (obstacle : CrossObstacle)
    (hbfs : bfs_next_direction robot person mines obstacle = none)
    (hlen : 4 ≤ draws.length) :
    ∃ (r : Robot) (rest : List Nat),
      move_robot_ai draws robot (some person) mines obstacle = some (r, rest) ∧
      r = { robot with direction := r.direction } ∧
      (∀ c, (drawn_candidates draws).find? (open_direction robot mines obstacle) = some c →
        r.direction = c ∧
        is_blocked_cell (step_to robot.pos r.direction).x (step_to robot.pos r.direction).y
          mines obstacle = false) ∧
      ((∃ c ∈ drawn_candidates draws,
          is_blocked_cell (step_to robot.pos c).x (step_to robot.pos c).y mines obstacle
            = false) →
        is_blocked_cell (step_to robot.pos r.direction).x (step_to robot.pos r.direction).y
          mines obstacle = false) ∧
      ((∀ c ∈ drawn_candidates draws,
          is_blocked_cell (step_to robot.pos c).x (step_to robot.pos c).y mines obstacle
            = true) →
        r = robot) := by
  obtain ⟨rest, h⟩ := move_robot_ai_fallback draws robot person mines obstacle hbfs hlen
  refine ⟨_, rest, h, ?_, ?_, ?_, ?_⟩
  · split <;> rfl
  · intro c hc
    rw [hc]
    have := List.find?_some hc
    exact ⟨rfl, by simpa [open_direction, set_direction] using this⟩
  · rintro ⟨c, hc, hfree⟩
    cases hf : (drawn_candidates draws).find? (open_direction robot mines obstacle) with
    | none =>
      have := List.find?_eq_none.1 hf c hc
      simp [open_direction, hfree] at this
    | some c' =>
      have := List.find?_some hf
      simpa [open_direction, set_direction] using this
  · intro hall
    have hf : (drawn_candidates draws).find? (open_direction robot mines obstacle) = none := by
      rw [List.find?_eq_none]
      intro c hc
      simp [open_direction, hall c hc]
    rw [hf]

/-- C23, amended, at the anchor closed in by `pocket_mines`: with the draws `[0, 2, 0, 0]`
the candidates are `N, E, N, N`, and the heading becomes `E`, the first with a free
destination. -/
theorem move_robot_ai_fallback_first_witness :
    (drawn_candidates [0, 2, 0, 0]).find?
      (open_direction robot_at_anchor pocket_mines init_obstacle) = some 'E' ∧
    ∃ (r : Robot) (rest : List Nat),
      move_robot_ai [0, 2, 0, 0] robot_at_anchor (some ⟨4, 5⟩) pocket_mines init_obstacle
        = some (r, rest) ∧
      r = { robot_at_anchor with direction := r.direction } ∧
      (∀ c, (drawn_candidates [0, 2, 0, 0]).find?
          (open_direction robot_at_anchor pocket_mines init_obstacle) = some c →
        r.direction = c ∧
        is_blocked_cell (step_to robot_at_anchor.pos r.direction).x
          (step_to robot_at_anchor.pos r.direction).y pocket_mines init_obstacle = false) ∧
      ((∃ c ∈ drawn_candidates [0, 2, 0, 0],
          is_blocked_cell (step_to robot_at_anchor.pos c).x (step_to robot_at_anchor.pos c).y
            pocket_mines init_obstacle = false) →
        is_blocked_cell (step_to robot_at_anchor.pos r.direction).x
          (step_to robot_at_anchor.pos r.direction).y pocket_mines init_obstacle = false) ∧
      ((∀ c ∈ drawn_candidates [0, 2, 0, 0],
          is_blocked_cell (step_to robot_at_anchor.pos c).x (step_to robot_at_anchor.pos c).y
            pocket_mines init_obstacle = true) →
        r = robot_at_anchor) :=
  ⟨by decide!,
    move_robot_ai_fallback_first [0, 2, 0, 0] robot_at_anchor ⟨4, 5⟩ pocket_mines init_obstacle
      (by decide!) (by decide)⟩

/-! ## The body as a trail -/

/-- The effect of `move_robot` on the segment `body[i]`, for `i` below `body_length`. -/
theorem move_robot_body (robot : Robot) (i : Nat) (hi : (i : Int) < robot.body_length) :
    (move_robot robot).body i = if i = 0 then robot.pos else robot.body (i - 1) := by
  have hlen : robot.body_length > 0 := by omega
  show (if robot.body_length > 0 then
      Function.update (shift_body robot.body (robot.body_length - 1).toNat) 0 robot.pos
    else shift_body robot.body (robot.body_length - 1).toNat) i = _
  rw [if_pos hlen]
  by_cases h0 : i = 0
  · rw [if_pos h0, h0, Function.update_same]
  · rw [if_neg h0, Function.update_noteq h0, shift_body_apply, if_pos ⟨by omega, by omega⟩]

/-- C27. Let `t 0, t 1, ...` be the robot after 0, 1, ... calls of `move_robot`, where
between two calls the fields other than `pos`, `body` and `body_length` may change
(`between k` is the robot handed to the call number `k + 1`).  Then after `n` calls,
for every `i < min(n, body_length)`, the segment `body[i]` is the position the head had
`i + 1` moves earlier, and `body_length` has not changed. -/
theorem body_is_trail (t between : Nat → Robot)
    (hb : ∀ k, (between k).pos = (t k).pos ∧ (between k).body = (t k).body ∧
      (between k).body_length = (t k).body_length)
    (hm : ∀ k, t (k + 1) = move_robot (between k)) :
    ∀ n, (t n).body_length = (t 0).body_length ∧
      ∀ i, i < n → (i : Int) < (t 0).body_length → (t n).body i = (t (n - 1 - i)).pos := by
  intro n
  induction n with
  | zero => exact ⟨rfl, fun i hi => absurd hi (Nat.not_lt_zero i)⟩
  | succ n ih =>
    obtain ⟨hlen, ih⟩ := ih
    obtain ⟨hpos, hbody, hbl⟩ := hb n
    have hlen' : (t (n + 1)).body_length = (t 0).body_length := by
      rw [hm n, ← hlen, ← hbl]
      rfl
    refine ⟨hlen', fun i hi hil => ?_⟩
    rw [hm n, move_robot_body (between n) i (by rw [hbl, hlen]; exact hil)]
    by_cases h0 : i = 0
    · rw [if_pos h0, hpos, h0]
      rfl
    · rw [if_neg h0, hbody, ih (i - 1) (by omega) (by omega)]
      congr 2
      omega

/-- C27 on the sample robot `robot_with_trail` (three segments, head at `(10, 10)`, heading
west) moved three times without any change in between: the head is at `(7, 10)` and the
three segments are the three earlier head positions `(8, 10)`, `(9, 10)`, `(10, 10)`. -/
theorem body_is_trail_witness :
    ((move_robot^[3]) robot_with_trail).pos = ⟨7, 10⟩ ∧
    ((move_robot^[2]) robot_with_trail).pos = ⟨8, 10⟩ ∧
    ((move_robot^[1]) robot_with_trail).pos = ⟨9, 10⟩ ∧
    ((move_robot^[0]) robot_with_trail).pos = ⟨10, 10⟩ ∧
    ((move_robot^[3]) robot_with_trail).body_length = ((move_robot^[0]) robot_with_trail).body_length ∧
    ∀ i : Nat, i < 3 → (i : Int) < ((move_robot^[0]) robot_with_trail).body_length →
      ((move_robot^[3]) robot_with_trail).body i =
        ((move_robot^[3 - 1 - i]) robot_with_trail).pos :=
  ⟨by decide, by decide, by decide, by decide,
    body_is_trail (fun n => (move_robot^[n]) robot_with_trail)
      (fun n => (move_robot^[n]) robot_with_trail) (fun _ => ⟨rfl, rfl, rfl⟩)
      (fun k => Function.iterate_succ_apply' move_robot k robot_with_trail) 3⟩

/-! ## A planned step is a safe step -/

/-- The test of `check_collision` is false on a cell that `is_blocked_cell` does not block,
so the call changes neither the player nor `running` and reports no lost life. -/
theorem check_collision_unblocked (player : Player) (robot : Robot) (mines : List Position)
    (obstacle : CrossObstacle) (running : Bool)
    (h : is_blocked_cell robot.pos.x robot.pos.y mines obstacle = false) :
    check_collision player robot mines obstacle running =
      { player := player, robot := invincible_countdown robot, running := running,
        life_lost := false } := by
  rw [blocked_eq_deadly] at h
  unfold check_collision
  simp only [h, Bool.false_and]
  rfl

/-- C28. In AI mode, on a tick on which `bfs_next_direction` succeeds with direction `d`
from a head inside the grid, `move_robot_ai` sets the heading to `d` and draws nothing,
the head after `move_robot` is the neighbour in direction `d`, which is in the board
interior (not a wall cell), is not a mine and is not an obstacle cell; `check_collision`
then leaves the player (all lives) and `running` as they were and reports no lost life,
and the tick goes on to the rescue block. -/
theorem ai_step_is_safe (g : Game) (quit_on_pause : Bool) (draws : List Nat) (d : Char)
    (hai : g.robot.ai_mode = true)
    (_hhead : 0 ≤ g.robot.pos.x ∧ g.robot.pos.x < BOARD_COLS ∧ 0 ≤ g.robot.pos.y ∧
      g.robot.pos.y < BOARD_ROWS)
    (hbfs : bfs_next_direction g.robot g.person g.mines g.obstacle = some d) :
    tick_direction draws g = some (set_direction g.robot d, draws) ∧
    (move_robot (set_direction g.robot d)).pos = step_to g.robot.pos d ∧
    in_interior (move_robot (set_direction g.robot d)).pos ∧
    (move_robot (set_direction g.robot d)).pos ∉ g.mines ∧
    is_obstacle_position g.obstacle (move_robot (set_direction g.robot d)).pos.x
      (move_robot (set_direction g.robot d)).pos.y = false ∧
    (check_collision g.player (move_robot (set_direction g.robot d)) g.mines g.obstacle
      g.running).player = g.player ∧
    (check_collision g.player (move_robot (set_direction g.robot d)) g.mines g.obstacle
      g.running).running = g.running ∧
    (check_collision g.player (move_robot (set_direction g.robot d)) g.mines g.obstacle
      g.running).life_lost = false ∧
    (g.running = true → 0 < g.player.lives →
      tick_settle quit_on_pause draws g (move_robot (set_direction g.robot d)) =
        rescue_step draws
          { g with robot := invincible_countdown (move_robot (set_direction g.robot d)) }) := by
  obtain ⟨_, _, hout⟩ := bfs_outcome g.robot g.person g.mines g.obstacle
  rcases hout with ⟨hnone, _⟩ | ⟨d', n, hsome, _, hstep, _, _⟩
  · rw [hnone] at hbfs
    exact absurd hbfs (by simp)
  · rw [hbfs] at hsome
    cases Option.some.inj hsome
    have hpos : (move_robot (set_direction g.robot d)).pos = step_to g.robot.pos d := rfl
    have hfree : is_blocked_cell (move_robot (set_direction g.robot d)).pos.x
        (move_robot (set_direction g.robot d)).pos.y g.mines g.obstacle = false := by
      rw [hpos]
      exact hstep.2
    have hcc := check_collision_unblocked g.player (move_robot (set_direction g.robot d))
      g.mines g.obstacle g.running hfree
    have hnb : ¬ (is_blocked_cell (move_robot (set_direction g.robot d)).pos.x
        (move_robot (set_direction g.robot d)).pos.y g.mines g.obstacle = true) := by
      rw [hfree]
      decide
    rw [is_blocked_cell_iff] at hnb
    unfold spec_is_blocked at hnb
    refine ⟨?_, hpos, not_blocked_interior _ _ _ _ hfree, fun hm => hnb (Or.inr (Or.inr hm)),
      ?_, by rw [hcc], by rw [hcc], by rw [hcc], ?_⟩
    · unfold tick_direction move_robot_ai
      rw [if_pos hai]
      simp only [hbfs]
    · cases ho : is_obstacle_position g.obstacle (move_robot (set_direction g.robot d)).pos.x
        (move_robot (set_direction g.robot d)).pos.y
      · rfl
      · exact absurd (Or.inr (Or.inl ho)) hnb
    · intro hrun hlives
      unfold tick_settle
      simp only [hcc]
      rw [if_neg (by simp only [hrun, Bool.not_true, Bool.false_eq_true, false_or]; omega)]
      simp only [Bool.false_eq_true, if_false]

/-- The search at the second sample start state answers `N`. -/
theorem near_game_plan :
    bfs_next_direction near_game.robot near_game.person near_game.mines
      near_game.obstacle = some 'N' := by decide!

/-- C28 at the second sample start state: the head is at `(10, 10)`, the person at
`(10, 8)` and a mine lies west of the head; the search answers `N`, and the step north is
safe. -/
theorem ai_step_is_safe_witness :
    bfs_next_direction near_game.robot near_game.person near_game.mines
      near_game.obstacle = some 'N' ∧
    (tick_direction [] near_game = some (set_direction near_game.robot 'N', []) ∧
    (move_robot (set_direction near_game.robot 'N')).pos = step_to near_game.robot.pos 'N' ∧
    in_interior (move_robot (set_direction near_game.robot 'N')).pos ∧
    (move_robot (set_direction near_game.robot 'N')).pos ∉ near_game.mines ∧
    is_obstacle_position near_game.obstacle (move_robot (set_direction near_game.robot 'N')).pos.x
      (move_robot (set_direction near_game.robot 'N')).pos.y = false ∧
    (check_collision near_game.player (move_robot (set_direction near_game.robot 'N'))
      near_game.mines near_game.obstacle near_game.running).player = near_game.player ∧
    (check_collision near_game.player (move_robot (set_direction near_game.robot 'N'))
      near_game.mines near_game.obstacle near_game.running).running = near_game.running ∧
    (check_collision near_game.player (move_robot (set_direction near_game.robot 'N'))
      near_game.mines near_game.obstacle near_game.running).life_lost = false ∧
    (near_game.running = true → 0 < near_game.player.lives →
      tick_settle false [] near_game (move_robot (set_direction near_game.robot 'N')) =
        rescue_step []
          { near_game with
            robot := invincible_countdown (move_robot (set_direction near_game.robot 'N')) })) :=
  ⟨near_game_plan,
    ai_step_is_safe near_game false [] 'N' (by decide!) (by decide!) near_game_plan⟩

/-! ## The passes of the game loop, case by case -/

/-- `handle_input` writes only the heading and the mode of the robot. -/
theorem handle_input_frame (robot : Robot) (input : Int) (running : Bool) :
    (handle_input robot input running).1.pos = robot.pos ∧
    (handle_input robot input running).1.body_length = robot.body_length ∧
    (handle_input robot input running).1.body = robot.body ∧
    (handle_input robot input running).1.invincible = robot.invincible := by
  unfold handle_input
  repeat' split
  all_goals simp [set_direction]

/-- The bomb writes only the level of the player. -/
theorem bomb_mines_player (player : Player) (robot : Robot) (mines : List Position) :
    (bomb_mines player robot mines).1.lives = player.lives := by
  unfold bomb_mines
  split
  · rfl
  · simp only
    split <;> rfl

/-- The key handling of a pass keeps the head, the body, the lives, the person and the
obstacle, and never adds a mine. -/
theorem tick_input_frame (ch : Int) (g : Game) :
    (tick_input ch g).robot.pos = g.robot.pos ∧
    (tick_input ch g).robot.body_length = g.robot.body_length ∧
    (tick_input ch g).robot.invincible = g.robot.invincible ∧
    (tick_input ch g).player.lives = g.player.lives ∧
    (tick_input ch g).person = g.person ∧
    (tick_input ch g).obstacle = g.obstacle ∧
    (tick_input ch g).mines.Sublist g.mines := by
  unfold tick_input
  split
  · split
    · exact ⟨rfl, rfl, rfl, bomb_mines_player _ _ _, rfl, rfl, bomb_mines_sublist _ _ _⟩
    · exact ⟨rfl, rfl, rfl, rfl, rfl, rfl, List.Sublist.refl _⟩
  · obtain ⟨h1, h2, _, h4⟩ := handle_input_frame g.robot ch g.running
    exact ⟨h1, h2, h4, rfl, rfl, rfl, List.Sublist.refl _⟩

/-- The choice of the heading writes only the heading. -/
theorem tick_direction_frame (draws rest : List Nat) (g : Game) (r : Robot)
    (h : tick_direction draws g = some (r, rest)) :
    r = { g.robot with direction := r.direction } := by
  unfold tick_direction at h
  split at h
  · exact move_robot_ai_frame _ _ _ _ _ _ _ h
  · simp only [Option.some.injEq, Prod.mk.injEq] at h
    rw [← h.1]

/-- The countdown of the invincibility period keeps the head and the body. -/
theorem invincible_countdown_frame (robot : Robot) :
    (invincible_countdown robot).pos = robot.pos ∧
    (invincible_countdown robot).body_length = robot.body_length := by
  unfold invincible_countdown
  split
  · simp only
    split <;> exact ⟨rfl, rfl⟩
  · exact ⟨rfl, rfl⟩

/-- The three ways through `check_collision`: game over, loss of a life with respawn, and
no loss. -/
theorem check_collision_cases (player : Player) (robot : Robot) (mines : List Position)
    (obstacle : CrossObstacle) (running : Bool) :
    (deadly_cell robot.pos.x robot.pos.y mines obstacle = true ∧ robot.invincible = false ∧
      player.lives - 1 ≤ 0 ∧
      check_collision player robot mines obstacle running =
        { player := { player with lives := player.lives - 1 }, robot := robot,
          running := false, life_lost := false }) ∨
    (deadly_cell robot.pos.x robot.pos.y mines obstacle = true ∧ robot.invincible = false ∧
      0 < player.lives - 1 ∧
      check_collision player robot mines obstacle running =
        { player := { player with lives := player.lives - 1 },
          robot := invincible_countdown (reset_robot_body_from_lives
            { robot with invincible := true, invincible_ticks := INVINCIBLE_TICKS,
                         pos := find_safe_spawn_position mines obstacle }
            { player with lives := player.lives - 1 }),
          running := running, life_lost := true }) ∨
    ((deadly_cell robot.pos.x robot.pos.y mines obstacle = false ∨ robot.invincible = true) ∧
      check_collision player robot mines obstacle running =
        { player := player, robot := invincible_countdown robot, running := running,
          life_lost := false }) := by
  unfold check_collision
  cases hd : deadly_cell robot.pos.x robot.pos.y mines obstacle
  · exact Or.inr (Or.inr ⟨Or.inl rfl, by simp⟩)
  · cases hi : robot.invincible
    · by_cases hl : player.lives - 1 ≤ 0
      · refine Or.inl ⟨rfl, rfl, hl, ?_⟩
        simp only [hi, Bool.not_false, Bool.and_self, if_true]
        rw [if_pos hl]
      · refine Or.inr (Or.inl ⟨rfl, rfl, by omega, ?_⟩)
        simp only [hi, Bool.not_false, Bool.and_self, if_true]
        rw [if_neg hl]
    · exact Or.inr (Or.inr ⟨Or.inr rfl, by simp⟩)

/-- The part of a pass after the move: either the pass ends at the collision (game over,
or a lost life), leaving what `check_collision` left, or it goes on to the rescue block. -/
theorem tick_settle_cases (quit_on_pause : Bool) (draws rest : List Nat) (g g' : Game)
    (robot : Robot) (h : tick_settle quit_on_pause draws g robot = some (g', rest)) :
    (((check_collision g.player robot g.mines g.obstacle g.running).running = false ∨
        (check_collision g.player robot g.mines g.obstacle g.running).player.lives ≤ 0 ∨
        (check_collision g.player robot g.mines g.obstacle g.running).life_lost = true) ∧
      g'.player = (check_collision g.player robot g.mines g.obstacle g.running).player ∧
      g'.robot = (check_collision g.player robot g.mines g.obstacle g.running).robot ∧
      g'.person = g.person ∧ g'.mines = g.mines ∧ g'.obstacle = g.obstacle ∧
      (g'.running = (check_collision g.player robot g.mines g.obstacle g.running).running ∨
        g'.running = false)) ∨
    ((check_collision g.player robot g.mines g.obstacle g.running).running = true ∧
      0 < (check_collision g.player robot g.mines g.obstacle g.running).player.lives ∧
      (check_collision g.player robot g.mines g.obstacle g.running).life_lost = false ∧
      rescue_step draws
        { g with
          player := (check_collision g.player robot g.mines g.obstacle g.running).player
          robot := (check_collision g.player robot g.mines g.obstacle g.running).robot
          running := (check_collision g.player robot g.mines g.obstacle g.running).running }
        = some (g', rest)) := by
  unfold tick_settle at h
  simp only at h
  split at h
  · rename_i hend
    simp only [Option.some.injEq, Prod.mk.injEq] at h
    rw [← h.1]
    refine Or.inl ⟨?_, rfl, rfl, rfl, rfl, rfl, Or.inl rfl⟩
    rcases hend with hend | hend
    · left
      simpa using hend
    · exact Or.inr (Or.inl hend)
  · rename_i hend
    split at h
    · rename_i hlost
      split at h
      all_goals
        simp only [Option.some.injEq, Prod.mk.injEq] at h
        rw [← h.1]
      · exact Or.inl ⟨Or.inr (Or.inr hlost), rfl, rfl, rfl, rfl, rfl, Or.inr rfl⟩
      · exact Or.inl ⟨Or.inr (Or.inr hlost), rfl, rfl, rfl, rfl, rfl, Or.inl rfl⟩
    · rename_i hlost
      refine Or.inr ⟨?_, ?_, ?_, h⟩
      · by_contra hr
        exact hend (Or.inl (by simpa using hr))
      · by_contra hl
        exact hend (Or.inr (by omega))
      · simpa using hlost

/-- A pass of the loop either stops at the key handling (quit), or moves the robot that
the key handling and the choice of the heading left and settles the move. -/
theorem game_tick_cases (ch : Int) (quit_on_pause : Bool) (draws rest : List Nat)
    (g g' : Game) (h : game_tick ch quit_on_pause draws g = some (g', rest)) :
    ((tick_input ch g).running = false ∧ g' = tick_input ch g) ∨
    ((tick_input ch g).running = true ∧ ∃ (r : Robot) (draws' : List Nat),
      tick_direction draws (tick_input ch g) = some (r, draws') ∧
      tick_settle quit_on_pause draws' (tick_input ch g) (move_robot r) = some (g', rest)) := by
  unfold game_tick at h
  simp only at h
  split at h
  · rename_i hr
    simp only [Option.some.injEq, Prod.mk.injEq] at h
    exact Or.inl ⟨by simpa using hr, h.1.symm⟩
  · rename_i hr
    split at h
    · simp at h
    · rename_i r draws' hd
      exact Or.inr ⟨by simpa using hr, r, draws', hd, h⟩

/-- The states that a run of passes reaches from a state of the game loop are states of
the game loop. -/
theorem play_reachable : ∀ (keys : List (Int × Bool)) (draws rest : List Nat) (g g' : Game),
    Reachable g → play keys draws g = some (g', rest) → Reachable g' := by
  intro keys
  induction keys with
  | nil =>
    intro draws rest g g' hg h
    simp only [play, Option.some.injEq, Prod.mk.injEq] at h
    rw [← h.1]
    exact hg
  | cons k keys ih =>
    intro draws rest g g' hg h
    obtain ⟨ch, q⟩ := k
    unfold play at h
    split at h
    · rename_i hgo
      split at h
      · simp at h
      · rename_i g1 draws1 ht
        exact ih draws1 rest g1 g' (Reachable.tick ch q draws draws1 g g1 hg hgo.1 hgo.2 ht) h
    · simp at h

/-- The states that a game reaches from the start of `main` are states of the game loop. -/
theorem play_from_start_reachable (body : Nat → Position) (draws rest : List Nat)
    (keys : List (Int × Bool)) (g : Game)
    (h : play_from_start body draws keys = some (g, rest)) : Reachable g := by
  unfold play_from_start at h
  split at h
  · simp at h
  · rename_i g0 draws0 h0
    exact play_reachable keys draws0 rest g0 g (Reachable.init body draws draws0 g0 h0) h

/-! ## Body length and lives along the game -/

/-- The block "Saving people" away from the person does nothing. -/
theorem rescue_step_miss (draws rest : List Nat) (g g' : Game)
    (hhead : ¬ (g.robot.pos.x = g.person.x ∧ g.robot.pos.y = g.person.y))
    (h : rescue_step draws g = some (g', rest)) : g' = g ∧ rest = draws := by
  unfold rescue_step at h
  rw [if_neg hhead] at h
  simp only [Option.some.injEq, Prod.mk.injEq] at h
  exact ⟨h.1.symm, h.2.symm⟩

/-- The block "Saving people" keeps the body as long as the lives say, and takes no life. -/
theorem rescue_step_body (draws rest : List Nat) (g g' : Game)
    (h : rescue_step draws g = some (g', rest)) (hl : 0 < g.player.lives)
    (hb : g.robot.body_length = clamp_body_length g.player.lives) :
    0 < g'.player.lives ∧ g'.robot.body_length = clamp_body_length g'.player.lives := by
  by_cases hhead : g.robot.pos.x = g.person.x ∧ g.robot.pos.y = g.person.y
  · obtain ⟨_, _, _, hc⟩ := rescue_step_cases draws rest g g' hhead h
    rcases hc with ⟨_, _, _, h1, h2, _⟩ | ⟨_, _, _, _, _, _, hc⟩
    · rw [h1, h2]
      exact ⟨hl, hb⟩
    · rcases hc with ⟨_, h1, h2⟩ | ⟨_, h1, h2⟩
      · refine ⟨?_, ?_⟩
        · rw [h1]
          split
          · decide
          · omega
        · rw [h2]
          rfl
      · rw [h1, h2]
        exact ⟨hl, hb⟩
  · obtain ⟨h1, _⟩ := rescue_step_miss draws rest g g' hhead h
    rw [h1]
    exact ⟨hl, hb⟩

/-- A pass of the loop entered with a life left and the body as long as the lives say
leaves either such a state again, or the end of the game with no life and one segment. -/
theorem game_tick_body (ch : Int) (quit_on_pause : Bool) (draws rest : List Nat)
    (g g' : Game) (h : game_tick ch quit_on_pause draws g = some (g', rest))
    (hl : 0 < g.player.lives)
    (hb : g.robot.body_length = clamp_body_length g.player.lives) :
    (0 < g'.player.lives ∧ g'.robot.body_length = clamp_body_length g'.player.lives) ∨
    (g'.player.lives = 0 ∧ g'.running = false ∧ g'.robot.body_length = 1) := by
  obtain ⟨_, hf2, _, hf4, _, _, _⟩ := tick_input_frame ch g
  rcases game_tick_cases ch quit_on_pause draws rest g g' h with ⟨_, hq⟩ | ⟨_, r, draws', hd, hs⟩
  · rw [hq, hf2, hf4]
    exact Or.inl ⟨hl, hb⟩
  · have hr := tick_direction_frame draws draws' (tick_input ch g) r hd
    have hrb : (move_robot r).body_length = g.robot.body_length := by
      rw [← hf2, hr]
      rfl
    have hcases := check_collision_cases (tick_input ch g).player (move_robot r)
      (tick_input ch g).mines (tick_input ch g).obstacle (tick_input ch g).running
    have hsc := tick_settle_cases quit_on_pause draws' rest (tick_input ch g) g' (move_robot r) hs
    generalize check_collision (tick_input ch g).player (move_robot r)
      (tick_input ch g).mines (tick_input ch g).obstacle (tick_input ch g).running = c at *
    rcases hcases with ⟨_, _, hlast, hc⟩ | ⟨_, _, hmore, hc⟩ | ⟨_, hc⟩
    · -- game over
      rcases hsc with ⟨_, hp, hrob, _, _, _, hrun⟩ | ⟨hrun, _⟩
      · right
        have h1 : g.player.lives = 1 := by omega
        refine ⟨?_, ?_, ?_⟩
        · rw [hp, hc]
          show (tick_input ch g).player.lives - 1 = 0
          omega
        · rcases hrun with hrun | hrun
          · rw [hrun, hc]
          · exact hrun
        · rw [hrob, hc]
          show (move_robot r).body_length = 1
          rw [hrb, hb, h1]
          decide
      · rw [hc] at hrun
        exact absurd hrun (by simp)
    · -- a life lost, respawn
      rcases hsc with ⟨_, hp, hrob, _, _, _, _⟩ | ⟨_, _, hlost, _⟩
      · left
        rw [hp, hrob, hc]
        exact ⟨hmore, (invincible_countdown_frame _).2⟩
      · rw [hc] at hlost
        exact absurd hlost (by simp)
    · -- no loss
      have hkeep : 0 < c.player.lives ∧ c.robot.body_length = clamp_body_length c.player.lives := by
        rw [hc]
        refine ⟨by show 0 < (tick_input ch g).player.lives; omega, ?_⟩
        show (invincible_countdown (move_robot r)).body_length =
          clamp_body_length (tick_input ch g).player.lives
        rw [(invincible_countdown_frame _).2, hrb, hb, hf4]
      rcases hsc with ⟨_, hp, hrob, _, _, _, _⟩ | ⟨_, _, _, hres⟩
      · left
        rw [hp, hrob]
        exact hkeep
      · left
        exact rescue_step_body draws' rest _ g' hres hkeep.1 hkeep.2

/-- The game loop is entered with three lives and three segments. -/
theorem initial_game_body (body : Nat → Position) (draws rest : List Nat) (g : Game)
    (h : initial_game body draws = some (g, rest)) :
    0 < g.player.lives ∧ g.robot.body_length = clamp_body_length g.player.lives := by
  unfold initial_game at h
  simp only at h
  split at h
  · simp at h
  · split at h
    · simp at h
    · simp only [Option.some.injEq, Prod.mk.injEq] at h
      rw [← h.1]
      exact ⟨show (0 : Int) < INITIAL_LIVES by decide, rfl⟩

/-- In every state of the game loop either a life is left and the body is as long as the
lives say, or the game is over with no life and one segment. -/
theorem reachable_body (g : Game) (h : Reachable g) :
    (0 < g.player.lives ∧ g.robot.body_length = clamp_body_length g.player.lives) ∨
    (g.player.lives = 0 ∧ g.running = false ∧ g.robot.body_length = 1) := by
  induction h with
  | init body draws rest g h => exact Or.inl (initial_game_body body draws rest g h)
  | tick ch q draws rest g g' _ _ hl ht ih =>
    rcases ih with ⟨_, hb⟩ | ⟨h0, _⟩
    · exact game_tick_body ch q draws rest g g' ht hl hb
    · omega

/-- The lost sample game ends, after 21 passes, with no life left and one body segment. -/
theorem over_game_run :
    (play_from_start (fun _ => ⟨0, 0⟩) start_draws over_keys).map
      (fun r => (r.1.running, r.1.player.lives, r.1.robot.body_length, r.1.robot.pos))
      = some (false, 0, 1, ⟨0, 10⟩) := by decide!

/-- Counterexample to C22: the state in which the lost sample game ends is a state of the
game loop with `lives = 0` and `body_length = 1`, which is not `lives` clamped to
`[0, MAX_BODY_SEGMENTS]`. -/
theorem game_over_keeps_body_length :
    ∃ (g : Game) (rest : List Nat),
      play_from_start (fun _ => ⟨0, 0⟩) start_draws over_keys = some (g, rest) ∧
      Reachable g ∧ g.running = false ∧ g.player.lives = 0 ∧ g.robot.body_length = 1 ∧
      g.robot.body_length ≠ max 0 (min g.player.lives MAX_BODY_SEGMENTS) := by
  obtain ⟨r, hr, hv⟩ := Option.map_eq_some'.1 over_game_run
  obtain ⟨g, rest⟩ := r
  simp only [Prod.mk.injEq] at hv
  obtain ⟨h1, h2, h3, _⟩ := hv
  refine ⟨g, rest, hr, play_from_start_reachable _ _ _ _ _ hr, h1, h2, h3, ?_⟩
  rw [h2, h3]
  decide

/-- C22, amended. In every state of the game loop in which the player has a life left,
the robot's `body_length` equals the lives clamped to `[0, MAX_BODY_SEGMENTS]`; the only
other states are those in which the game has ended by the loss of the last life, and
there `lives` is 0, `running` is false and `body_length` is still 1, the length it had
for the last life. -/
theorem body_length_tracks_lives (g : Game) (h : Reachable g) :
    (0 < g.player.lives ∧
      g.robot.body_length = max 0 (min g.player.lives MAX_BODY_SEGMENTS)) ∨
    (g.player.lives = 0 ∧ g.running = false ∧ g.robot.body_length = 1) := by
  rcases reachable_body g h with ⟨h1, h2⟩ | h0
  · left
    rw [← clamp_body_length_eq]
    exact ⟨h1, h2⟩
  · exact Or.inr h0

/-- C22, amended, at the sample state after the first lost life: two lives, two segments. -/
theorem body_length_tracks_lives_witness :
    Reachable hit_game ∧ hit_game.player.lives = 2 ∧ hit_game.robot.body_length = 2 ∧
    ((0 < hit_game.player.lives ∧
      hit_game.robot.body_length = max 0 (min hit_game.player.lives MAX_BODY_SEGMENTS)) ∨
    (hit_game.player.lives = 0 ∧ hit_game.running = false ∧
      hit_game.robot.body_length = 1)) :=
  ⟨hit_game_reachable, by decide!, by decide!,
    body_length_tracks_lives hit_game hit_game_reachable⟩

/-! ## Head, person, mines and obstacle along the game -/

/-- What the rescue block does to the layout: mines are only added, away from the head,
and the person it places is on no mine, not on the head and not on the obstacle. -/
theorem rescue_step_layout (draws rest : List Nat) (g g' : Game)
    (h : rescue_step draws g = some (g', rest)) (hl : layout_ok g) :
    layout_ok g' ∧
    (g.robot.pos ∉ g.mines ∧
        is_obstacle_position g.obstacle g.robot.pos.x g.robot.pos.y = false →
      head_clear g') := by
  obtain ⟨hnd, hpm, hmo, hpo⟩ := hl
  by_cases hon : g.robot.pos.x = g.person.x ∧ g.robot.pos.y = g.person.y
  · obtain ⟨hobs, _, _, hc⟩ := rescue_step_cases draws rest g g' hon h
    rcases hc with ⟨_, _, _, _, hrob, hmines, hsp⟩ | ⟨_, _, _, d1, hsm, hsp, hc⟩
    · obtain ⟨_, h2, h3, h4⟩ :=
        spawn_person_spec g.robot g.mines g.obstacle draws.length draws g'.person rest
          (le_refl _) hsp
      refine ⟨⟨?_, ?_, ?_, ?_⟩, fun hhead => ⟨?_, ?_, ?_⟩⟩
      · rw [hmines]
        exact hnd
      · rw [hmines]
        exact h3
      · rw [hmines, hobs]
        exact hmo
      · rw [hobs]
        exact h4
      · rw [hrob, hmines]
        exact hhead.1
      · rw [hrob]
        exact fun he => h2 he.symm
      · rw [hrob, hobs]
        exact hhead.2
    · obtain ⟨added, ha1, ha2, ha3, _⟩ :=
        spawn_mines_loop_spec g.robot (some g.person) g.obstacle _ draws.length draws g.mines
          g'.mines d1 (le_refl _) hsm
      obtain ⟨_, h2, h3, h4⟩ :=
        spawn_person_spec g'.robot g'.mines g.obstacle d1.length d1 g'.person rest
          (le_refl _) hsp
      have hpos : g'.robot.pos = g.robot.pos := by
        rcases hc with ⟨_, _, hr⟩ | ⟨_, _, hr⟩
        · rw [hr]
          rfl
        · rw [hr]
      refine ⟨⟨?_, h3, ?_, ?_⟩, fun hhead => ⟨?_, h2.symm, ?_⟩⟩
      · rw [ha1, List.nodup_append]
        exact ⟨hnd, ha2, fun a ha hb => (ha3 a hb).2.2.2.2 ha⟩
      · intro m hm
        rw [hobs]
        rw [ha1, List.mem_append] at hm
        rcases hm with hm | hm
        · exact hmo m hm
        · exact (ha3 m hm).2.2.2.1
      · rw [hobs]
        exact h4
      · rw [hpos, ha1, List.mem_append]
        rintro (hm | hm)
        · exact hhead.1 hm
        · exact (ha3 _ hm).2.1 rfl
      · rw [hpos, hobs]
        exact hhead.2
  · obtain ⟨h1, _⟩ := rescue_step_miss draws rest g g' hon h
    rw [h1]
    refine ⟨⟨hnd, hpm, hmo, hpo⟩, fun hhead => ⟨hhead.1, ?_, hhead.2⟩⟩
    intro he
    exact hon ⟨by rw [he], by rw [he]⟩

/-- The key handling of a pass keeps the layout. -/
theorem tick_input_layout (ch : Int) (g : Game) (hl : layout_ok g) :
    layout_ok (tick_input ch g) := by
  obtain ⟨hnd, hpm, hmo, hpo⟩ := hl
  obtain ⟨_, _, _, _, hp, ho, hs⟩ := tick_input_frame ch g
  refine ⟨hs.nodup hnd, ?_, ?_, ?_⟩
  · rw [hp]
    exact fun hm => hpm (hs.subset hm)
  · intro m hm
    rw [ho]
    exact hmo m (hs.subset hm)
  · rw [hp, ho]
    exact hpo

/-- A pass of the loop keeps the layout. -/
theorem game_tick_layout (ch : Int) (quit_on_pause : Bool) (draws rest : List Nat)
    (g g' : Game) (h : game_tick ch quit_on_pause draws g = some (g', rest))
    (hl : layout_ok g) : layout_ok g' := by
  have h1 := tick_input_layout ch g hl
  rcases game_tick_cases ch quit_on_pause draws rest g g' h with ⟨_, hq⟩ | ⟨_, r, draws', _, hs⟩
  · rw [hq]
    exact h1
  · rcases tick_settle_cases quit_on_pause draws' rest (tick_input ch g) g' (move_robot r) hs
      with ⟨_, _, _, hp, hm, ho, _⟩ | ⟨_, _, _, hres⟩
    · unfold layout_ok
      rw [hp, hm, ho]
      exact h1
    · exact (rescue_step_layout draws' rest _ g' hres h1).1

/-- The game loop is entered with the layout in order and the head clear. -/
theorem initial_game_layout (body : Nat → Position) (draws rest : List Nat) (g : Game)
    (h : initial_game body draws = some (g, rest)) : layout_ok g ∧ head_clear g := by
  unfold initial_game at h
  simp only at h
  split at h
  · simp at h
  · rename_i person d1 hsp
    split at h
    · simp at h
    · rename_i mines d2 hsm
      simp only [Option.some.injEq, Prod.mk.injEq] at h
      rw [← h.1]
      obtain ⟨_, h2, _, h4⟩ := spawn_person_spec _ _ _ draws.length draws person d1 (le_refl _) hsp
      obtain ⟨added, ha1, ha2, ha3, _⟩ :=
        spawn_mines_loop_spec _ (some person) init_obstacle _ d1.length d1 [] mines d2
          (le_refl _) hsm
      rw [List.nil_append] at ha1
      subst ha1
      refine ⟨⟨ha2, fun hm => (ha3 _ hm).2.2.1 person rfl rfl, fun m hm => (ha3 m hm).2.2.2.1,
        h4⟩, fun hm => (ha3 _ hm).2.1 rfl, h2.symm, ?_⟩
      show is_obstacle_position init_obstacle (find_safe_spawn_position [] init_obstacle).x
        (find_safe_spawn_position [] init_obstacle).y = false
      rw [spawn_no_mines]
      decide

/-- The layout is in order in every state of the game loop. -/
theorem reachable_layout (g : Game) (h : Reachable g) : layout_ok g := by
  induction h with
  | init body draws rest g h => exact (initial_game_layout body draws rest g h).1
  | tick ch q draws rest g g' _ _ _ ht ih => exact game_tick_layout ch q draws rest g g' ht ih

/-- A pass of the loop that moves a robot that is not invincible and takes no life leaves
the head clear. -/
theorem game_tick_head (ch : Int) (quit_on_pause : Bool) (draws rest : List Nat)
    (g g' : Game) (h : game_tick ch quit_on_pause draws g = some (g', rest))
    (hl : layout_ok g) (hpos : 0 < g.player.lives)
    (hrun : (tick_input ch g).running = true)
    (hinv : g.robot.invincible = false) (hlives : g.player.lives ≤ g'.player.lives) :
    head_clear g' := by
  have h1 := tick_input_layout ch g hl
  obtain ⟨_, _, hf3, hf4, _, _, _⟩ := tick_input_frame ch g
  rcases game_tick_cases ch quit_on_pause draws rest g g' h with ⟨hq, _⟩ | ⟨_, r, draws', hd, hs⟩
  · rw [hrun] at hq
    exact absurd hq (by simp)
  · have hr := tick_direction_frame draws draws' (tick_input ch g) r hd
    have hri : (move_robot r).invincible = false := by
      rw [← hinv, ← hf3, hr]
      rfl
    have hcases := check_collision_cases (tick_input ch g).player (move_robot r)
      (tick_input ch g).mines (tick_input ch g).obstacle (tick_input ch g).running
    have hsc := tick_settle_cases quit_on_pause draws' rest (tick_input ch g) g' (move_robot r) hs
    generalize check_collision (tick_input ch g).player (move_robot r)
      (tick_input ch g).mines (tick_input ch g).obstacle (tick_input ch g).running = c at *
    rcases hcases with ⟨_, _, _, hc⟩ | ⟨_, _, _, hc⟩ | ⟨hsafe, hc⟩
    · -- game over: a life is taken
      rcases hsc with ⟨_, hp, _⟩ | ⟨hr2, _⟩
      · rw [hp, hc] at hlives
        have : (tick_input ch g).player.lives - 1 < g.player.lives := by omega
        exact absurd hlives (by
          show ¬ g.player.lives ≤ (tick_input ch g).player.lives - 1
          omega)
      · rw [hc] at hr2
        exact absurd hr2 (by simp)
    · -- respawn: a life is taken
      rcases hsc with ⟨_, hp, _⟩ | ⟨_, _, hlost, _⟩
      · rw [hp, hc] at hlives
        exact absurd hlives (by
          show ¬ g.player.lives ≤ (tick_input ch g).player.lives - 1
          omega)
      · rw [hc] at hlost
        exact absurd hlost (by simp)
    · -- no loss: the cell under the head is not deadly
      have hdead : deadly_cell (move_robot r).pos.x (move_robot r).pos.y (tick_input ch g).mines
          (tick_input ch g).obstacle = false := by
        rcases hsafe with hsafe | hsafe
        · exact hsafe
        · rw [hri] at hsafe
          exact absurd hsafe (by simp)
      have hnot : ¬ (deadly_cell (move_robot r).pos.x (move_robot r).pos.y
          (tick_input ch g).mines (tick_input ch g).obstacle = true) := by
        rw [hdead]
        simp
      rw [deadly_cell_iff] at hnot
      have hclear : (move_robot r).pos ∉ (tick_input ch g).mines ∧
          is_obstacle_position (tick_input ch g).obstacle (move_robot r).pos.x
            (move_robot r).pos.y = false := by
        constructor
        · exact fun hm => hnot (Or.inr (Or.inl hm))
        · cases ho : is_obstacle_position (tick_input ch g).obstacle (move_robot r).pos.x
            (move_robot r).pos.y
          · rfl
          · exact absurd (Or.inr (Or.inr ho)) hnot
      rcases hsc with ⟨hend, _⟩ | ⟨_, _, _, hres⟩
      · rw [hc] at hend
        rcases hend with hend | hend | hend
        · rw [hrun] at hend
          exact absurd hend (by simp)
        · have hle : (tick_input ch g).player.lives ≤ 0 := hend
          omega
        · exact absurd hend (by simp)
      · refine (rescue_step_layout draws' rest _ g' hres ?_).2 ?_
        · exact h1
        · rw [hc]
          show (invincible_countdown (move_robot r)).pos ∉ (tick_input ch g).mines ∧
            is_obstacle_position (tick_input ch g).obstacle
              (invincible_countdown (move_robot r)).pos.x
              (invincible_countdown (move_robot r)).pos.y = false
          rw [(invincible_countdown_frame _).1]
          exact hclear

/-- The second sample start state is a state of the game loop. -/
theorem near_game_start :
    initial_game (fun _ => ⟨0, 0⟩) near_draws = some (near_game, []) := by
  have h1 : spawn_person (reset_robot_body_from_lives (init_robot (fun _ => ⟨0, 0⟩)) init_player)
      [] init_obstacle near_draws
      = some (⟨10, 8⟩, [8, 9, 5, 6, 7, 8, 11, 12, 13, 14]) := by decide!
  have h2 : spawn_mines [8, 9, 5, 6, 7, 8, 11, 12, 13, 14]
      (reset_robot_body_from_lives (init_robot (fun _ => ⟨0, 0⟩)) init_player)
      (some ⟨10, 8⟩) [] BASE_MINES init_obstacle
      = some ([⟨9, 10⟩, ⟨6, 7⟩, ⟨8, 9⟩, ⟨12, 13⟩, ⟨14, 15⟩], []) := by decide!
  simp only [initial_game, h1, h2]
  rfl

/-- From the second sample start state a pass without a key moves the head north to
`(10, 9)` and takes no life. -/
theorem near_game_step :
    (game_tick KEY_ERR false [] near_game).map
      (fun r => (r.1.player.lives, r.1.robot.pos)) = some (3, ⟨10, 9⟩) := by decide!

/-- The short walk ends with the protected robot standing on a mine. -/
theorem mine_walk_run :
    (play_from_start (fun _ => ⟨0, 0⟩) start_draws mine_walk_keys).map
      (fun r => (r.1.running, r.1.player.lives, r.1.robot.invincible, r.1.robot.pos, r.1.mines))
      = some (true, 2, true, ⟨9, 10⟩, [⟨9, 10⟩, ⟨6, 7⟩, ⟨8, 9⟩, ⟨12, 13⟩, ⟨14, 15⟩]) := by
  decide!

/-- With at most `MAX_MINES` mines and the standard obstacle, the cell returned by
`find_safe_spawn_position` is no mine and no obstacle cell. -/
theorem find_safe_spawn_free (mines : List Position)
    (hcount : (mines.length : Int) ≤ MAX_MINES) :
    find_safe_spawn_position mines init_obstacle ∉ mines ∧
    is_obstacle_position init_obstacle (find_safe_spawn_position mines init_obstacle).x
      (find_safe_spawn_position mines init_obstacle).y = false := by
  obtain ⟨c0, hc0, hd0, ho0, hm0⟩ := exists_free_near_anchor mines hcount
  unfold find_safe_spawn_position
  rw [spawn_scan_eq]
  rcases scan_fold_spec mines init_obstacle scan_cells
      (⟨Int.tdiv BOARD_COLS 2, Int.tdiv BOARD_ROWS 2⟩, 1000000) scan_cells_sorted with
    ⟨_, hall⟩ | ⟨_, h2, h3, _⟩
  · have := hall c0 hc0 ho0 hm0
    simp only at this
    omega
  · exact ⟨h3, h2⟩

/-- A pass of the loop, case by case: the quit at the key handling, the end of the game,
the loss of a life with a respawn, and the pass that goes on to the rescue block. -/
theorem game_tick_outcome (ch : Int) (quit_on_pause : Bool) (draws rest : List Nat)
    (g g' : Game) (h : game_tick ch quit_on_pause draws g = some (g', rest))
    (hpos : 0 < g.player.lives) :
    ((tick_input ch g).running = false ∧ g' = tick_input ch g) ∨
    ((tick_input ch g).running = true ∧ ∃ (r : Robot) (draws' : List Nat),
      tick_direction draws (tick_input ch g) = some (r, draws') ∧
      ((deadly_cell (move_robot r).pos.x (move_robot r).pos.y (tick_input ch g).mines
            (tick_input ch g).obstacle = true ∧
          (tick_input ch g).player.lives - 1 ≤ 0 ∧
          g'.player.lives = (tick_input ch g).player.lives - 1 ∧
          g'.robot = move_robot r ∧ g'.person = (tick_input ch g).person ∧
          g'.mines = (tick_input ch g).mines ∧ g'.obstacle = (tick_input ch g).obstacle ∧
          g'.running = false) ∨
        (0 < (tick_input ch g).player.lives - 1 ∧
          g'.player.lives = (tick_input ch g).player.lives - 1 ∧
          g'.robot.pos = find_safe_spawn_position (tick_input ch g).mines
            (tick_input ch g).obstacle ∧
          g'.person = (tick_input ch g).person ∧
          g'.mines = (tick_input ch g).mines ∧ g'.obstacle = (tick_input ch g).obstacle) ∨
        ((deadly_cell (move_robot r).pos.x (move_robot r).pos.y (tick_input ch g).mines
              (tick_input ch g).obstacle = false ∨ (move_robot r).invincible = true) ∧
          0 < (tick_input ch g).player.lives ∧
          rescue_step draws'
            { tick_input ch g with robot := invincible_countdown (move_robot r) }
            = some (g', rest)))) := by
  rcases game_tick_cases ch quit_on_pause draws rest g g' h with hq | ⟨hrun, r, draws', hd, hs⟩
  · exact Or.inl hq
  · refine Or.inr ⟨hrun, r, draws', hd, ?_⟩
    have hcases := check_collision_cases (tick_input ch g).player (move_robot r)
      (tick_input ch g).mines (tick_input ch g).obstacle (tick_input ch g).running
    have hsc := tick_settle_cases quit_on_pause draws' rest (tick_input ch g) g' (move_robot r) hs
    generalize check_collision (tick_input ch g).player (move_robot r)
      (tick_input ch g).mines (tick_input ch g).obstacle (tick_input ch g).running = c at *
    rcases hcases with ⟨hdead, _, hlast, hc⟩ | ⟨_, _, hmore, hc⟩ | ⟨hsafe, hc⟩
    · rcases hsc with ⟨_, hp, hrob, hper, hm, ho, hr⟩ | ⟨hr2, _⟩
      · refine Or.inl ⟨hdead, hlast, by rw [hp, hc], by rw [hrob, hc], hper, hm, ho, ?_⟩
        rcases hr with hr | hr
        · rw [hr, hc]
        · exact hr
      · rw [hc] at hr2
        exact absurd hr2 (by simp)
    · rcases hsc with ⟨_, hp, hrob, hper, hm, ho, _⟩ | ⟨_, _, hlost, _⟩
      · refine Or.inr (Or.inl ⟨hmore, by rw [hp, hc], ?_, hper, hm, ho⟩)
        rw [hrob, hc]
        exact (invincible_countdown_frame _).1
      · rw [hc] at hlost
        exact absurd hlost (by simp)
    · rcases hsc with ⟨hend, _⟩ | ⟨_, hl, _, hres⟩
      · rw [hc] at hend
        rcases hend with hend | hend | hend
        · rw [hrun] at hend
          exact absurd hend (by simp)
        · have hle : (tick_input ch g).player.lives ≤ 0 := hend
          have := (tick_input_frame ch g).2.2.2.1
          omega
        · exact absurd hend (by simp)
      · rw [hc] at hres hl
        exact Or.inr (Or.inr ⟨hsafe, hl, hres⟩)

/-- The rescue block leaves the head where it was, and not on the person's cell. -/
theorem rescue_step_person (draws rest : List Nat) (g g' : Game)
    (h : rescue_step draws g = some (g', rest)) :
    g'.robot.pos = g.robot.pos ∧ g'.robot.pos ≠ g'.person := by
  by_cases hon : g.robot.pos.x = g.person.x ∧ g.robot.pos.y = g.person.y
  · obtain ⟨hobs, _, _, hc⟩ := rescue_step_cases draws rest g g' hon h
    rcases hc with ⟨_, _, _, _, hrob, _, hsp⟩ | ⟨_, _, _, d1, _, hsp, hc⟩
    · obtain ⟨_, h2, _, _⟩ :=
        spawn_person_spec g.robot g.mines g.obstacle draws.length draws g'.person rest
          (le_refl _) hsp
      rw [hrob]
      exact ⟨rfl, fun he => h2 he.symm⟩
    · obtain ⟨_, h2, _, _⟩ :=
        spawn_person_spec g'.robot g'.mines g.obstacle d1.length d1 g'.person rest
          (le_refl _) hsp
      refine ⟨?_, h2.symm⟩
      rcases hc with ⟨_, _, hr⟩ | ⟨_, _, hr⟩
      · rw [hr]
        rfl
      · rw [hr]
  · obtain ⟨h1, _⟩ := rescue_step_miss draws rest g g' hon h
    rw [h1]
    exact ⟨rfl, fun he => hon ⟨by rw [he], by rw [he]⟩⟩

/-- The rescue block keeps the bounds of the game and takes no life. -/
theorem rescue_step_bounds (draws rest : List Nat) (g g' : Game)
    (h : rescue_step draws g = some (g', rest)) (hl : layout_ok g) (hb : bounds_ok g) :
    bounds_ok g' ∧ g.player.lives ≤ g'.player.lives := by
  obtain ⟨hb1, hb2, hb3, hb4⟩ := hb
  by_cases hon : g.robot.pos.x = g.person.x ∧ g.robot.pos.y = g.person.y
  · obtain ⟨hobs, _, _, hc⟩ := rescue_step_cases draws rest g g' hon h
    rcases hc with ⟨_, _, _, hlv, _, hmines, hsp⟩ | ⟨_, _, _, d1, hsm, hsp, hc⟩
    · obtain ⟨h1, _, _, _⟩ :=
        spawn_person_spec g.robot g.mines g.obstacle draws.length draws g'.person rest
          (le_refl _) hsp
      refine ⟨⟨by rw [hlv]; exact hb1, by rw [hmines]; exact hb2, by rw [hobs]; exact hb3, h1⟩,
        by rw [hlv]⟩
    · obtain ⟨h1, _, _, _⟩ :=
        spawn_person_spec g'.robot g'.mines g.obstacle d1.length d1 g'.person rest
          (le_refl _) hsp
      have hm := (spawn_mines_keeps_bounds draws g.robot (some g.person) g.mines _ g.obstacle
        g'.mines d1 hsm hb2 hl.1).1
      have hlv : g'.player.lives ≤ MAX_BODY_SEGMENTS ∧ g.player.lives ≤ g'.player.lives := by
        rcases hc with ⟨_, hlv, _⟩ | ⟨_, hlv, _⟩
        · rw [hlv]
          simp only [MAX_BODY_SEGMENTS] at hb1 ⊢
          split <;> omega
        · rw [hlv]
          exact ⟨hb1, le_refl _⟩
      exact ⟨⟨hlv.1, hm, by rw [hobs]; exact hb3, h1⟩, hlv.2⟩
  · obtain ⟨h1, _⟩ := rescue_step_miss draws rest g g' hon h
    rw [h1]
    exact ⟨⟨hb1, hb2, hb3, hb4⟩, le_refl _⟩

/-- The key handling of a pass keeps the bounds of the game. -/
theorem tick_input_bounds (ch : Int) (g : Game) (hb : bounds_ok g) :
    bounds_ok (tick_input ch g) := by
  obtain ⟨hb1, hb2, hb3, hb4⟩ := hb
  obtain ⟨_, _, _, hlv, hp, ho, hs⟩ := tick_input_frame ch g
  refine ⟨by rw [hlv]; exact hb1, ?_, by rw [ho]; exact hb3, by rw [hp]; exact hb4⟩
  have := hs.length_le
  omega

/-- A pass of the loop keeps the bounds of the game. -/
theorem game_tick_bounds (ch : Int) (quit_on_pause : Bool) (draws rest : List Nat)
    (g g' : Game) (h : game_tick ch quit_on_pause draws g = some (g', rest))
    (hpos : 0 < g.player.lives) (hl : layout_ok g) (hb : bounds_ok g) : bounds_ok g' := by
  have hl1 := tick_input_layout ch g hl
  obtain ⟨hb1, hb2, hb3, hb4⟩ := tick_input_bounds ch g hb
  rcases game_tick_outcome ch quit_on_pause draws rest g g' h hpos with
    ⟨_, hq⟩ | ⟨_, r, draws', _, hcase⟩
  · rw [hq]
    exact ⟨hb1, hb2, hb3, hb4⟩
  · rcases hcase with ⟨_, _, hlv, _, hper, hm, ho, _⟩ | ⟨_, hlv, _, hper, hm, ho⟩ |
      ⟨_, _, hres⟩
    · exact ⟨by rw [hlv]; omega, by rw [hm]; exact hb2, by rw [ho]; exact hb3,
        by rw [hper]; exact hb4⟩
    · exact ⟨by rw [hlv]; omega, by rw [hm]; exact hb2, by rw [ho]; exact hb3,
        by rw [hper]; exact hb4⟩
    · exact (rescue_step_bounds draws' rest _ g' hres hl1 ⟨hb1, hb2, hb3, hb4⟩).1

/-- The game loop is entered within the bounds of the game. -/
theorem initial_game_bounds (body : Nat → Position) (draws rest : List Nat) (g : Game)
    (h : initial_game body draws = some (g, rest)) : bounds_ok g := by
  unfold initial_game at h
  simp only at h
  split at h
  · simp at h
  · rename_i person d1 hsp
    split at h
    · simp at h
    · rename_i mines d2 hsm
      simp only [Option.some.injEq, Prod.mk.injEq] at h
      rw [← h.1]
      obtain ⟨h1, _, _, _⟩ := spawn_person_spec _ _ _ draws.length draws person d1 (le_refl _) hsp
      have hm := (spawn_mines_keeps_bounds d1 _ (some person) [] BASE_MINES init_obstacle
        mines d2 hsm (by decide) List.nodup_nil).1
      exact ⟨show INITIAL_LIVES ≤ MAX_BODY_SEGMENTS by decide, hm, rfl, h1⟩

/-- The bounds of the game hold in every state of the game loop. -/
theorem reachable_bounds (g : Game) (h : Reachable g) : bounds_ok g := by
  induction h with
  | init body draws rest g h => exact initial_game_bounds body draws rest g h
  | tick ch q draws rest g g' hg _ hpos ht ih =>
    exact game_tick_bounds ch q draws rest g g' ht hpos (reachable_layout g hg) ih

/-- A pass of the loop that stops at the key handling changes neither the head nor the
mines, the person or the obstacle. -/
theorem game_tick_quit (ch : Int) (quit_on_pause : Bool) (draws rest : List Nat)
    (g g' : Game) (h : game_tick ch quit_on_pause draws g = some (g', rest))
    (hrun : g.running = true) (hq : (tick_input ch g).running = false) :
    g'.robot.pos = g.robot.pos ∧ g'.mines = g.mines ∧ g'.person = g.person ∧
    g'.obstacle = g.obstacle := by
  have hg' : g' = tick_input ch g := by
    rcases game_tick_cases ch quit_on_pause draws rest g g' h with ⟨_, h1⟩ | ⟨h1, _⟩
    · exact h1
    · rw [hq] at h1
      exact absurd h1 (by simp)
  obtain ⟨h1, _, _, _, h5, h6, _⟩ := tick_input_frame ch g
  refine ⟨by rw [hg']; exact h1, ?_, by rw [hg']; exact h5, by rw [hg']; exact h6⟩
  rw [hg']
  unfold tick_input at hq ⊢
  split
  · split
    · rename_i h1 h2
      rw [if_pos h1, if_pos h2] at hq
      rw [hrun] at hq
      exact absurd hq (by simp)
    · rfl
  · rfl

/-- A pass of the loop in which a life is lost and the game goes on puts the head on a
cell that is no mine and no obstacle cell. -/
theorem game_tick_respawn (ch : Int) (quit_on_pause : Bool) (draws rest : List Nat)
    (g g' : Game) (h : game_tick ch quit_on_pause draws g = some (g', rest))
    (hpos : 0 < g.player.lives) (hl : layout_ok g) (hb : bounds_ok g)
    (hrun : (tick_input ch g).running = true) (hless : g'.player.lives < g.player.lives)
    (hleft : 0 < g'.player.lives) :
    g'.robot.pos ∉ g'.mines ∧
    is_obstacle_position g'.obstacle g'.robot.pos.x g'.robot.pos.y = false := by
  have hl1 := tick_input_layout ch g hl
  have hb1 := tick_input_bounds ch g hb
  have hlv := (tick_input_frame ch g).2.2.2.1
  rcases game_tick_outcome ch quit_on_pause draws rest g g' h hpos with
    ⟨hq, _⟩ | ⟨_, r, draws', _, hcase⟩
  · rw [hrun] at hq
    exact absurd hq (by simp)
  · rcases hcase with ⟨_, hlast, hlv', _⟩ | ⟨_, _, hhead, _, hm, ho⟩ | ⟨_, _, hres⟩
    · omega
    · rw [hhead, hm, ho, hb1.2.2.1]
      exact find_safe_spawn_free _ hb1.2.1
    · have := (rescue_step_bounds draws' rest _ g' hres hl1 hb1).2
      have e : ({ tick_input ch g with robot := invincible_countdown (move_robot r) } : Game).player.lives
          = (tick_input ch g).player.lives := rfl
      omega

/-- A pass of the loop that ends the game leaves the head on a lethal cell (wall, mine or
obstacle), which is not the person's cell. -/
theorem game_tick_over (ch : Int) (quit_on_pause : Bool) (draws rest : List Nat)
    (g g' : Game) (h : game_tick ch quit_on_pause draws g = some (g', rest))
    (hpos : 0 < g.player.lives) (hl : layout_ok g) (hb : bounds_ok g)
    (hrun : (tick_input ch g).running = true) (hover : g'.player.lives ≤ 0) :
    deadly_cell g'.robot.pos.x g'.robot.pos.y g'.mines g'.obstacle = true ∧
    g'.robot.pos ≠ g'.person := by
  have hl1 := tick_input_layout ch g hl
  have hb1 := tick_input_bounds ch g hb
  have hlv := (tick_input_frame ch g).2.2.2.1
  rcases game_tick_outcome ch quit_on_pause draws rest g g' h hpos with
    ⟨hq, _⟩ | ⟨_, r, draws', _, hcase⟩
  · rw [hrun] at hq
    exact absurd hq (by simp)
  · rcases hcase with ⟨hdead, _, _, hrob, hper, hm, ho, _⟩ | ⟨_, hlv', _⟩ | ⟨_, _, hres⟩
    · have hd : deadly_cell g'.robot.pos.x g'.robot.pos.y g'.mines g'.obstacle = true := by
        rw [hrob, hm, ho]
        exact hdead
      refine ⟨hd, ?_⟩
      intro he
      rw [he, deadly_cell_iff, hper, hm, ho] at hd
      obtain ⟨_, hpm, _, hpo⟩ := hl1
      have hin := hb1.2.2.2
      rcases hd with hw | hmine | hobs
      · simp only [in_interior, BOARD_COLS, BOARD_ROWS] at hin hw
        omega
      · exact hpm hmine
      · rw [hpo] at hobs
        exact absurd hobs (by simp)
    · omega
    · have := (rescue_step_bounds draws' rest _ g' hres hl1 hb1).2
      have e : ({ tick_input ch g with robot := invincible_countdown (move_robot r) } : Game).player.lives
          = (tick_input ch g).player.lives := rfl
      omega

/-- A pass of the loop that takes no life leaves the head off the person's cell. -/
theorem game_tick_noloss (ch : Int) (quit_on_pause : Bool) (draws rest : List Nat)
    (g g' : Game) (h : game_tick ch quit_on_pause draws g = some (g', rest))
    (hpos : 0 < g.player.lives)
    (hrun : (tick_input ch g).running = true) (hlives : g.player.lives ≤ g'.player.lives) :
    g'.robot.pos ≠ g'.person := by
  have hlv := (tick_input_frame ch g).2.2.2.1
  rcases game_tick_outcome ch quit_on_pause draws rest g g' h hpos with
    ⟨hq, _⟩ | ⟨_, r, draws', _, hcase⟩
  · rw [hrun] at hq
    exact absurd hq (by simp)
  · rcases hcase with ⟨_, _, hlv', _⟩ | ⟨_, hlv', _⟩ | ⟨_, _, hres⟩
    · omega
    · omega
    · exact (rescue_step_person draws' rest _ g' hres).2

/-- The game in which the robot walks onto the obstacle: after 19 passes the game goes on
with two lives and the head on the obstacle cell `(20, 10)`. -/
theorem obstacle_run :
    (play_from_start (fun _ => ⟨0, 0⟩) obstacle_draws obstacle_keys).map
      (fun r => (r.1.running, r.1.player.lives, r.1.robot.pos,
        is_obstacle_position r.1.obstacle r.1.robot.pos.x r.1.robot.pos.y))
      = some (true, 2, ⟨20, 10⟩, true) := by decide!

/-- The game in which the robot respawns on the person: after 10 passes the game goes on
with two lives, and the head and the person are both on `(10, 10)`. -/
theorem respawn_run :
    (play_from_start (fun _ => ⟨0, 0⟩) respawn_draws respawn_keys).map
      (fun r => (r.1.running, r.1.player.lives, r.1.robot.pos, r.1.person))
      = some (true, 2, ⟨10, 10⟩, ⟨10, 10⟩) := by decide!

/-- The game lost on a mine: after 23 passes the game is over with the head on the mine
at `(9, 10)`. -/
theorem pace_run :
    (play_from_start (fun _ => ⟨0, 0⟩) start_draws pace_keys).map
      (fun r => (r.1.running, r.1.player.lives, r.1.robot.pos, r.1.mines))
      = some (false, 0, ⟨9, 10⟩, [⟨9, 10⟩, ⟨6, 7⟩, ⟨8, 9⟩, ⟨12, 13⟩, ⟨14, 15⟩]) := by
  decide!

/-- Counterexample to C21, in four states of the game loop.  After two passes of the
sample game (`m`, then no key) the game goes on and the head of the invincible robot is on
the mine at `(9, 10)`.  In the game of `obstacle_draws` the game goes on after 19 passes
with the head, protected during the move, on the obstacle cell `(20, 10)`.  In the game of
`respawn_draws` the robot has just respawned after 10 passes and its head is on the
person's cell `(10, 10)`.  In the game of `pace_keys` the game is over after 23 passes
with the head on the mine at `(9, 10)`. -/
theorem head_overlaps_reachable :
    (∃ (g : Game) (rest : List Nat),
      play_from_start (fun _ => ⟨0, 0⟩) start_draws mine_walk_keys = some (g, rest) ∧
      Reachable g ∧ g.running = true ∧ g.player.lives = 2 ∧ g.robot.invincible = true ∧
      g.robot.pos = ⟨9, 10⟩ ∧ g.robot.pos ∈ g.mines) ∧
    (∃ (g : Game) (rest : List Nat),
      play_from_start (fun _ => ⟨0, 0⟩) obstacle_draws obstacle_keys = some (g, rest) ∧
      Reachable g ∧ g.running = true ∧ g.player.lives = 2 ∧ g.robot.pos = ⟨20, 10⟩ ∧
      is_obstacle_position g.obstacle g.robot.pos.x g.robot.pos.y = true) ∧
    (∃ (g : Game) (rest : List Nat),
      play_from_start (fun _ => ⟨0, 0⟩) respawn_draws respawn_keys = some (g, rest) ∧
      Reachable g ∧ g.running = true ∧ g.player.lives = 2 ∧ g.robot.pos = ⟨10, 10⟩ ∧
      g.robot.pos = g.person) ∧
    (∃ (g : Game) (rest : List Nat),
      play_from_start (fun _ => ⟨0, 0⟩) start_draws pace_keys = some (g, rest) ∧
      Reachable g ∧ g.running = false ∧ g.player.lives = 0 ∧ g.robot.pos = ⟨9, 10⟩ ∧
      g.robot.pos ∈ g.mines) := by
  refine ⟨?_, ?_, ?_, ?_⟩
  · obtain ⟨r, hr, hv⟩ := Option.map_eq_some'.1 mine_walk_run
    obtain ⟨g, rest⟩ := r
    simp only [Prod.mk.injEq] at hv
    obtain ⟨h1, h2, h3, h4, h5⟩ := hv
    refine ⟨g, rest, hr, play_from_start_reachable _ _ _ _ _ hr, h1, h2, h3, h4, ?_⟩
    rw [h4, h5]
    decide
  · obtain ⟨r, hr, hv⟩ := Option.map_eq_some'.1 obstacle_run
    obtain ⟨g, rest⟩ := r
    simp only [Prod.mk.injEq] at hv
    obtain ⟨h1, h2, h3, h4⟩ := hv
    exact ⟨g, rest, hr, play_from_start_reachable _ _ _ _ _ hr, h1, h2, h3, h4⟩
  · obtain ⟨r, hr, hv⟩ := Option.map_eq_some'.1 respawn_run
    obtain ⟨g, rest⟩ := r
    simp only [Prod.mk.injEq] at hv
    obtain ⟨h1, h2, h3, h4⟩ := hv
    exact ⟨g, rest, hr, play_from_start_reachable _ _ _ _ _ hr, h1, h2, h3, by rw [h3, h4]⟩
  · obtain ⟨r, hr, hv⟩ := Option.map_eq_some'.1 pace_run
    obtain ⟨g, rest⟩ := r
    simp only [Prod.mk.injEq] at hv
    obtain ⟨h1, h2, h3, h4⟩ := hv
    refine ⟨g, rest, hr, play_from_start_reachable _ _ _ _ _ hr, h1, h2, h3, ?_⟩
    rw [h3, h4]
    decide

/-- C21, amended. In every state of the game loop the mine cells are pairwise distinct, the
person's cell is not a mine cell, and no mine cell and not the person's cell is an
obstacle cell.  When the loop is entered the head is on no mine, not on the person's cell
and not on an obstacle cell.  A pass of the loop that stops at the key handling (quit)
leaves head, mines, person and obstacle as they were.  After a pass that ends the game
the head is on the lethal cell (wall, mine or obstacle) and not on the person's cell.
After a pass in which a life is lost and the game goes on (the respawn) the head is on no
mine and no obstacle cell.  After a pass that takes no life the head is not on the
person's cell, and if moreover the robot was not invincible when the pass began, the head
is on no mine and no obstacle cell. -/
theorem layout_stays_disjoint (g : Game) (h : Reachable g) :
    (g.mines.Nodup ∧ g.person ∉ g.mines ∧
      (∀ m ∈ g.mines, is_obstacle_position g.obstacle m.x m.y = false) ∧
      is_obstacle_position g.obstacle g.person.x g.person.y = false) ∧
    (∀ (body : Nat → Position) (draws rest : List Nat),
      initial_game body draws = some (g, rest) →
      g.robot.pos ∉ g.mines ∧ g.robot.pos ≠ g.person ∧
        is_obstacle_position g.obstacle g.robot.pos.x g.robot.pos.y = false) ∧
    (∀ (ch : Int) (quit_on_pause : Bool) (draws rest : List Nat) (g' : Game),
      g.running = true → 0 < g.player.lives →
      game_tick ch quit_on_pause draws g = some (g', rest) →
      ((tick_input ch g).running = false →
        g'.robot.pos = g.robot.pos ∧ g'.mines = g.mines ∧ g'.person = g.person ∧
          g'.obstacle = g.obstacle) ∧
      ((tick_input ch g).running = true →
        (g'.player.lives ≤ 0 →
          deadly_cell g'.robot.pos.x g'.robot.pos.y g'.mines g'.obstacle = true ∧
            g'.robot.pos ≠ g'.person) ∧
        (0 < g'.player.lives → g'.player.lives < g.player.lives →
          g'.robot.pos ∉ g'.mines ∧
            is_obstacle_position g'.obstacle g'.robot.pos.x g'.robot.pos.y = false) ∧
        (g.player.lives ≤ g'.player.lives →
          g'.robot.pos ≠ g'.person ∧
          (g.robot.invincible = false →
            g'.robot.pos ∉ g'.mines ∧
              is_obstacle_position g'.obstacle g'.robot.pos.x g'.robot.pos.y = false)))) := by
  have hl := reachable_layout g h
  have hb := reachable_bounds g h
  refine ⟨hl, ?_, ?_⟩
  · intro body draws rest hi
    exact (initial_game_layout body draws rest g hi).2
  · intro ch q draws rest g' hrun hpos ht
    refine ⟨fun hq => game_tick_quit ch q draws rest g g' ht hrun hq, fun hgo => ⟨?_, ?_, ?_⟩⟩
    · exact fun hover => game_tick_over ch q draws rest g g' ht hpos hl hb hgo hover
    · exact fun hleft hless => game_tick_respawn ch q draws rest g g' ht hpos hl hb hgo hless hleft
    · intro hlives
      refine ⟨game_tick_noloss ch q draws rest g g' ht hpos hgo hlives, fun hinv => ?_⟩
      obtain ⟨h1, _, h3⟩ := game_tick_head ch q draws rest g g' ht hl hpos hgo hinv hlives
      exact ⟨h1, h3⟩

/-- C21, amended, at the second sample start state and the pass without a key that follows
it (the head moves north to `(10, 9)`, no life is lost), and at the first pass of the
sample game, in which the robot loses a life on the mine at `(9, 10)` and respawns. -/
theorem layout_stays_disjoint_witness :
    Reachable near_game ∧
    (near_game.mines.Nodup ∧ near_game.person ∉ near_game.mines ∧
      (∀ m ∈ near_game.mines, is_obstacle_position near_game.obstacle m.x m.y = false) ∧
      is_obstacle_position near_game.obstacle near_game.person.x near_game.person.y = false) ∧
    (near_game.robot.pos ∉ near_game.mines ∧ near_game.robot.pos ≠ near_game.person ∧
      is_obstacle_position near_game.obstacle near_game.robot.pos.x near_game.robot.pos.y
        = false) ∧
    (∃ (g' : Game) (rest : List Nat),
      game_tick KEY_ERR false [] near_game = some (g', rest) ∧ g'.robot.pos = ⟨10, 9⟩ ∧
      g'.robot.pos ≠ g'.person ∧ g'.robot.pos ∉ g'.mines ∧
      is_obstacle_position g'.obstacle g'.robot.pos.x g'.robot.pos.y = false) ∧
    (game_tick (key_of 'm') false [] start_game = some (hit_game, []) ∧
      hit_game.player.lives = 2 ∧
      hit_game.robot.pos ∉ hit_game.mines ∧
      is_obstacle_position hit_game.obstacle hit_game.robot.pos.x hit_game.robot.pos.y
        = false) := by
  have hreach : Reachable near_game := Reachable.init _ _ _ _ near_game_start
  obtain ⟨r, hr, hv⟩ := Option.map_eq_some'.1 near_game_step
  obtain ⟨g', rest⟩ := r
  simp only [Prod.mk.injEq] at hv
  have hstep := ((layout_stays_disjoint near_game hreach).2.2 KEY_ERR false [] rest g'
    (by decide) (by decide) hr).2 (by decide)
  have hsafe := hstep.2.2 (by rw [hv.1]; decide)
  have hhit := (((layout_stays_disjoint start_game start_game_reachable).2.2 (key_of 'm')
    false [] [] hit_game (by decide) (by decide) hit_game_tick).2 (by decide!)).2.1
    (by decide!) (by decide!)
  exact ⟨hreach, (layout_stays_disjoint near_game hreach).1,
    (layout_stays_disjoint near_game hreach).2.1 _ _ _ near_game_start,
    ⟨g', rest, hr, hv.2, hsafe.1, hsafe.2 (by decide!)⟩,
    ⟨hit_game_tick, by decide!, hhit⟩⟩

/-! ## The head and the board -/

/-- The sample game in which the robot leaves the board: after 19 passes the game goes on
with two lives and the head at `(10, 20)`, below the bottom row. -/
theorem escape_run :
    (play_from_start (fun _ => ⟨0, 0⟩) escape_draws escape_keys).map
      (fun r => (r.1.running, r.1.player.lives, r.1.robot.pos, r.1.robot.ai_mode, r.2))
      = some (true, 2, ⟨10, 20⟩, false, []) := by decide!

/-- C29 fails on the code: the sample game reaches, after 19 passes, a state of the game
loop in which the game goes on (`running`, two lives) and the head is at `(10, 20)`,
outside the grid `[0, 50) x [0, 20)`; when the next key is `m` the robot is in AI mode
with its head still there, so that the row index `sy = 20` of `visited[sy][sx]` in
`bfs_next_direction` is out of bounds. -/
theorem head_leaves_grid :
    ∃ (g : Game) (rest : List Nat),
      play_from_start (fun _ => ⟨0, 0⟩) escape_draws escape_keys = some (g, rest) ∧
      Reachable g ∧ g.running = true ∧ 0 < g.player.lives ∧ g.robot.pos = ⟨10, 20⟩ ∧
      ¬ (0 ≤ g.robot.pos.x ∧ g.robot.pos.x < BOARD_COLS ∧ 0 ≤ g.robot.pos.y ∧
        g.robot.pos.y < BOARD_ROWS) ∧
      (tick_input (key_of 'm') g).running = true ∧
      (tick_input (key_of 'm') g).robot.ai_mode = true ∧
      (tick_input (key_of 'm') g).robot.pos = ⟨10, 20⟩ := by
  obtain ⟨r, hr, hv⟩ := Option.map_eq_some'.1 escape_run
  obtain ⟨g, rest⟩ := r
  simp only [Prod.mk.injEq] at hv
  obtain ⟨h1, h2, h3, h4, _⟩ := hv
  have hkey : tick_input (key_of 'm') g =
      { g with robot := { g.robot with ai_mode := !g.robot.ai_mode } } := by
    unfold tick_input handle_input
    rw [if_neg (by decide), if_neg (by decide), if_neg (by decide), if_pos (Or.inl rfl)]
  refine ⟨g, rest, hr, play_from_start_reachable _ _ _ _ _ hr, h1, ?_, h3, ?_, ?_, ?_, ?_⟩
  · rw [h2]
    decide
  · rw [h3]
    decide
  · rw [hkey]
    exact h1
  · rw [hkey]
    show (!g.robot.ai_mode) = true
    rw [h4]
    rfl
  · rw [hkey]
    exact h3

end RescueBot
